import Mathlib

/-!
Sieve, primality, factorization and divisor generation.

A shallow embedding of `number_theory/sieve_factor.cc` and a verification of its
contract.

* The three global vectors `smallest_factor`, `prime`, `primes` are the fields of
  `Tables`; `sieve` replaces them, the queries read them.
* The parameter of `sieve` is an `int`. The count `maximum + 1` of its tables is
  reduced with `wrap32`; it is negative exactly for `maximum = 2^31 - 1`, where
  `assign` throws and `sieve` gives `none`. For every other `int` all counters of
  `sieve` stay in range and are natural numbers here.
* `int64_t` query arguments are `Int`; table entries and values already checked
  to be `>= 1` are `Nat`. The tables of a finished `sieve` have at most `2^31 - 1`
  entries, so `sieve_max * sieve_max`, `p * p` and the quotients of the queries
  stay below `2^62` and are computed exactly.
* In `generate_factors` every `int` computation is reduced with `wrap32` and every
  `int64_t` product with `wrap64` (two's complement), an access outside a vector
  and a failed `assert` give `none`, and the function-local `static` vector
  `buffer` is passed in and returned.
-/

namespace SieveFactor

/-! ## Data model -/

/-- The global vectors `smallest_factor`, `prime` and `primes`. -/
structure Tables where
  smallest_factor : List Nat
  prime : List Bool
  primes : List Nat
deriving DecidableEq, Repr

/-- The state before any call of `sieve`: three empty vectors. -/
def initial_tables : Tables :=
  { smallest_factor := [], prime := [], primes := [] }

/-- Value of an `int` expression: reduction into `[-2^31, 2^31)`. -/
def wrap32 (x : Int) : Int :=
  (x + 2147483648) % 4294967296 - 2147483648

/-- Value of an `int64_t` expression: reduction into `[-2^63, 2^63)`. -/
def wrap64 (x : Int) : Int :=
  (x + 9223372036854775808) % 18446744073709551616 - 9223372036854775808

/-! ## `sieve` -/

/-- Body of the inner loop of `sieve` at index `i`:
`if (prime[i]) { prime[i] = false; smallest_factor[i] = p; }`. Every index that
`sieve` uses is at most `maximum`, inside both tables. -/
def sieve_mark (p i : Nat) (t : Tables) : Tables :=
  if t.prime.getD i false then
    { t with prime := t.prime.set i false, smallest_factor := t.smallest_factor.set i p }
  else t

/-- Inner loop `for (i = p * p; i <= maximum; i += p)` of `sieve`, started at `i`;
the first argument bounds the number of iterations. -/
def sieve_inner (maximum p : Nat) : Nat → Nat → Tables → Tables
  | 0, _, t => t
  | fuel + 1, i, t =>
    if i ≤ maximum then sieve_inner maximum p fuel (i + p) (sieve_mark p i t) else t

/-- Outer loop `for (p = 2; p <= maximum; p++)` of `sieve`, started at `p`;
the first argument bounds the number of iterations. -/
def sieve_outer (maximum : Nat) : Nat → Nat → Tables → Tables
  | 0, _, t => t
  | fuel + 1, p, t =>
    if p ≤ maximum then
      if t.prime.getD p false then
        sieve_outer maximum fuel (p + 1)
          (sieve_inner maximum p (maximum + 1) (p * p)
            { t with smallest_factor := t.smallest_factor.set p p, primes := t.primes ++ [p] })
      else sieve_outer maximum fuel (p + 1) t
    else t

/-- The table bound after `sieve(maximum)`: `max(maximum, 1)`. -/
def table_bound (maximum : Int) : Nat :=
  (max maximum 1).toNat

/-- Function `sieve(maximum)`, run on the tables `t`. The count `maximum + 1`
handed to `assign` is an `int`; `none` when it is negative, which it is for
`maximum = 2^31 - 1`: `assign` then throws and no tables are built. For every
other `int` the loop counters stay in range (`p <= maximum + 1 < 2^31`,
`i <= maximum + p < 2^62`). -/
def sieve (t : Tables) (maximum : Int) : Option Tables :=
  let m := table_bound maximum
  let count := wrap32 ((m : Int) + 1)
  if count < 0 then none
  else
    some (sieve_outer m m 2
      { t with
        smallest_factor := List.replicate count.toNat 0
        prime := ((List.replicate count.toNat true).set 0 false).set 1 false
        primes := [] })

/-! ## `is_prime` -/

/-- Loop `for (int64_t p : primes)` of `is_prime`. -/
def is_prime_loop : List Nat → Nat → Bool
  | [], _ => true
  | p :: ps, n =>
    if p * p > n then true
    else if n % p = 0 then false
    else is_prime_loop ps n

/-- Function `is_prime(n)`; `none` when the assertion fails or `prime[n]` is
read outside the vector. -/
def is_prime (t : Tables) (n : Int) : Option Bool :=
  let sieve_max : Int := (t.smallest_factor.length : Int) - 1
  if 1 ≤ n ∧ n ≤ sieve_max * sieve_max then
    if n ≤ sieve_max then t.prime[n.toNat]?
    else some (is_prime_loop t.primes n.toNat)
  else none

/-! ## `prime_factorize` -/

/-- The loop `do { n /= p; exponent++; } while (n % p == 0);`, returning the final
`(n, exponent)`; `none` when the first argument (a bound on the number of
iterations) is used up, which only an endless loop does. -/
def divide_out (p : Nat) : Nat → Nat → Nat → Option (Nat × Nat)
  | 0, _, _ => none
  | fuel + 1, n, exponent =>
    if (n / p) % p = 0 then divide_out p fuel (n / p) (exponent + 1)
    else some (n / p, exponent + 1)

/-- Loop `while (n != 1)` of the table path of `prime_factorize`; `none` on an
access outside `smallest_factor`, a division by zero or an endless loop. -/
def factorize_table (smallest_factor : List Nat) :
    Nat → Nat → List (Int × Int) → Option (List (Int × Int))
  | 0, n, result => if n = 1 then some result else none
  | fuel + 1, n, result =>
    if n = 1 then some result
    else
      match smallest_factor[n]? with
      | none => none
      | some p =>
        if p = 0 then none
        else
          match divide_out p n n 0 with
          | none => none
          | some (n1, exponent) =>
            factorize_table smallest_factor fuel n1 (result ++ [((p : Int), (exponent : Int))])

/-- Loop `for (int64_t p : primes)` of the trial-division path of
`prime_factorize`, returning the remaining `n` and the pairs found. -/
def factorize_trial : List Nat → Nat → List (Int × Int) → Option (Nat × List (Int × Int))
  | [], n, result => some (n, result)
  | p :: ps, n, result =>
    if p * p > n then some (n, result)
    else if p = 0 then none
    else if n % p = 0 then
      match divide_out p n n 0 with
      | none => none
      | some (n1, exponent) =>
        factorize_trial ps n1 (result ++ [((p : Int), (exponent : Int))])
    else factorize_trial ps n result

/-- Function `prime_factorize(n)`; `none` when the assertion fails (or a loop
misbehaves on tables that `sieve` did not build). -/
def prime_factorize (t : Tables) (n : Int) : Option (List (Int × Int)) :=
  let sieve_max : Int := (t.smallest_factor.length : Int) - 1
  if 1 ≤ n ∧ n ≤ sieve_max * sieve_max then
    if n ≤ sieve_max then factorize_table t.smallest_factor n.toNat n.toNat []
    else
      match factorize_trial t.primes n.toNat [] with
      | none => none
      | some (m, result) =>
        some (if m > 1 then result ++ [((m : Int), (1 : Int))] else result)
  else none

/-! ## The queries as steps on the global vectors -/

/-- Loop `for (int64_t p : primes)` of `is_prime` with the tables passed from
statement to statement: the value returned and the tables after the loop. -/
def is_prime_loop_call : List Nat → Nat → Tables → Bool × Tables
  | [], _, t => (true, t)
  | p :: ps, n, t =>
    if p * p > n then (true, t)
    else if n % p = 0 then (false, t)
    else is_prime_loop_call ps n t

/-- The call `is_prime(n)` as a step on the global vectors: the value returned
and the tables after the call; `none` when the call does not return. -/
def is_prime_call (t : Tables) (n : Int) : Option (Bool × Tables) :=
  let sieve_max : Int := (t.smallest_factor.length : Int) - 1
  if 1 ≤ n ∧ n ≤ sieve_max * sieve_max then
    if n ≤ sieve_max then
      match t.prime[n.toNat]? with
      | none => none
      | some b => some (b, t)
    else some (is_prime_loop_call t.primes n.toNat t)
  else none

/-- Loop `while (n != 1)` of `prime_factorize` with the tables passed from
statement to statement. -/
def factorize_table_call :
    Nat → Nat → List (Int × Int) → Tables → Option (List (Int × Int) × Tables)
  | 0, n, result, t => if n = 1 then some (result, t) else none
  | fuel + 1, n, result, t =>
    if n = 1 then some (result, t)
    else
      match t.smallest_factor[n]? with
      | none => none
      | some p =>
        if p = 0 then none
        else
          match divide_out p n n 0 with
          | none => none
          | some (n1, exponent) =>
            factorize_table_call fuel n1 (result ++ [((p : Int), (exponent : Int))]) t

/-- Loop `for (int64_t p : primes)` of `prime_factorize` with the tables passed
from statement to statement. -/
def factorize_trial_call :
    List Nat → Nat → List (Int × Int) → Tables → Option ((Nat × List (Int × Int)) × Tables)
  | [], n, result, t => some ((n, result), t)
  | p :: ps, n, result, t =>
    if p * p > n then some ((n, result), t)
    else if p = 0 then none
    else if n % p = 0 then
      match divide_out p n n 0 with
      | none => none
      | some (n1, exponent) =>
        factorize_trial_call ps n1 (result ++ [((p : Int), (exponent : Int))]) t
    else factorize_trial_call ps n result t

/-- The call `prime_factorize(n)` as a step on the global vectors: the list
returned and the tables after the call; `none` when the call does not return. -/
def prime_factorize_call (t : Tables) (n : Int) : Option (List (Int × Int) × Tables) :=
  let sieve_max : Int := (t.smallest_factor.length : Int) - 1
  if 1 ≤ n ∧ n ≤ sieve_max * sieve_max then
    if n ≤ sieve_max then factorize_table_call n.toNat n.toNat [] t
    else
      match factorize_trial_call t.primes n.toNat [] t with
      | none => none
      | some ((m, result), t1) =>
        some (if m > 1 then result ++ [((m : Int), (1 : Int))] else result, t1)
  else none

/-! ## `generate_factors` -/

/-- The accumulation `for (auto &pf : prime_factors) product *= pf.second + 1;`
in the `int` variable `product`. -/
def product (prime_factors : List (Int × Int)) : Int :=
  prime_factors.foldl (fun product pf => wrap32 (product * wrap32 (pf.2 + 1))) 1

/-- The call `buffer.resize(n)`. -/
def resize (buffer : List Int) (n : Nat) : List Int :=
  buffer.take n ++ List.replicate (n - buffer.length) 0

/-- The loop `for (i = 0; i < exponent * before_size; i++)
factors.push_back(factors[factors.size() - before_size] * p);` with `count`
iterations left. -/
def append_multiples (p before_size : Int) : Nat → List Int → Option (List Int)
  | 0, factors => some factors
  | count + 1, factors =>
    let index : Int := (factors.length : Int) - before_size
    if 0 ≤ index then
      match factors[index.toNat]? with
      | none => none
      | some f => append_multiples p before_size count (factors ++ [wrap64 (f * p)])
    else none

/-- The loop of `std::merge` on two ranges, writing one element per iteration:
the head of the second range is taken only when it is smaller than the head of
the first. The first argument bounds the number of elements written. -/
def merge_loop : Nat → List Int → List Int → List Int
  | 0, xs, ys => xs ++ ys
  | _ + 1, [], ys => ys
  | _ + 1, x :: xs, [] => x :: xs
  | count + 1, x :: xs, y :: ys =>
    if y < x then y :: merge_loop count (x :: xs) ys else x :: merge_loop count xs (y :: ys)

/-- The algorithm `std::merge` on two ranges. -/
def merge (xs ys : List Int) : List Int :=
  merge_loop (xs.length + ys.length) xs ys

/-- Loop `for (i = 0; i + section < size; i += 2 * section)` of the merge,
started at `i`, on the pair `(factors, buffer)`; `none` when a range leaves its
vector or the loop does not end. -/
def merge_pass (sect : Int) : Nat → Int → List Int × List Int → Option (List Int × List Int)
  | 0, _, _ => none
  | fuel + 1, i, (factors, buffer) =>
    if wrap32 (i + sect) < wrap32 factors.length then
      let length : Int := min (wrap32 (2 * sect)) (wrap32 (wrap32 factors.length - i))
      if 0 ≤ i ∧ 0 ≤ sect ∧ sect ≤ length ∧ i + length ≤ factors.length ∧
          length ≤ buffer.length then
        let merged := merge ((factors.drop i.toNat).take sect.toNat)
          ((factors.drop (i + sect).toNat).take (length - sect).toNat)
        let buffer1 := merged ++ buffer.drop length.toNat
        let factors1 := factors.take i.toNat ++ buffer1.take length.toNat ++
          factors.drop (i + length).toNat
        merge_pass sect fuel (wrap32 (i + wrap32 (2 * sect))) (factors1, buffer1)
      else none
    else some (factors, buffer)

/-- Loop `for (section = before_size; section < size; section *= 2)` of the
merge, started at `sect` (the variable `section`). -/
def merge_sections : Nat → Int → List Int × List Int → Option (List Int × List Int)
  | 0, _, _ => none
  | fuel + 1, sect, (factors, buffer) =>
    if sect < wrap32 factors.length then
      (merge_pass sect (factors.length + 1) 0 (factors, buffer)).bind
        (merge_sections fuel (wrap32 (sect * 2)))
    else some (factors, buffer)

/-- Body of the loop `for (auto &pf : prime_factors)` of `generate_factors` on
the pair `(factors, buffer)`. -/
def process_pair (sorted : Bool) (pf : Int × Int) (state : List Int × List Int) :
    Option (List Int × List Int) :=
  let p := pf.1
  let exponent := pf.2
  let before_size := wrap32 state.1.length
  match append_multiples p before_size (wrap32 (exponent * before_size)).toNat state.1 with
  | none => none
  | some factors =>
    if sorted then
      if 0 ≤ before_size - 1 then
        match factors[(before_size - 1).toNat]? with
        | none => none
        | some last =>
          if last > p then merge_sections (factors.length + 1) before_size (factors, state.2)
          else some (factors, state.2)
      else none
    else some (factors, state.2)

/-- The loop `for (auto &pf : prime_factors)` of `generate_factors`. -/
def process_pairs (sorted : Bool) :
    List (Int × Int) → List Int × List Int → Option (List Int × List Int)
  | [], state => some state
  | pf :: rest, state =>
    match process_pair sorted pf state with
    | none => none
    | some state1 => process_pairs sorted rest state1

/-- Function `generate_factors(prime_factors, sorted)` run with the static vector
holding `buffer`: the returned list and the new contents of the static vector.
`none` when `reserve` or `resize` is handed a negative count (they throw), when
a vector is accessed out of range, or when the final assertion fails. -/
def generate_factors (buffer : List Int) (prime_factors : List (Int × Int)) (sorted : Bool) :
    Option (List Int × List Int) :=
  let product := product prime_factors
  if product < 0 then none
  else
    match process_pairs sorted prime_factors
        ([1], if sorted then resize buffer product.toNat else buffer) with
    | none => none
    | some (factors, buffer1) =>
      if wrap32 factors.length = product then some (factors, buffer1) else none

/-! ## Specification predicates -/

/-- Primality as the contract words it: `n >= 2` with no divisor `d`, `1 < d < n`. -/
def IsPrimeNumber (n : Int) : Prop :=
  2 ≤ n ∧ ∀ d : Int, 1 < d → d < n → ¬ d ∣ n

/-- The tables when the outer loop of `sieve` has handled every candidate below
`p`: the composites with a prime factor below `p` are marked, and the smallest
factor is recorded for exactly the numbers whose least prime factor is below `p`. -/
structure SieveStage (m p : Nat) (t : Tables) : Prop where
  len_smallest_factor : t.smallest_factor.length = m + 1
  len_prime : t.prime.length = m + 1
  prime_eq : ∀ j, j ≤ m → t.prime[j]? = some (decide (2 ≤ j ∧ (j.Prime ∨ p ≤ j.minFac)))
  smallest_factor_eq : ∀ j, j ≤ m →
    t.smallest_factor[j]? = some (if 2 ≤ j ∧ j.minFac < p then j.minFac else 0)
  primes_eq : t.primes = (List.range p).filter (fun q => decide q.Prime)

/-- The tables of a finished sieve with table bound `m`. -/
structure Sieved (m : Nat) (t : Tables) : Prop where
  len_smallest_factor : t.smallest_factor.length = m + 1
  len_prime : t.prime.length = m + 1
  prime_eq : ∀ j, j ≤ m → t.prime[j]? = some (decide j.Prime)
  smallest_factor_eq : ∀ j, j ≤ m →
    t.smallest_factor[j]? = some (if 2 ≤ j then j.minFac else 0)
  primes_eq : t.primes = (List.range (m + 1)).filter (fun q => decide q.Prime)

/-- A pair `(p, exponent)` as `prime_factorize` stores it. -/
def to_pair (pf : Nat × Nat) : Int × Int :=
  ((pf.1 : Int), (pf.2 : Int))

/-- A prime-power factorization of `n`: primes, exponents at least one, strictly
increasing first components, and `n` as the product of the prime powers. -/
structure IsFactorization (n : Nat) (l : List (Nat × Nat)) : Prop where
  prod_eq : (l.map (fun pf => pf.1 ^ pf.2)).prod = n
  prime : ∀ pf ∈ l, pf.1.Prime ∧ 1 ≤ pf.2
  increasing : (l.map Prod.fst).Pairwise (· < ·)

/-- The blocks `l, l * p, l * p^2, ..., l * p^e` one after the other, each block
the previous one multiplied by `p`. -/
def power_blocks (p : Int) : Nat → List Int → List Int
  | 0, l => l
  | e + 1, l => l ++ power_blocks p e (l.map (· * p))

/-- The divisor list in construction order: every pair in turn replaces the list
by its `power_blocks`. -/
def expand (prime_factors : List (Int × Int)) (l : List Int) : List Int :=
  prime_factors.foldl (fun l pf => power_blocks pf.1 pf.2.toNat l) l

/-- Reference construction of the contract for one pair `(p, e)`: the
concatenation `L ++ (L scaled by p) ++ (L scaled by p^2) ++ ... ++ (L scaled by p^e)`,
where scaling multiplies every element and keeps the order. -/
def reference_step (l : List Int) (pf : Int × Int) : List Int :=
  ((List.range (pf.2.toNat + 1)).map (fun j => l.map (fun d => d * pf.1 ^ j))).flatten

/-- Reference construction of the contract: start with `[1]` and apply
`reference_step` for each pair in order. -/
def reference_factors (prime_factors : List (Int × Int)) : List Int :=
  prime_factors.foldl reference_step [1]

/-- The divisor count as a number: the product of `exponent + 1` over all pairs. -/
def divisor_count (prime_factors : List (Int × Int)) : Int :=
  (prime_factors.map (fun pf => pf.2 + 1)).prod

/-- The number a factorization stands for: the product of `p ^ exponent`. -/
def factorization_value (prime_factors : List (Int × Int)) : Int :=
  (prime_factors.map (fun pf => pf.1 ^ pf.2.toNat)).prod

/-- Well-formed input of `generate_factors`: first components at least two and
strictly increasing, exponents at least one. -/
def WellFormed (prime_factors : List (Int × Int)) : Prop :=
  (∀ pf ∈ prime_factors, 2 ≤ pf.1 ∧ 1 ≤ pf.2) ∧ (prime_factors.map Prod.fst).Pairwise (· < ·)

/-- The value fits an `int`. -/
def FitsInt32 (x : Int) : Prop :=
  -2147483648 ≤ x ∧ x ≤ 2147483647

/-- The value fits an `int64_t`. -/
def FitsInt64 (x : Int) : Prop :=
  -9223372036854775808 ≤ x ∧ x ≤ 9223372036854775807

/-- The list is a sequence of ascending runs of length `c`, the last one
possibly shorter: the state of the list between two passes of the doubling merge. -/
inductive Chunked (c : Nat) : List Int → Prop
  | last (l : List Int) : l.length ≤ c → l.Pairwise (· ≤ ·) → Chunked c l
  | cons (a rest : List Int) : a.length = c → a.Pairwise (· ≤ ·) → Chunked c rest →
      Chunked c (a ++ rest)

/-- Two outcomes of a part of `generate_factors` that differ at most in the
contents of the static buffer: both fail, or both end with the same list
`factors` and buffers of the same size. -/
def SameFactors (x y : Option (List Int × List Int)) : Prop :=
  x.map Prod.fst = y.map Prod.fst ∧
    x.map (fun r => r.2.length) = y.map (fun r => r.2.length)

/-! ## The inner loop of `sieve` -/

theorem getD_false_eq_true_iff (l : List Bool) (i : Nat) :
    l.getD i false = true ↔ l[i]? = some true := by
  rw [List.getD_eq_getElem?_getD]
  cases h : l[i]? with
  | none => simp
  | some b => cases b <;> simp

theorem sieve_mark_eq (p i : Nat) (t : Tables) :
    sieve_mark p i t =
      if t.prime[i]? = some true then
        { t with prime := t.prime.set i false, smallest_factor := t.smallest_factor.set i p }
      else t := by
  unfold sieve_mark
  by_cases h : t.prime[i]? = some true
  · rw [if_pos h, if_pos ((getD_false_eq_true_iff _ _).2 h)]
  · rw [if_neg h, if_neg (fun h' => h ((getD_false_eq_true_iff _ _).1 h'))]

theorem sieve_mark_prime (p i : Nat) (t : Tables) (j : Nat) :
    (sieve_mark p i t).prime[j]? =
      if j = i then t.prime[j]?.map (fun _ => false) else t.prime[j]? := by
  rw [sieve_mark_eq]
  by_cases hb : t.prime[i]? = some true
  · rw [if_pos hb]
    by_cases hji : j = i
    · subst hji
      have hlt : j < t.prime.length := by
        by_contra hge
        rw [List.getElem?_eq_none (by omega)] at hb
        cases hb
      simp [List.getElem?_set, hlt, List.getElem?_eq_getElem]
    · have hij : ¬ i = j := fun h => hji h.symm
      simp [hji, hij, List.getElem?_set]
  · rw [if_neg hb]
    by_cases hji : j = i
    · subst hji
      cases h : t.prime[j]? with
      | none => simp
      | some b => cases b <;> simp_all
    · simp [hji]

theorem sieve_mark_smallest_factor (p i : Nat) (t : Tables) (j : Nat) :
    (sieve_mark p i t).smallest_factor[j]? =
      if j = i ∧ t.prime[i]? = some true then t.smallest_factor[j]?.map (fun _ => p)
      else t.smallest_factor[j]? := by
  rw [sieve_mark_eq]
  by_cases hb : t.prime[i]? = some true
  · rw [if_pos hb]
    by_cases hji : j = i
    · subst hji
      by_cases hlt : j < t.smallest_factor.length
      · simp [hb, List.getElem?_set, hlt, List.getElem?_eq_getElem]
      · have hnone : t.smallest_factor[j]? = none := List.getElem?_eq_none (by omega)
        simp [hb, hnone, List.getElem?_set, hlt]
    · have hij : ¬ i = j := fun h => hji h.symm
      simp [hji, hij, List.getElem?_set]
  · simp [hb]

theorem sieve_mark_primes (p i : Nat) (t : Tables) : (sieve_mark p i t).primes = t.primes := by
  rw [sieve_mark_eq]
  split <;> rfl

theorem sieve_mark_lengths (p i : Nat) (t : Tables) :
    (sieve_mark p i t).prime.length = t.prime.length ∧
      (sieve_mark p i t).smallest_factor.length = t.smallest_factor.length := by
  rw [sieve_mark_eq]
  split <;> simp

theorem sieve_inner_primes (m p : Nat) (fuel i : Nat) (t : Tables) :
    (sieve_inner m p fuel i t).primes = t.primes := by
  induction fuel generalizing i t with
  | zero => rfl
  | succ fuel ih =>
    unfold sieve_inner
    split
    · rw [ih, sieve_mark_primes]
    · rfl

theorem sieve_inner_lengths (m p : Nat) (fuel i : Nat) (t : Tables) :
    (sieve_inner m p fuel i t).prime.length = t.prime.length ∧
      (sieve_inner m p fuel i t).smallest_factor.length = t.smallest_factor.length := by
  induction fuel generalizing i t with
  | zero => exact ⟨rfl, rfl⟩
  | succ fuel ih =>
    unfold sieve_inner
    split
    · rw [(ih _ _).1, (ih _ _).2]
      exact sieve_mark_lengths p i t
    · exact ⟨rfl, rfl⟩

/-- Whether the inner loop started at `i` with step `p` visits index `j`. -/
theorem visited_step (p i j m : Nat) (hp : 0 < p) (hji : j ≠ i) :
    (i ≤ j ∧ j ≤ m ∧ p ∣ (j - i)) ↔ (i + p ≤ j ∧ j ≤ m ∧ p ∣ (j - (i + p))) := by
  constructor
  · rintro ⟨h1, h2, k, hk⟩
    have hk0 : k ≠ 0 := by
      rintro rfl
      omega
    obtain ⟨k', rfl⟩ := Nat.exists_eq_succ_of_ne_zero hk0
    have : j - i = p * k' + p := by rw [hk, Nat.mul_succ]
    refine ⟨by omega, h2, k', by omega⟩
  · rintro ⟨h1, h2, k, hk⟩
    refine ⟨by omega, h2, k + 1, ?_⟩
    rw [Nat.mul_succ]
    omega

theorem sieve_inner_prime (m p : Nat) (hp : 0 < p) (fuel i : Nat) (t : Tables)
    (hfuel : m < fuel + i) (j : Nat) :
    (sieve_inner m p fuel i t).prime[j]? =
      t.prime[j]?.map (fun b => b && !decide (i ≤ j ∧ j ≤ m ∧ p ∣ (j - i))) := by
  induction fuel generalizing i t with
  | zero =>
    have : ¬ (i ≤ j ∧ j ≤ m ∧ p ∣ (j - i)) := by omega
    simp only [sieve_inner, this, decide_False, Bool.not_false, Bool.and_true]
    cases t.prime[j]? <;> rfl
  | succ fuel ih =>
    unfold sieve_inner
    by_cases him : i ≤ m
    · rw [if_pos him, ih _ _ (by omega), sieve_mark_prime]
      by_cases hji : j = i
      · subst hji
        have : (j ≤ j ∧ j ≤ m ∧ p ∣ (j - j)) := ⟨le_refl _, him, by simp⟩
        cases h : t.prime[j]? <;> simp [this]
      · rw [if_neg hji]
        have := visited_step p i j m hp hji
        cases h : t.prime[j]? with
        | none => rfl
        | some b => simp only [Option.map_some', this]
    · rw [if_neg him]
      have : ¬ (i ≤ j ∧ j ≤ m ∧ p ∣ (j - i)) := by omega
      simp only [this, decide_False, Bool.not_false, Bool.and_true]
      cases t.prime[j]? <;> rfl

theorem sieve_inner_smallest_factor (m p : Nat) (hp : 0 < p) (fuel i : Nat) (t : Tables)
    (hfuel : m < fuel + i) (j : Nat) :
    (sieve_inner m p fuel i t).smallest_factor[j]? =
      t.smallest_factor[j]?.map (fun v =>
        if t.prime[j]? = some true ∧ i ≤ j ∧ j ≤ m ∧ p ∣ (j - i) then p else v) := by
  induction fuel generalizing i t with
  | zero =>
    have : ¬ (t.prime[j]? = some true ∧ i ≤ j ∧ j ≤ m ∧ p ∣ (j - i)) := by omega
    simp only [sieve_inner, this, if_false]
    cases t.smallest_factor[j]? <;> rfl
  | succ fuel ih =>
    unfold sieve_inner
    by_cases him : i ≤ m
    · rw [if_pos him, ih _ _ (by omega), sieve_mark_smallest_factor, sieve_mark_prime]
      by_cases hji : j = i
      · subst hji
        have h1 : ¬ (j + p ≤ j) := by omega
        have h2 : (j ≤ j ∧ j ≤ m ∧ p ∣ (j - j)) := ⟨le_refl _, him, by simp⟩
        by_cases hb : t.prime[j]? = some true
        · cases h : t.smallest_factor[j]? <;> simp [hb, h1, h2]
        · cases h : t.smallest_factor[j]? <;> simp [hb, h1]
      · have := visited_step p i j m hp hji
        simp only [hji, false_and, if_false, this]
    · rw [if_neg him]
      have : ¬ (t.prime[j]? = some true ∧ i ≤ j ∧ j ≤ m ∧ p ∣ (j - i)) := by omega
      simp only [this, if_false]
      cases t.smallest_factor[j]? <;> rfl

/-! ## The outer loop of `sieve` -/

theorem sieve_stage_init (t : Tables) (m : Nat) (hm : 1 ≤ m) :
    SieveStage m 2
      { t with
        smallest_factor := List.replicate (m + 1) 0
        prime := ((List.replicate (m + 1) true).set 0 false).set 1 false
        primes := [] } := by
  refine ⟨by simp, by simp, ?_, ?_, by simp [List.range_succ, Nat.not_prime_zero, Nat.not_prime_one]⟩
  · intro j hj
    have hlt : j < m + 1 := by omega
    simp only [List.getElem?_set, List.length_set, List.length_replicate,
      List.getElem?_replicate]
    rcases Nat.lt_or_ge j 2 with h2 | h2
    · interval_cases j <;> simp
      omega
    · have h1 : ¬ (1 = j) := by omega
      have h0 : ¬ (0 = j) := by omega
      have hmf : 2 ≤ j.minFac := (Nat.minFac_prime (by omega)).two_le
      simp [h1, h0, hlt, h2, hmf]
  · intro j hj
    have hlt : j < m + 1 := by omega
    have hmf : ¬ (2 ≤ j ∧ j.minFac < 2) := by
      rintro ⟨h2, h⟩
      have := (Nat.minFac_prime (n := j) (by omega)).two_le
      omega
    simp [List.getElem?_replicate, hlt, hmf]

theorem sieve_stage_skip (m p : Nat) (t : Tables) (hp : 2 ≤ p) (hpm : p ≤ m)
    (h : SieveStage m p t) (hb : ¬ t.prime.getD p false = true) : SieveStage m (p + 1) t := by
  have hnp : ¬ p.Prime := by
    intro hpr
    apply hb
    rw [getD_false_eq_true_iff, h.prime_eq p hpm]
    simp [hp, hpr]
  have key : ∀ j, 2 ≤ j → j.minFac ≠ p := by
    intro j hj he
    exact hnp (he ▸ Nat.minFac_prime (by omega))
  refine ⟨h.len_smallest_factor, h.len_prime, ?_, ?_, ?_⟩
  · intro j hj
    rw [h.prime_eq j hj]
    congr 1
    by_cases h2 : 2 ≤ j
    · have := key j h2
      have e : (p + 1 ≤ j.minFac) ↔ (p ≤ j.minFac) := by omega
      simp only [e]
    · simp [h2]
  · intro j hj
    rw [h.smallest_factor_eq j hj]
    congr 1
    by_cases h2 : 2 ≤ j
    · have := key j h2
      have e : (j.minFac < p + 1) ↔ (j.minFac < p) := by omega
      simp only [e]
    · simp [h2]
  · rw [h.primes_eq, List.range_succ, List.filter_append]
    simp [hnp]

theorem sieve_stage_mark (m p : Nat) (t : Tables) (hp : 2 ≤ p) (hpm : p ≤ m)
    (h : SieveStage m p t) (hb : t.prime.getD p false = true) :
    SieveStage m (p + 1)
      (sieve_inner m p (m + 1) (p * p)
        { t with smallest_factor := t.smallest_factor.set p p, primes := t.primes ++ [p] }) := by
  have hpr : p.Prime := by
    rw [getD_false_eq_true_iff, h.prime_eq p hpm] at hb
    simp only [Option.some.injEq, decide_eq_true_eq] at hb
    rcases hb.2 with h1 | h1
    · exact h1
    · exact Nat.prime_def_minFac.2 ⟨hp, le_antisymm (Nat.minFac_le (by omega)) h1⟩
  have hp0 : 0 < p := by omega
  have hfuel : m < m + 1 + p * p := by omega
  have hvis : ∀ j, (p * p ≤ j ∧ j ≤ m ∧ p ∣ (j - p * p)) ↔ (p * p ≤ j ∧ j ≤ m ∧ p ∣ j) := by
    intro j
    constructor
    · rintro ⟨h1, h2, h3⟩
      refine ⟨h1, h2, ?_⟩
      have : j = (j - p * p) + p * p := by omega
      rw [this]
      exact Dvd.dvd.add h3 (Dvd.intro _ rfl)
    · rintro ⟨h1, h2, h3⟩
      exact ⟨h1, h2, Nat.dvd_sub' h3 (Dvd.intro _ rfl)⟩
  refine ⟨?_, ?_, ?_, ?_, ?_⟩
  · rw [(sieve_inner_lengths _ _ _ _ _).2]
    simpa using h.len_smallest_factor
  · rw [(sieve_inner_lengths _ _ _ _ _).1]
    exact h.len_prime
  · intro j hj
    rw [sieve_inner_prime m p hp0 _ _ _ hfuel]
    show Option.map _ t.prime[j]? = _
    rw [h.prime_eq j hj, Option.map_some']
    simp only [hvis]
    congr 1
    by_cases h2 : 2 ≤ j
    · by_cases hjp : j.Prime
      · have : ¬ (p * p ≤ j ∧ j ≤ m ∧ p ∣ j) := by
          rintro ⟨h1, -, h3⟩
          have : p = j := (Nat.prime_dvd_prime_iff_eq hpr hjp).1 h3
          subst this
          nlinarith
        simp [h2, hjp, this]
      · have hmf : j.minFac ∣ j := Nat.minFac_dvd j
        by_cases hlt : j.minFac < p
        · have e1 : ¬ (p ≤ j.minFac) := by omega
          have e2 : ¬ (p + 1 ≤ j.minFac) := by omega
          simp [h2, hjp, e1, e2]
        · by_cases heq : j.minFac = p
          · have hsq : p * p ≤ j := by
              have := Nat.minFac_sq_le_self (n := j) (by omega) hjp
              rw [heq] at this
              nlinarith
            have hd : p ∣ j := heq ▸ hmf
            have e1 : (p ≤ j.minFac) := by omega
            have e2 : ¬ (p + 1 ≤ j.minFac) := by omega
            simp [h2, hjp, e1, e2, hsq, hj, hd]
          · have hd : ¬ p ∣ j := fun hd => by
              have := Nat.minFac_le_of_dvd hp hd
              omega
            have e1 : (p ≤ j.minFac) := by omega
            have e2 : (p + 1 ≤ j.minFac) := by omega
            simp [h2, hjp, e1, e2, hd]
    · simp [h2]
  · intro j hj
    rw [sieve_inner_smallest_factor m p hp0 _ _ _ hfuel]
    show Option.map _ (t.smallest_factor.set p p)[j]? = _
    have hlen : p < t.smallest_factor.length := by rw [h.len_smallest_factor]; omega
    simp only [hvis]
    show Option.map (fun v => if t.prime[j]? = some true ∧ _ then p else v) _ = _
    rw [h.prime_eq j hj, List.getElem?_set]
    by_cases hjp : p = j
    · subst hjp
      have e1 : ¬ (p * p ≤ p) := by nlinarith
      have e2 : p.minFac = p := (Nat.prime_def_minFac.1 hpr).2
      simp [hlen, e1, e2, hp]
    · rw [if_neg hjp, h.smallest_factor_eq j hj, Option.map_some']
      congr 1
      by_cases h2 : 2 ≤ j
      · by_cases hprj : j.Prime
        · have e : j.minFac = j := (Nat.prime_def_minFac.1 hprj).2
          have : ¬ (p * p ≤ j ∧ j ≤ m ∧ p ∣ j) := by
            rintro ⟨h1, -, h3⟩
            have : p = j := (Nat.prime_dvd_prime_iff_eq hpr hprj).1 h3
            exact hjp this
          have e3 : (j < p + 1) ↔ (j < p) := by omega
          simp [h2, hprj, this, e, e3]
        · have hmf : j.minFac ∣ j := Nat.minFac_dvd j
          by_cases hlt : j.minFac < p
          · have e1 : ¬ (p ≤ j.minFac) := by omega
            have e2 : (j.minFac < p + 1) := by omega
            simp [h2, hprj, e1, e2, hlt]
          · by_cases heq : j.minFac = p
            · have hsq : p * p ≤ j := by
                have := Nat.minFac_sq_le_self (n := j) (by omega) hprj
                rw [heq] at this
                nlinarith
              have hd : p ∣ j := heq ▸ hmf
              simp [h2, hprj, heq, hsq, hj, hd]
            · have hd : ¬ p ∣ j := fun hd => by
                have := Nat.minFac_le_of_dvd hp hd
                omega
              have e2 : ¬ (j.minFac < p + 1) := by omega
              simp [h2, hprj, hlt, e2, hd]
      · simp [h2]
  · rw [sieve_inner_primes]
    show t.primes ++ [p] = _
    rw [h.primes_eq, List.range_succ, List.filter_append]
    simp [hpr]

theorem sieve_outer_stage (m : Nat) (fuel p : Nat) (t : Tables) (hp : 2 ≤ p)
    (hpm : p ≤ m + 1) (hfuel : m + 1 ≤ fuel + p) (h : SieveStage m p t) :
    SieveStage m (m + 1) (sieve_outer m fuel p t) := by
  induction fuel generalizing p t with
  | zero =>
    have : p = m + 1 := by omega
    subst this
    exact h
  | succ fuel ih =>
    unfold sieve_outer
    by_cases hle : p ≤ m
    · rw [if_pos hle]
      by_cases hb : t.prime.getD p false = true
      · rw [if_pos hb]
        exact ih (p + 1) _ (by omega) (by omega) (by omega) (sieve_stage_mark m p t hp hle h hb)
      · rw [if_neg hb]
        exact ih (p + 1) _ (by omega) (by omega) (by omega) (sieve_stage_skip m p t hp hle h hb)
    · rw [if_neg hle]
      have : p = m + 1 := by omega
      subst this
      exact h

theorem table_bound_pos (maximum : Int) : 1 ≤ table_bound maximum := by
  unfold table_bound
  omega

theorem sieve_eq (t : Tables) (maximum : Int) (hmax : maximum < 2147483647) :
    sieve t maximum = some (sieve_outer (table_bound maximum) (table_bound maximum) 2
      { t with
        smallest_factor := List.replicate (table_bound maximum + 1) 0
        prime := ((List.replicate (table_bound maximum + 1) true).set 0 false).set 1 false
        primes := [] }) := by
  have hm := table_bound_pos maximum
  have hlt : (table_bound maximum : Int) < 2147483647 := by
    unfold table_bound
    omega
  have hcount : wrap32 ((table_bound maximum : Int) + 1) = (table_bound maximum : Int) + 1 := by
    unfold wrap32
    omega
  have hnat : ((table_bound maximum : Int) + 1).toNat = table_bound maximum + 1 := by omega
  unfold sieve
  simp only [hcount, hnat]
  rw [if_neg (by omega)]

theorem sieve_sieved (t : Tables) (maximum : Int) (hmax : maximum < 2147483647) :
    ∃ tb, sieve t maximum = some tb ∧ Sieved (table_bound maximum) tb := by
  refine ⟨_, sieve_eq t maximum hmax, ?_⟩
  have hm := table_bound_pos maximum
  have h := sieve_outer_stage (table_bound maximum) (table_bound maximum) 2 _ (le_refl 2)
    (by omega) (by omega) (sieve_stage_init t (table_bound maximum) hm)
  refine ⟨h.len_smallest_factor, h.len_prime, ?_, ?_, h.primes_eq⟩
  · intro j hj
    rw [h.prime_eq j hj]
    congr 1
    by_cases h2 : 2 ≤ j
    · have : ¬ (table_bound maximum + 1 ≤ j.minFac) := by
        have := Nat.minFac_le (n := j) (by omega)
        omega
      simp [h2, this]
    · have : ¬ j.Prime := fun hp => h2 hp.two_le
      simp [h2, this]
  · intro j hj
    rw [h.smallest_factor_eq j hj]
    congr 1
    by_cases h2 : 2 ≤ j
    · have : (j.minFac < table_bound maximum + 1) := by
        have := Nat.minFac_le (n := j) (by omega)
        omega
      simp [h2, this]
    · simp [h2]

theorem isPrimeNumber_natCast (n : Nat) : IsPrimeNumber (n : Int) ↔ n.Prime := by
  rw [Nat.prime_def_lt']
  constructor
  · rintro ⟨h2, h⟩
    refine ⟨by omega, fun d hd hdn hdvd => ?_⟩
    exact h (d : Int) (by omega) (by omega) (Int.natCast_dvd_natCast.2 hdvd)
  · rintro ⟨h2, h⟩
    refine ⟨by omega, fun d hd hdn hdvd => ?_⟩
    have hd0 : 0 ≤ d := by omega
    obtain ⟨k, rfl⟩ := Int.eq_ofNat_of_zero_le hd0
    exact h k (by omega) (by omega) (Int.natCast_dvd_natCast.1 hdvd)

theorem primes_pairwise (m : Nat) :
    ((List.range m).filter (fun q => decide q.Prime)).Pairwise (· < ·) :=
  List.Pairwise.filter _ (List.pairwise_lt_range m)

theorem mem_primes (m q : Nat) :
    q ∈ (List.range (m + 1)).filter (fun q => decide q.Prime) ↔ q.Prime ∧ q ≤ m := by
  simp only [List.mem_filter, List.mem_range, decide_eq_true_eq]
  constructor
  · rintro ⟨h1, h2⟩
    exact ⟨h2, by omega⟩
  · rintro ⟨h1, h2⟩
    exact ⟨by omega, h1⟩

theorem is_prime_loop_eq_true (ps : List Nat) (n : Nat) (hs : ps.Pairwise (· < ·)) :
    is_prime_loop ps n = true ↔ ∀ p ∈ ps, p * p ≤ n → ¬ p ∣ n := by
  induction ps with
  | nil => simp [is_prime_loop]
  | cons p ps ih =>
    rw [List.pairwise_cons] at hs
    unfold is_prime_loop
    by_cases hpp : p * p > n
    · rw [if_pos hpp]
      simp only [true_iff]
      intro q hq hqq
      rcases List.mem_cons.1 hq with rfl | hq'
      · omega
      · have := hs.1 q hq'
        have : p * p < q * q := by nlinarith
        omega
    · rw [if_neg hpp]
      by_cases hmod : n % p = 0
      · rw [if_pos hmod]
        simp only [Bool.false_eq_true, false_iff]
        intro h
        exact h p (List.mem_cons_self _ _) (by omega) (Nat.dvd_of_mod_eq_zero hmod)
      · rw [if_neg hmod, ih hs.2]
        constructor
        · intro h q hq hqq
          rcases List.mem_cons.1 hq with rfl | hq'
          · exact fun hd => hmod (Nat.mod_eq_zero_of_dvd hd)
          · exact h q hq' hqq
        · intro h q hq hqq
          exact h q (List.mem_cons_of_mem _ hq) hqq

theorem prime_iff_no_small_prime_factor (n m : Nat) (h2 : 2 ≤ n) (hn : n ≤ m * m) :
    n.Prime ↔ ∀ p, p.Prime ∧ p ≤ m → p * p ≤ n → ¬ p ∣ n := by
  constructor
  · rintro hp q ⟨hq, -⟩ hqq hd
    have : q = n := (Nat.prime_dvd_prime_iff_eq hq hp).1 hd
    subst this
    have := hq.two_le
    nlinarith
  · intro h
    by_contra hnp
    have hsq := Nat.minFac_sq_le_self (n := n) (by omega) hnp
    have hpr : n.minFac.Prime := Nat.minFac_prime (by omega)
    have hle : n.minFac ≤ m := by
      by_contra hgt
      have : m + 1 ≤ n.minFac := by omega
      nlinarith
    exact h n.minFac ⟨hpr, hle⟩ (by nlinarith) (Nat.minFac_dvd n)

theorem is_prime_sieved (m : Nat) (t : Tables) (h : Sieved m t) (n : Int) (h1 : 1 ≤ n)
    (hn : n ≤ (m : Int) * m) : is_prime t n = some (decide n.toNat.Prime) := by
  obtain ⟨k, rfl⟩ := Int.eq_ofNat_of_zero_le (by omega : 0 ≤ n)
  have hk : k ≤ m * m := by exact_mod_cast hn
  unfold is_prime
  simp only [h.len_smallest_factor, Nat.cast_add, Nat.cast_one, add_sub_cancel_right,
    Int.toNat_ofNat]
  rw [if_pos ⟨h1, hn⟩]
  by_cases hkm : (k : Int) ≤ m
  · rw [if_pos hkm, h.prime_eq k (by exact_mod_cast hkm)]
  · rw [if_neg hkm, h.primes_eq]
    have hkm' : m < k := by
      have : (m : Int) < k := by omega
      exact_mod_cast this
    have hm1 : 1 ≤ k := by exact_mod_cast h1
    congr 1
    rw [Bool.eq_iff_iff, is_prime_loop_eq_true _ _ (primes_pairwise _), decide_eq_true_eq,
      prime_iff_no_small_prime_factor k m (by
        rcases Nat.eq_zero_or_pos m with h0 | h0
        · subst h0; omega
        · omega) hk]
    simp only [mem_primes]

/-! ## `prime_factorize` -/

theorem divide_out_spec (p : Nat) (hp : 2 ≤ p) (fuel n exponent : Nat) (hn : 1 ≤ n)
    (hfuel : n ≤ fuel) (hd : p ∣ n) :
    ∃ k n1, 1 ≤ k ∧ 1 ≤ n1 ∧ n = p ^ k * n1 ∧ ¬ p ∣ n1 ∧
      divide_out p fuel n exponent = some (n1, exponent + k) := by
  induction fuel generalizing n exponent with
  | zero => omega
  | succ fuel ih =>
    obtain ⟨q, rfl⟩ := hd
    have hq : 1 ≤ q := by
      rcases Nat.eq_zero_or_pos q with h0 | h0
      · subst h0; simp at hn
      · exact h0
    have hdiv : p * q / p = q := Nat.mul_div_cancel_left q (by omega)
    have hlt : q < p * q := by nlinarith
    unfold divide_out
    rw [hdiv]
    by_cases hmod : q % p = 0
    · rw [if_pos hmod]
      obtain ⟨k, n1, hk, hn1, he, hnd, hres⟩ :=
        ih q (exponent + 1) hq (by omega) (Nat.dvd_of_mod_eq_zero hmod)
      refine ⟨k + 1, n1, by omega, hn1, ?_, hnd, ?_⟩
      · rw [he, pow_succ]
        ring
      · rw [hres]
        congr 2
        omega
    · rw [if_neg hmod]
      refine ⟨1, q, le_refl 1, hq, by simp, fun hd => hmod (Nat.mod_eq_zero_of_dvd hd), rfl⟩

theorem prime_dvd_of_mem_factorization (n : Nat) (l : List (Nat × Nat))
    (h : IsFactorization n l) (pf : Nat × Nat) (hpf : pf ∈ l) : pf.1 ∣ n := by
  rw [← h.prod_eq]
  have h1 : pf.1 ^ pf.2 ∈ l.map (fun pf => pf.1 ^ pf.2) := List.mem_map_of_mem _ hpf
  exact dvd_trans (dvd_pow_self _ (by have := (h.prime pf hpf).2; omega)) (List.dvd_prod h1)

theorem isFactorization_nil : IsFactorization 1 [] :=
  ⟨by simp, by simp, by simp⟩

theorem isFactorization_cons (p k n1 : Nat) (l : List (Nat × Nat)) (hp : p.Prime) (hk : 1 ≤ k)
    (hl : IsFactorization n1 l) (hlt : ∀ pf ∈ l, p < pf.1) :
    IsFactorization (p ^ k * n1) ((p, k) :: l) := by
  refine ⟨?_, ?_, ?_⟩
  · simp [hl.prod_eq]
  · intro pf hpf
    rcases List.mem_cons.1 hpf with rfl | h
    · exact ⟨hp, hk⟩
    · exact hl.prime pf h
  · simp only [List.map_cons, List.pairwise_cons]
    refine ⟨?_, hl.increasing⟩
    intro q hq
    obtain ⟨pf, hpf, rfl⟩ := List.mem_map.1 hq
    exact hlt pf hpf

theorem factorize_table_spec (m : Nat) (sf : List Nat)
    (hsf : ∀ j, j ≤ m → sf[j]? = some (if 2 ≤ j then j.minFac else 0))
    (fuel n : Nat) (result : List (Int × Int)) (h1 : 1 ≤ n) (hnm : n ≤ m) (hfuel : n ≤ fuel) :
    ∃ l, IsFactorization n l ∧
      factorize_table sf fuel n result = some (result ++ l.map to_pair) := by
  induction fuel generalizing n result with
  | zero => omega
  | succ fuel ih =>
    unfold factorize_table
    by_cases hn1 : n = 1
    · subst hn1
      exact ⟨[], isFactorization_nil, by simp⟩
    · rw [if_neg hn1, hsf n hnm]
      have h2 : 2 ≤ n := by omega
      have hpr : n.minFac.Prime := Nat.minFac_prime hn1
      have hp0 : n.minFac ≠ 0 := hpr.ne_zero
      simp only [h2, if_true, hp0, if_false]
      obtain ⟨k, n1, hk, hn1', he, hnd, hres⟩ :=
        divide_out_spec n.minFac hpr.two_le n n 0 h1 (le_refl n) (Nat.minFac_dvd n)
      rw [hres]
      simp only [zero_add]
      have hpk : 2 ≤ n.minFac ^ k := by
        calc 2 ≤ n.minFac := hpr.two_le
          _ = n.minFac ^ 1 := (pow_one _).symm
          _ ≤ n.minFac ^ k := Nat.pow_le_pow_right (by omega) hk
      have hlt : n1 < n := by
        rw [he]
        nlinarith
      obtain ⟨l, hl, hrec⟩ := ih n1 (result ++ [((n.minFac : Int), (k : Int))]) hn1'
        (by omega) (by omega)
      refine ⟨(n.minFac, k) :: l, ?_, ?_⟩
      · have := isFactorization_cons n.minFac k n1 l hpr hk hl (fun pf hpf => by
          have hd1 : pf.1 ∣ n1 := prime_dvd_of_mem_factorization n1 l hl pf hpf
          have hd : pf.1 ∣ n := by
            rw [he]
            exact Dvd.dvd.mul_left hd1 _
          have hle := Nat.minFac_le_of_dvd (hl.prime pf hpf).1.two_le hd
          have hne : n.minFac ≠ pf.1 := fun heq => hnd (heq ▸ hd1)
          omega)
        rwa [← he] at this
      · rw [hrec]
        simp [to_pair]

/-- What the trial-division loop needs of the rest `ps` of the prime list when it
is about to try the primes from `lo` on: `ps` is increasing and holds exactly
primes up to `m`, among them every prime in `[lo, m]`. -/
theorem factorize_trial_spec (m : Nat) (ps : List Nat) (lo n : Nat) (result : List (Int × Int))
    (hs : ps.Pairwise (· < ·)) (hps : ∀ q ∈ ps, q.Prime ∧ q ≤ m)
    (hall : ∀ q, q.Prime → lo ≤ q → q ≤ m → q ∈ ps) (hmin : ∀ q ∈ ps, lo ≤ q)
    (h1 : 1 ≤ n) (hn : n ≤ m * m) (hlo : ∀ q, q.Prime → q ∣ n → lo ≤ q) :
    ∃ l n1, factorize_trial ps n result = some (n1, result ++ l.map to_pair) ∧
      1 ≤ n1 ∧ IsFactorization (n / n1) l ∧ n1 ∣ n ∧ (∀ pf ∈ l, lo ≤ pf.1) ∧
      (n1 = 1 ∨ (n1.Prime ∧ ∀ pf ∈ l, pf.1 < n1)) := by
  induction ps generalizing lo n result with
  | nil =>
    refine ⟨[], n, by simp [factorize_trial], h1, ?_, dvd_refl n, by simp, ?_⟩
    · rw [Nat.div_self (by omega)]
      exact isFactorization_nil
    · by_cases hn1 : n = 1
      · exact Or.inl hn1
      · right
        refine ⟨?_, by simp⟩
        by_contra hnp
        have hsq := Nat.minFac_sq_le_self (n := n) (by omega) hnp
        have hpr : n.minFac.Prime := Nat.minFac_prime hn1
        have hle : n.minFac ≤ m := by
          by_contra hgt
          have : m + 1 ≤ n.minFac := by omega
          nlinarith
        have := hall n.minFac hpr (hlo _ hpr (Nat.minFac_dvd n)) hle
        simp at this
  | cons p ps ih =>
    rw [List.pairwise_cons] at hs
    have hpp : p.Prime := (hps p (List.mem_cons_self _ _)).1
    have hpm : p ≤ m := (hps p (List.mem_cons_self _ _)).2
    have hge : ∀ q, q.Prime → q ∣ n → p ≤ q := by
      intro q hq hd
      by_cases hqm : q ≤ m
      · rcases List.mem_cons.1 (hall q hq (hlo q hq hd) hqm) with rfl | hmem
        · exact le_refl _
        · exact le_of_lt (hs.1 q hmem)
      · omega
    have hall' : ∀ q, q.Prime → p + 1 ≤ q → q ≤ m → q ∈ ps := by
      intro q hq hpq hqm
      have hlq : lo ≤ q := by
        have := hmin p (List.mem_cons_self _ _)
        omega
      rcases List.mem_cons.1 (hall q hq hlq hqm) with rfl | hmem
      · omega
      · exact hmem
    have hps' : ∀ q ∈ ps, q.Prime ∧ q ≤ m := fun q hq => hps q (List.mem_cons_of_mem _ hq)
    have hmin' : ∀ q ∈ ps, p + 1 ≤ q := fun q hq => hs.1 q hq
    have hlop : lo ≤ p := hmin p (List.mem_cons_self _ _)
    unfold factorize_trial
    by_cases hsq : p * p > n
    · rw [if_pos hsq]
      refine ⟨[], n, by simp, h1, ?_, dvd_refl n, by simp, ?_⟩
      · rw [Nat.div_self (by omega)]
        exact isFactorization_nil
      · by_cases hn1 : n = 1
        · exact Or.inl hn1
        · right
          refine ⟨?_, by simp⟩
          by_contra hnp
          have hsq' := Nat.minFac_sq_le_self (n := n) (by omega) hnp
          have hpr : n.minFac.Prime := Nat.minFac_prime hn1
          have := hge n.minFac hpr (Nat.minFac_dvd n)
          nlinarith
    · rw [if_neg hsq, if_neg hpp.ne_zero]
      by_cases hmod : n % p = 0
      · rw [if_pos hmod]
        obtain ⟨k, n1, hk, hn1', he, hnd, hres⟩ :=
          divide_out_spec p hpp.two_le n n 0 h1 (le_refl n) (Nat.dvd_of_mod_eq_zero hmod)
        rw [hres]
        simp only [zero_add]
        have hpk : 1 ≤ p ^ k := Nat.one_le_pow _ _ (by have := hpp.two_le; omega)
        have hle : n1 ≤ n := by
          rw [he]
          nlinarith
        have hlo' : ∀ q, q.Prime → q ∣ n1 → p + 1 ≤ q := by
          intro q hq hd
          have h1 := hge q hq (by rw [he]; exact Dvd.dvd.mul_left hd _)
          have h2 : p ≠ q := fun heq => hnd (heq ▸ hd)
          omega
        obtain ⟨l, n2, hrec, hn2, hfac, hdvd, hlow, hlast⟩ :=
          ih (p + 1) n1 (result ++ [((p : Int), (k : Int))]) hs.2 hps' hall' hmin' hn1' (by omega) hlo'
        have hn2pos : 0 < n2 := by omega
        have hdiv : n / n2 = p ^ k * (n1 / n2) := by
          rw [he, Nat.mul_div_assoc _ hdvd]
        refine ⟨(p, k) :: l, n2, ?_, hn2, ?_, ?_, ?_, ?_⟩
        · rw [hrec]
          simp [to_pair]
        · rw [hdiv]
          exact isFactorization_cons p k _ l hpp hk hfac (fun pf hpf => by
            have := hlow pf hpf
            omega)
        · rw [he]
          exact Dvd.dvd.mul_left hdvd _
        · intro pf hpf
          rcases List.mem_cons.1 hpf with rfl | h
          · exact hlop
          · have := hlow pf h
            omega
        · rcases hlast with h | ⟨hpr2, hlt⟩
          · exact Or.inl h
          · right
            refine ⟨hpr2, ?_⟩
            intro pf hpf
            rcases List.mem_cons.1 hpf with rfl | h
            · have := hlo' n2 hpr2 hdvd
              show p < n2
              omega
            · exact hlt pf h
      · rw [if_neg hmod]
        have hlo' : ∀ q, q.Prime → q ∣ n → p + 1 ≤ q := by
          intro q hq hd
          have h1 := hge q hq hd
          have h2 : p ≠ q := fun heq => hmod (Nat.mod_eq_zero_of_dvd (heq ▸ hd))
          omega
        obtain ⟨l, n2, hrec, hn2, hfac, hdvd, hlow, hlast⟩ :=
          ih (p + 1) n result hs.2 hps' hall' hmin' h1 hn hlo'
        refine ⟨l, n2, hrec, hn2, hfac, hdvd, ?_, hlast⟩
        intro pf hpf
        have := hlow pf hpf
        omega

theorem isFactorization_append_last (n n1 : Nat) (l : List (Nat × Nat)) (hn1 : n1.Prime)
    (hd : n1 ∣ n) (hl : IsFactorization (n / n1) l) (hlt : ∀ pf ∈ l, pf.1 < n1) :
    IsFactorization n (l ++ [(n1, 1)]) := by
  refine ⟨?_, ?_, ?_⟩
  · simp only [List.map_append, List.prod_append, hl.prod_eq, List.map_cons, List.map_nil,
      List.prod_cons, List.prod_nil, pow_one, mul_one]
    exact Nat.div_mul_cancel hd
  · intro pf hpf
    rcases List.mem_append.1 hpf with h | h
    · exact hl.prime pf h
    · simp only [List.mem_singleton] at h
      subst h
      exact ⟨hn1, le_refl 1⟩
  · rw [List.map_append, List.pairwise_append]
    refine ⟨hl.increasing, by simp, ?_⟩
    intro a ha b hb
    obtain ⟨pf, hpf, rfl⟩ := List.mem_map.1 ha
    simp only [List.map_cons, List.map_nil, List.mem_singleton] at hb
    subst hb
    exact hlt pf hpf

theorem sieved_primes_props (m : Nat) (t : Tables) (h : Sieved m t) :
    t.primes.Pairwise (· < ·) ∧ (∀ q ∈ t.primes, q.Prime ∧ q ≤ m) ∧
      (∀ q, q.Prime → 0 ≤ q → q ≤ m → q ∈ t.primes) := by
  rw [h.primes_eq]
  refine ⟨primes_pairwise _, fun q hq => (mem_primes m q).1 hq, fun q hq _ hqm =>
    (mem_primes m q).2 ⟨hq, hqm⟩⟩

/-- On the trial-division path the loop returns the pairs found and a remaining
value that is `1` or a prime above every prime found. -/
theorem factorize_trial_sieved (m : Nat) (t : Tables) (h : Sieved m t) (n : Nat) (h1 : 1 ≤ n)
    (hn : n ≤ m * m) :
    ∃ l n1, factorize_trial t.primes n [] = some (n1, l.map to_pair) ∧ 1 ≤ n1 ∧
      IsFactorization (n / n1) l ∧ n1 ∣ n ∧ (n1 = 1 ∨ (n1.Prime ∧ ∀ pf ∈ l, pf.1 < n1)) := by
  obtain ⟨hs, hps, hall⟩ := sieved_primes_props m t h
  obtain ⟨l, n1, hrec, hn1, hfac, hdvd, -, hlast⟩ :=
    factorize_trial_spec m t.primes 0 n [] hs hps hall (fun _ _ => Nat.zero_le _) h1 hn
      (fun _ _ _ => Nat.zero_le _)
  exact ⟨l, n1, by simpa using hrec, hn1, hfac, hdvd, hlast⟩

theorem prime_factorize_sieved (m : Nat) (t : Tables) (h : Sieved m t) (n : Nat) (h1 : 1 ≤ n)
    (hn : n ≤ m * m) :
    ∃ l, prime_factorize t (n : Int) = some (l.map to_pair) ∧ IsFactorization n l := by
  unfold prime_factorize
  simp only [h.len_smallest_factor, Nat.cast_add, Nat.cast_one, add_sub_cancel_right,
    Int.toNat_ofNat]
  have hin : (1 : Int) ≤ n ∧ (n : Int) ≤ (m : Int) * m := ⟨by exact_mod_cast h1, by exact_mod_cast hn⟩
  rw [if_pos hin]
  by_cases hnm : (n : Int) ≤ m
  · rw [if_pos hnm]
    obtain ⟨l, hl, hres⟩ := factorize_table_spec m t.smallest_factor h.smallest_factor_eq n n []
      h1 (by exact_mod_cast hnm) (le_refl n)
    exact ⟨l, by simpa using hres, hl⟩
  · rw [if_neg hnm]
    obtain ⟨l, n1, hrec, hn1, hfac, hdvd, hlast⟩ := factorize_trial_sieved m t h n h1 hn
    rw [hrec]
    rcases hlast with h1' | ⟨hpr, hlt⟩
    · subst h1'
      refine ⟨l, by simp, ?_⟩
      simpa using hfac
    · refine ⟨l ++ [(n1, 1)], ?_, isFactorization_append_last n n1 l hpr hdvd hfac hlt⟩
      have : n1 > 1 := hpr.one_lt
      simp [this, to_pair]

/-! ## Runs of `generate_factors` outside its machine range and on malformed input -/

set_option maxRecDepth 100000 in
/-- C5, counterexample: for the well-formed factorization `[(2, 63)]` (divisor
count 64) the sorted run returns a list whose last element, the `int64_t`
product `2^62 * 2`, is `-2^63`: the list is not ascending. -/
theorem generate_factors_sorted_not_ascending :
    WellFormed [(2, 63)] ∧ divisor_count [(2, 63)] ≤ 2147483647 ∧
    ∃ factors buffer1, generate_factors [] [(2, 63)] true = some (factors, buffer1) ∧
      ¬ factors.Pairwise (· ≤ ·) := by
  refine ⟨by unfold WellFormed; decide, by decide,
    (List.range 63).map (fun k => (2 : Int) ^ k) ++ [-9223372036854775808],
    List.replicate 64 0, by decide, ?_⟩
  intro h
  have h2 := List.pairwise_append.1 h
  have := h2.2.2 1 (by decide) (-9223372036854775808) (by decide)
  omega

/-- C7, counterexample: two well-formed factorizations. For `[(2, 2147483647)]`
the count `product` is `int(2147483647 + 1) = -2147483648`; `reserve` and
`resize` are handed a negative count and no list is returned. For
`[(2, 1), (3, 2147483647)]` the count `product` is `int(2 * -2147483648) = 0`,
the loop bound `exponent * before_size` of the second pair is `-2`, the list
stays `[1, 2]`, and the final assertion `2 == 0` fails. -/
theorem generate_factors_count_overflow :
    WellFormed [(2, 2147483647)] ∧ product [(2, 2147483647)] = -2147483648 ∧
    generate_factors [] [(2, 2147483647)] false = none ∧
    generate_factors [] [(2, 2147483647)] true = none ∧
    WellFormed [(2, 1), (3, 2147483647)] ∧ product [(2, 1), (3, 2147483647)] = 0 ∧
    process_pairs false [(2, 1), (3, 2147483647)] ([1], []) = some ([1, 2], []) ∧
    generate_factors [] [(2, 1), (3, 2147483647)] false = none ∧
    generate_factors [] [(2, 1), (3, 2147483647)] true = none := by
  refine ⟨by unfold WellFormed; decide, by decide, by decide, by decide,
    by unfold WellFormed; decide, by decide, by decide, by decide, by decide⟩

set_option maxRecDepth 100000 in
/-- C8, counterexample: for `[(2, 63)]` the unsorted run ends with `-2^63` where
the reference construction has `2^63`, and for `[(3, 2147483647)]` the count
overflows and no list is returned. -/
theorem generate_factors_differs_from_reference :
    (generate_factors [] [(2, 63)] false).map Prod.fst ≠ some (reference_factors [(2, 63)]) ∧
    generate_factors [] [(3, 2147483647)] false = none := by
  refine ⟨by decide, by decide⟩

/-- C11, counterexample: malformed inputs for which a list is returned: primes
in decreasing order, an exponent zero, and two negative exponents. -/
theorem generate_factors_accepts_malformed :
    ¬ WellFormed [(3, 1), (2, 1)] ∧
    generate_factors [] [(3, 1), (2, 1)] false = some ([1, 3, 2, 6], []) ∧
    ¬ WellFormed [(2, 0)] ∧ generate_factors [] [(2, 0)] false = some ([1], []) ∧
    ¬ WellFormed [(2, -2), (3, -2)] ∧
    generate_factors [] [(2, -2), (3, -2)] false = some ([1], []) := by
  refine ⟨by unfold WellFormed; decide, by decide, by unfold WellFormed; decide, by decide,
    by unfold WellFormed; decide, by decide⟩

/-! ## Machine integers -/

theorem wrap32_eq (x : Int) (h : FitsInt32 x) : wrap32 x = x := by
  unfold FitsInt32 at h
  unfold wrap32
  omega

theorem wrap64_eq (x : Int) (h : FitsInt64 x) : wrap64 x = x := by
  unfold FitsInt64 at h
  unfold wrap64
  omega

theorem wrap32_natCast (n : Nat) (h : n ≤ 2147483647) : wrap32 (n : Int) = n :=
  wrap32_eq _ ⟨by omega, by omega⟩

attribute [irreducible] wrap32 wrap64

/-! ## `std::merge` -/

theorem merge_loop_perm (count : Nat) (xs ys : List Int) :
    (merge_loop count xs ys).Perm (xs ++ ys) := by
  induction count generalizing xs ys with
  | zero => simp [merge_loop]
  | succ count ih =>
    cases xs with
    | nil => simp [merge_loop]
    | cons x xs =>
      cases ys with
      | nil => simp [merge_loop]
      | cons y ys =>
        unfold merge_loop
        split
        · have h := ih (x :: xs) ys
          refine (List.Perm.cons y h).trans ?_
          exact (@List.perm_middle Int y (x :: xs) ys).symm
        · exact List.Perm.cons x (ih xs (y :: ys))

theorem merge_loop_sorted (count : Nat) (xs ys : List Int) (hc : xs.length + ys.length ≤ count)
    (hx : xs.Pairwise (· ≤ ·)) (hy : ys.Pairwise (· ≤ ·)) :
    (merge_loop count xs ys).Pairwise (· ≤ ·) := by
  induction count generalizing xs ys with
  | zero =>
    have h1 : xs = [] := List.length_eq_zero.1 (by omega)
    have h2 : ys = [] := List.length_eq_zero.1 (by omega)
    subst h1 h2
    simp [merge_loop]
  | succ count ih =>
    cases xs with
    | nil => simpa [merge_loop] using hy
    | cons x xs =>
      cases ys with
      | nil => simpa [merge_loop] using hx
      | cons y ys =>
        unfold merge_loop
        simp only [List.length_cons] at hc
        have hx' := List.pairwise_cons.1 hx
        have hy' := List.pairwise_cons.1 hy
        split
        · rename_i hlt
          refine List.pairwise_cons.2 ⟨?_, ih (x :: xs) ys (by simp only [List.length_cons]; omega) hx hy'.2⟩
          intro z hz
          have hz' := (merge_loop_perm count (x :: xs) ys).subset hz
          rcases List.mem_append.1 hz' with h | h
          · rcases List.mem_cons.1 h with rfl | h'
            · omega
            · have := hx'.1 z h'
              omega
          · exact hy'.1 z h
        · rename_i hlt
          refine List.pairwise_cons.2 ⟨?_, ih xs (y :: ys) (by simp only [List.length_cons]; omega) hx'.2 hy⟩
          intro z hz
          have hz' := (merge_loop_perm count xs (y :: ys)).subset hz
          rcases List.mem_append.1 hz' with h | h
          · exact hx'.1 z h
          · rcases List.mem_cons.1 h with rfl | h'
            · omega
            · have := hy'.1 z h'
              omega

theorem merge_perm (xs ys : List Int) : (merge xs ys).Perm (xs ++ ys) :=
  merge_loop_perm _ xs ys

theorem merge_sorted (xs ys : List Int) (hx : xs.Pairwise (· ≤ ·)) (hy : ys.Pairwise (· ≤ ·)) :
    (merge xs ys).Pairwise (· ≤ ·) :=
  merge_loop_sorted _ xs ys (le_refl _) hx hy

theorem merge_length (xs ys : List Int) : (merge xs ys).length = xs.length + ys.length := by
  rw [(merge_perm xs ys).length_eq, List.length_append]

/-! ## Runs of the doubling merge -/

theorem chunked_sorted_of_short (c : Nat) (l : List Int) (h : Chunked c l) (hl : l.length ≤ c) :
    l.Pairwise (· ≤ ·) := by
  cases h with
  | last l _ hs => exact hs
  | cons a rest ha hs hrest =>
    have : rest = [] := List.length_eq_zero.1 (by
      rw [List.length_append] at hl
      omega)
    subst this
    simpa using hs

theorem merge_pass_exit (sect : Int) (fuel : Nat) (i : Int) (factors buffer : List Int)
    (h : ¬ (wrap32 (i + sect) < wrap32 factors.length)) :
    merge_pass sect (fuel + 1) i (factors, buffer) = some (factors, buffer) := by
  rw [merge_pass, if_neg h]

/-- One iteration of the inner merge loop: the runs `a` and `b` that follow the
part `done` are replaced by their merge. -/
theorem merge_pass_step (s : Nat) (hs : 1 ≤ s) (fuel : Nat) (done a b rest buffer : List Int)
    (ha : a.length = s) (hb : 1 ≤ b.length) (hbs : b.length ≤ s)
    (hrest : rest = [] ∨ b.length = s)
    (hsize : done.length + a.length + b.length + rest.length < 536870912)
    (hbuf : done.length + a.length + b.length + rest.length ≤ buffer.length) :
    merge_pass (s : Int) (fuel + 1) (done.length : Int) (done ++ (a ++ (b ++ rest)), buffer) =
      merge_pass (s : Int) fuel ((done.length + 2 * s : Nat) : Int)
        (done ++ (merge a b ++ rest), merge a b ++ buffer.drop (s + b.length)) := by
  have hN : (done ++ (a ++ (b ++ rest))).length = done.length + s + b.length + rest.length := by
    simp only [List.length_append]
    omega
  have hrl : rest.length = 0 ∨ b.length = s := by
    rcases hrest with h | h
    · left
      simp [h]
    · exact Or.inr h
  have f1 : FitsInt32 ((done.length : Int) + (s : Int)) := ⟨by omega, by omega⟩
  have f2 : FitsInt32 ((done ++ (a ++ (b ++ rest))).length : Int) := ⟨by omega, by omega⟩
  have f3 : FitsInt32 (2 * (s : Int)) := ⟨by omega, by omega⟩
  have f4 : FitsInt32 (((done ++ (a ++ (b ++ rest))).length : Int) - (done.length : Int)) :=
    ⟨by omega, by omega⟩
  have f5 : FitsInt32 ((done.length : Int) + 2 * (s : Int)) := ⟨by omega, by omega⟩
  have f6 : FitsInt32 ((done.length + 2 * s : Nat) : Int) := ⟨by omega, by omega⟩
  have hmin : min (2 * (s : Int)) (((done ++ (a ++ (b ++ rest))).length : Int) - (done.length : Int)) =
      ((s + b.length : Nat) : Int) := by
    omega
  have e5 : (done.length : Int) + 2 * (s : Int) = ((done.length + 2 * s : Nat) : Int) := by
    omega
  have hcond : (done.length : Int) + (s : Int) < ((done ++ (a ++ (b ++ rest))).length : Int) := by
    omega
  have hchk : (0 : Int) ≤ (done.length : Int) ∧ (0 : Int) ≤ (s : Int) ∧
      (s : Int) ≤ ((s + b.length : Nat) : Int) ∧
      (done.length : Int) + ((s + b.length : Nat) : Int) ≤ ((done ++ (a ++ (b ++ rest))).length : Int) ∧
      ((s + b.length : Nat) : Int) ≤ (buffer.length : Int) := by
    omega
  have ht1 : ((done.length : Int)).toNat = done.length := by omega
  have ht2 : ((s : Int)).toNat = s := by omega
  have ht3 : ((done.length : Int) + (s : Int)).toNat = done.length + s := by omega
  have ht4 : (((s + b.length : Nat) : Int) - (s : Int)).toNat = b.length := by omega
  have ht5 : (((s + b.length : Nat) : Int)).toNat = s + b.length := by omega
  have ht6 : ((done.length : Int) + ((s + b.length : Nat) : Int)).toNat = done.length + (s + b.length) := by
    omega
  have hl1 : ((done ++ (a ++ (b ++ rest))).drop done.length).take s = a := by
    rw [List.drop_left, List.take_left' ha]
  have hl2 : ((done ++ (a ++ (b ++ rest))).drop (done.length + s)).take b.length = b := by
    rw [← List.append_assoc done a, List.drop_left' (by simp [ha]), List.take_left]
  have hl3 : (done ++ (a ++ (b ++ rest))).take done.length = done := List.take_left _ _
  have hl4 : (done ++ (a ++ (b ++ rest))).drop (done.length + (s + b.length)) = rest := by
    rw [← List.append_assoc a b, ← List.append_assoc done]
    exact List.drop_left' (by simp [ha])
  have hl5 : (merge a b ++ buffer.drop (s + b.length)).take (s + b.length) = merge a b :=
    List.take_left' (by rw [merge_length, ha])
  rw [merge_pass]
  simp only [wrap32_eq _ f1, wrap32_eq _ f2, wrap32_eq _ f3, wrap32_eq _ f4, hmin,
    wrap32_eq _ f5, e5, wrap32_eq _ f6]
  rw [if_pos hcond, if_pos hchk]
  simp only [ht1, ht2, ht3, ht4, ht5, ht6, hl1, hl2, hl3, hl4, hl5, List.append_assoc]

theorem chunked_nil (c : Nat) : Chunked c [] :=
  Chunked.last [] (Nat.zero_le _) List.Pairwise.nil

theorem chunked_head (c : Nat) (l : List Int) (h : Chunked c l) :
    ∃ a rest, l = a ++ rest ∧ a.length ≤ c ∧ a.Pairwise (· ≤ ·) ∧
      (rest = [] ∨ a.length = c) ∧ Chunked c rest := by
  cases h with
  | last _ hl hs => exact ⟨l, [], by simp, hl, hs, Or.inl rfl, chunked_nil c⟩
  | cons a rest ha hs hrest => exact ⟨a, rest, rfl, by omega, hs, Or.inr ha, hrest⟩

theorem merge_pass_spec (s : Nat) (hs : 1 ≤ s) (hs30 : s < 536870912) (fuel : Nat)
    (done todo buffer : List Int) (hc : Chunked s todo) (hfuel : todo.length < fuel)
    (hsize : done.length + todo.length < 536870912)
    (hbuf : done.length + todo.length ≤ buffer.length) :
    ∃ todo1 buffer1,
      merge_pass (s : Int) fuel (done.length : Int) (done ++ todo, buffer) =
        some (done ++ todo1, buffer1) ∧
      Chunked (2 * s) todo1 ∧ todo1.Perm todo ∧ buffer1.length = buffer.length := by
  induction fuel generalizing done todo buffer with
  | zero => omega
  | succ fuel ih =>
    by_cases hshort : todo.length ≤ s
    · refine ⟨todo, buffer, ?_, ?_, List.Perm.refl _, rfl⟩
      · apply merge_pass_exit
        have f1 : FitsInt32 ((done.length : Int) + (s : Int)) := ⟨by omega, by omega⟩
        have f2 : FitsInt32 ((done ++ todo).length : Int) := by
          rw [List.length_append]
          exact ⟨by omega, by omega⟩
        have hnot : ¬ ((done.length : Int) + (s : Int) < ((done ++ todo).length : Int)) := by
          rw [List.length_append]
          omega
        rw [wrap32_eq _ f1, wrap32_eq _ f2]
        exact hnot
      · exact Chunked.last todo (by omega) (chunked_sorted_of_short s todo hc hshort)
    · obtain ⟨a, rest, rfl, hale, hsa, hra, hrest⟩ := chunked_head s todo hc
      rw [List.length_append] at hshort hfuel hsize hbuf
      have ha : a.length = s := by
        rcases hra with h | h
        · subst h
          simp only [List.length_nil] at hshort
          omega
        · exact h
      obtain ⟨b, rest1, rfl, hble, hsb, hrb, hrest1⟩ := chunked_head s rest hrest
      rw [List.length_append] at hshort hfuel hsize hbuf
      have hr1 : rest1 = [] → rest1.length = 0 := fun h => by simp [h]
      have hb1 : 1 ≤ b.length := by
        rcases hrb with h | h
        · have := hr1 h
          omega
        · omega
      rw [merge_pass_step s hs fuel done a b rest1 buffer ha hb1 hble hrb (by omega) (by omega)]
      have hbl : (merge a b ++ buffer.drop (s + b.length)).length = buffer.length := by
        rw [List.length_append, merge_length, List.length_drop]
        omega
      have hperm : (merge a b ++ rest1).Perm (a ++ (b ++ rest1)) :=
        ((merge_perm a b).append_right rest1).trans (by rw [List.append_assoc])
      by_cases hbs : b.length = s
      · have hlen : (done ++ merge a b).length = done.length + 2 * s := by
          rw [List.length_append, merge_length]
          omega
        obtain ⟨todo1, buffer1, hrun, hch, hperm1, hblen⟩ :=
          ih (done ++ merge a b) rest1 (merge a b ++ buffer.drop (s + b.length)) hrest1
            (by omega) (by rw [hlen]; omega) (by rw [hlen, hbl]; omega)
        rw [hlen, List.append_assoc] at hrun
        refine ⟨merge a b ++ todo1, buffer1, ?_, ?_, ?_, by rw [hblen, hbl]⟩
        · rw [hrun, List.append_assoc]
        · exact Chunked.cons _ _ (by rw [merge_length]; omega) (merge_sorted a b hsa hsb) hch
        · exact ((List.Perm.refl (merge a b)).append hperm1).trans hperm
      · have hr0 : rest1 = [] := by
          rcases hrb with h | h
          · exact h
          · exact absurd h hbs
        subst hr0
        simp only [List.length_nil] at hshort hfuel hsize hbuf
        obtain ⟨fuel1, rfl⟩ : ∃ fuel1, fuel = fuel1 + 1 := ⟨fuel - 1, by omega⟩
        refine ⟨merge a b, merge a b ++ buffer.drop (s + b.length), ?_, ?_, ?_, hbl⟩
        · rw [List.append_nil]
          apply merge_pass_exit
          have f1 : FitsInt32 (((done.length + 2 * s : Nat) : Int) + (s : Int)) :=
            ⟨by omega, by omega⟩
          have f2 : FitsInt32 ((done ++ merge a b).length : Int) := by
            rw [List.length_append, merge_length]
            exact ⟨by omega, by omega⟩
          have hnot : ¬ (((done.length + 2 * s : Nat) : Int) + (s : Int) <
              ((done ++ merge a b).length : Int)) := by
            rw [List.length_append, merge_length]
            omega
          rw [wrap32_eq _ f1, wrap32_eq _ f2]
          exact hnot
        · exact Chunked.last _ (by rw [merge_length]; omega) (merge_sorted a b hsa hsb)
        · simpa using merge_perm a b

theorem merge_sections_spec (fuel s : Nat) (hs : 1 ≤ s) (factors buffer : List Int)
    (hc : Chunked s factors) (hf1 : 1 ≤ fuel) (hfuel : factors.length + 2 ≤ fuel + s)
    (hsize : factors.length < 536870912) (hbuf : factors.length ≤ buffer.length) :
    ∃ factors1 buffer1,
      merge_sections fuel (s : Int) (factors, buffer) = some (factors1, buffer1) ∧
      factors1.Pairwise (· ≤ ·) ∧ factors1.Perm factors ∧ buffer1.length = buffer.length := by
  induction fuel generalizing s factors buffer with
  | zero => omega
  | succ fuel ih =>
    have fN : FitsInt32 (factors.length : Int) := ⟨by omega, by omega⟩
    rw [merge_sections]
    simp only [wrap32_eq _ fN]
    by_cases hlt : (s : Int) < (factors.length : Int)
    · rw [if_pos hlt]
      have hlt' : s < factors.length := by omega
      have f2 : FitsInt32 ((s : Int) * 2) := ⟨by omega, by omega⟩
      have e2 : (s : Int) * 2 = ((2 * s : Nat) : Int) := by omega
      obtain ⟨todo1, buffer1, hrun, hch, hperm, hblen⟩ :=
        merge_pass_spec s hs (by omega) (factors.length + 1) [] factors buffer hc (by omega)
          (by rw [List.length_nil]; omega) (by rw [List.length_nil]; omega)
      simp only [List.length_nil, Nat.cast_zero, List.nil_append] at hrun
      rw [hrun, Option.some_bind, wrap32_eq _ f2, e2]
      have hl := hperm.length_eq
      obtain ⟨factors2, buffer2, hrun2, hsorted, hperm2, hblen2⟩ :=
        ih (2 * s) (by omega) todo1 buffer1 hch (by omega) (by omega) (by omega) (by omega)
      exact ⟨factors2, buffer2, hrun2, hsorted, hperm2.trans hperm, by omega⟩
    · rw [if_neg hlt]
      have hge : factors.length ≤ s := by omega
      exact ⟨factors, buffer, rfl, chunked_sorted_of_short s factors hc hge, List.Perm.refl _, rfl⟩

/-! ## The blocks appended for one pair -/

theorem power_blocks_length (p : Int) (e : Nat) (l : List Int) :
    (power_blocks p e l).length = (e + 1) * l.length := by
  induction e generalizing l with
  | zero => simp [power_blocks]
  | succ e ih =>
    rw [power_blocks, List.length_append, ih, List.length_map]
    ring

theorem mem_power_blocks (p : Int) (e : Nat) (l : List Int) (x : Int) :
    x ∈ power_blocks p e l ↔ ∃ j, j ≤ e ∧ ∃ b ∈ l, x = b * p ^ j := by
  induction e generalizing l with
  | zero =>
    simp only [power_blocks, Nat.le_zero]
    constructor
    · intro h
      exact ⟨0, rfl, x, h, by simp⟩
    · rintro ⟨j, rfl, b, hb, rfl⟩
      simpa using hb
  | succ e ih =>
    rw [power_blocks, List.mem_append, ih]
    constructor
    · rintro (h | ⟨j, hj, b, hb, rfl⟩)
      · exact ⟨0, by omega, x, h, by simp⟩
      · obtain ⟨c, hc, rfl⟩ := List.mem_map.1 hb
        exact ⟨j + 1, by omega, c, hc, by ring⟩
    · rintro ⟨j, hj, b, hb, rfl⟩
      rcases Nat.eq_zero_or_pos j with h0 | h0
      · subst h0
        left
        simpa using hb
      · right
        refine ⟨j - 1, by omega, b * p, List.mem_map_of_mem _ hb, ?_⟩
        have : j = (j - 1) + 1 := by omega
        conv_lhs => rw [this]
        ring

theorem power_blocks_perm (p : Int) (e : Nat) (l1 l2 : List Int) (h : l1.Perm l2) :
    (power_blocks p e l1).Perm (power_blocks p e l2) := by
  induction e generalizing l1 l2 with
  | zero => simpa [power_blocks] using h
  | succ e ih =>
    rw [power_blocks, power_blocks]
    exact h.append (ih _ _ (h.map _))

theorem power_blocks_extends (p : Int) (e : Nat) (l : List Int) :
    ∃ rest, power_blocks p e l = l ++ rest := by
  cases e with
  | zero => exact ⟨[], by simp [power_blocks]⟩
  | succ e => exact ⟨_, rfl⟩

theorem power_blocks_chunked (p : Int) (hp : 0 ≤ p) (e : Nat) (l : List Int)
    (hl : l.Pairwise (· ≤ ·)) : Chunked l.length (power_blocks p e l) := by
  induction e generalizing l with
  | zero => exact Chunked.last l (le_refl _) hl
  | succ e ih =>
    rw [power_blocks]
    have hm : (l.map (· * p)).Pairwise (· ≤ ·) :=
      List.Pairwise.map _ (fun a b hab => mul_le_mul_of_nonneg_right hab hp) hl
    have := ih (l.map (· * p)) hm
    rw [List.length_map] at this
    exact Chunked.cons l _ rfl hl this

/-- Blocks lie one above the other when every element of the first block is
between `lo` and `lo * p`. -/
theorem power_blocks_sorted (p : Int) (hp : 1 ≤ p) (e : Nat) (l : List Int) (lo : Int)
    (hlo : 1 ≤ lo) (hl : l.Pairwise (· ≤ ·)) (hr : ∀ x ∈ l, lo ≤ x ∧ x ≤ lo * p) :
    (power_blocks p e l).Pairwise (· ≤ ·) ∧ ∀ y ∈ power_blocks p e l, lo ≤ y := by
  induction e generalizing l lo with
  | zero => exact ⟨hl, fun y hy => (hr y hy).1⟩
  | succ e ih =>
    rw [power_blocks]
    have hm : (l.map (· * p)).Pairwise (· ≤ ·) :=
      List.Pairwise.map _ (fun a b hab => mul_le_mul_of_nonneg_right hab (by omega)) hl
    have hr' : ∀ x ∈ l.map (· * p), lo * p ≤ x ∧ x ≤ lo * p * p := by
      intro x hx
      obtain ⟨c, hc, rfl⟩ := List.mem_map.1 hx
      have := hr c hc
      exact ⟨mul_le_mul_of_nonneg_right this.1 (by omega),
        mul_le_mul_of_nonneg_right this.2 (by omega)⟩
    have hlop : 1 ≤ lo * p := by nlinarith
    obtain ⟨h1, h2⟩ := ih (l.map (· * p)) (lo * p) hlop hm hr'
    refine ⟨List.pairwise_append.2 ⟨hl, h1, fun a ha b hb => ?_⟩, fun y hy => ?_⟩
    · have := (hr a ha).2
      have := h2 b hb
      omega
    · rcases List.mem_append.1 hy with h | h
      · exact (hr y h).1
      · have := h2 y h
        nlinarith

/-! ## The appending loop -/

theorem append_multiples_add (p before_size : Int) (a b : Nat) (factors : List Int) :
    append_multiples p before_size (a + b) factors =
      (append_multiples p before_size a factors).bind (append_multiples p before_size b) := by
  induction a generalizing factors with
  | zero => simp [append_multiples]
  | succ a ih =>
    rw [Nat.succ_add]
    simp only [append_multiples]
    split
    · cases h : factors[((factors.length : Int) - before_size).toNat]? with
      | none => simp
      | some f => simp [ih]
    · simp

theorem append_multiples_block (p : Int) (x b : List Int) (k j : Nat) (hj : j + k ≤ b.length)
    (hfit : ∀ y ∈ b, FitsInt64 (y * p)) :
    append_multiples p (b.length : Int) k (x ++ b ++ (b.take j).map (· * p)) =
      some (x ++ b ++ (b.take (j + k)).map (· * p)) := by
  induction k generalizing j with
  | zero => simp [append_multiples]
  | succ k ih =>
    have hjlt : j < b.length := by omega
    have hidx : (((x ++ b ++ (b.take j).map (· * p)).length : Int) - (b.length : Int)).toNat =
        x.length + j := by
      simp only [List.length_append, List.length_map, List.length_take]
      omega
    have hnn : (0 : Int) ≤ ((x ++ b ++ (b.take j).map (· * p)).length : Int) - (b.length : Int) := by
      simp only [List.length_append, List.length_map, List.length_take]
      omega
    have hget : (x ++ b ++ (b.take j).map (· * p))[x.length + j]? = some b[j] := by
      rw [List.append_assoc, List.getElem?_append_right (by omega),
        List.getElem?_append_left (by omega)]
      simp [List.getElem?_eq_getElem hjlt]
    rw [append_multiples]
    simp only [hidx, hget]
    rw [if_pos hnn, wrap64_eq _ (hfit _ (List.getElem_mem _))]
    have hnext : x ++ b ++ (b.take j).map (· * p) ++ [b[j] * p] =
        x ++ b ++ (b.take (j + 1)).map (· * p) := by
      rw [List.take_succ, List.getElem?_eq_getElem hjlt, Option.toList_some, List.map_append,
        List.map_cons, List.map_nil, ← List.append_assoc]
    rw [hnext, ih (j + 1) (by omega), show j + 1 + k = j + (k + 1) by omega]

theorem append_multiples_blocks (p : Int) (e : Nat) (x b : List Int)
    (hfit : ∀ y ∈ power_blocks p e b, FitsInt64 y) :
    append_multiples p (b.length : Int) (e * b.length) (x ++ b) =
      some (x ++ power_blocks p e b) := by
  induction e generalizing x b with
  | zero => simp [append_multiples, power_blocks]
  | succ e ih =>
    rw [power_blocks] at hfit
    have hfit1 : ∀ y ∈ b, FitsInt64 (y * p) := by
      intro y hy
      apply hfit
      apply List.mem_append_right
      obtain ⟨rest, hrest⟩ := power_blocks_extends p e (b.map (· * p))
      rw [hrest]
      exact List.mem_append_left _ (List.mem_map_of_mem _ hy)
    have hsplit : (e + 1) * b.length = b.length + e * b.length := by ring
    rw [hsplit, append_multiples_add]
    have h1 := append_multiples_block p x b b.length 0 (by omega) hfit1
    simp only [List.take_zero, List.map_nil, List.append_nil, zero_add, List.take_length] at h1
    rw [h1, Option.some_bind]
    have h2 := ih (x ++ b) (b.map (· * p)) (fun y hy => hfit y (List.mem_append_right _ hy))
    rw [List.length_map] at h2
    rw [h2, power_blocks, List.append_assoc]

/-! ## The divisor list in construction order -/

theorem expand_cons (pf : Int × Int) (rest : List (Int × Int)) (l : List Int) :
    expand (pf :: rest) l = expand rest (power_blocks pf.1 pf.2.toNat l) := rfl

theorem expand_extends (pfs : List (Int × Int)) (l : List Int) :
    ∃ rest, expand pfs l = l ++ rest := by
  induction pfs generalizing l with
  | nil => exact ⟨[], by simp [expand]⟩
  | cons pf pfs ih =>
    obtain ⟨r1, h1⟩ := power_blocks_extends pf.1 pf.2.toNat l
    obtain ⟨r2, h2⟩ := ih (power_blocks pf.1 pf.2.toNat l)
    exact ⟨r1 ++ r2, by rw [expand_cons, h2, h1, List.append_assoc]⟩

theorem expand_perm (pfs : List (Int × Int)) (l1 l2 : List Int) (h : l1.Perm l2) :
    (expand pfs l1).Perm (expand pfs l2) := by
  induction pfs generalizing l1 l2 with
  | nil => simpa [expand] using h
  | cons pf pfs ih =>
    rw [expand_cons, expand_cons]
    exact ih _ _ (power_blocks_perm _ _ _ _ h)

theorem divisor_count_cons (pf : Int × Int) (rest : List (Int × Int)) :
    divisor_count (pf :: rest) = (pf.2 + 1) * divisor_count rest := by
  simp [divisor_count]

theorem divisor_count_pos (pfs : List (Int × Int)) (h : ∀ pf ∈ pfs, 0 ≤ pf.2) :
    1 ≤ divisor_count pfs := by
  induction pfs with
  | nil => simp [divisor_count]
  | cons pf pfs ih =>
    rw [divisor_count_cons]
    have h1 := h pf (List.mem_cons_self _ _)
    have h2 := ih (fun q hq => h q (List.mem_cons_of_mem _ hq))
    nlinarith

theorem expand_length (pfs : List (Int × Int)) (l : List Int) (h : ∀ pf ∈ pfs, 0 ≤ pf.2) :
    ((expand pfs l).length : Int) = (l.length : Int) * divisor_count pfs := by
  induction pfs generalizing l with
  | nil => simp [expand, divisor_count]
  | cons pf pfs ih =>
    have h1 := h pf (List.mem_cons_self _ _)
    rw [expand_cons, ih _ (fun q hq => h q (List.mem_cons_of_mem _ hq)), power_blocks_length,
      divisor_count_cons]
    push_cast
    rw [Int.toNat_of_nonneg h1]
    ring

theorem product_foldl (pfs : List (Int × Int)) (h : ∀ pf ∈ pfs, 0 ≤ pf.2) (acc : Int)
    (hacc : 1 ≤ acc) (hfit : acc * divisor_count pfs ≤ 2147483647) :
    pfs.foldl (fun product pf => wrap32 (product * wrap32 (pf.2 + 1))) acc =
      acc * divisor_count pfs := by
  induction pfs generalizing acc with
  | nil => simp [divisor_count]
  | cons pf pfs ih =>
    have h1 := h pf (List.mem_cons_self _ _)
    have h2 := divisor_count_pos pfs (fun q hq => h q (List.mem_cons_of_mem _ hq))
    rw [divisor_count_cons] at hfit
    have hle : acc * (pf.2 + 1) ≤ 2147483647 := by nlinarith
    have hle2 : pf.2 + 1 ≤ acc * (pf.2 + 1) := by nlinarith
    have hpos : 1 ≤ acc * (pf.2 + 1) := by nlinarith
    have f1 : FitsInt32 (pf.2 + 1) := ⟨by omega, by omega⟩
    have f2 : FitsInt32 (acc * (pf.2 + 1)) := ⟨by omega, by omega⟩
    rw [List.foldl_cons, wrap32_eq _ f1, wrap32_eq _ f2,
      ih (fun q hq => h q (List.mem_cons_of_mem _ hq)) _ hpos (by rw [mul_assoc]; exact hfit),
      divisor_count_cons, mul_assoc]

theorem product_eq (pfs : List (Int × Int)) (h : ∀ pf ∈ pfs, 0 ≤ pf.2)
    (hfit : divisor_count pfs ≤ 2147483647) : product pfs = divisor_count pfs := by
  unfold product
  rw [product_foldl pfs h 1 (le_refl 1) (by rw [one_mul]; exact hfit), one_mul]

/-! ## One pair -/

theorem process_pair_append (p e : Int) (l : List Int) (he : 0 ≤ e)
    (hl : 1 ≤ l.length) (hsize : (e.toNat + 1) * l.length ≤ 2147483647)
    (hfit : ∀ y ∈ power_blocks p e.toNat l, FitsInt64 y) :
    wrap32 (l.length : Int) = (l.length : Int) ∧
      append_multiples p (l.length : Int)
        (wrap32 (e * (l.length : Int))).toNat l = some (power_blocks p e.toNat l) := by
  have hmul : e.toNat * l.length ≤ 2147483647 := by nlinarith
  have hlen : l.length ≤ 2147483647 := by nlinarith
  have f1 : FitsInt32 (l.length : Int) := ⟨by omega, by omega⟩
  have e1 : e * (l.length : Int) = ((e.toNat * l.length : Nat) : Int) := by
    push_cast
    rw [Int.toNat_of_nonneg he]
  have f2 : FitsInt32 (((e.toNat * l.length : Nat) : Int)) := ⟨by omega, by omega⟩
  refine ⟨wrap32_eq _ f1, ?_⟩
  rw [e1, wrap32_eq _ f2, Int.toNat_ofNat]
  have := append_multiples_blocks p e.toNat [] l hfit
  simpa using this

theorem process_pair_unsorted (p e : Int) (l buffer : List Int) (he : 0 ≤ e)
    (hl : 1 ≤ l.length) (hsize : (e.toNat + 1) * l.length ≤ 2147483647)
    (hfit : ∀ y ∈ power_blocks p e.toNat l, FitsInt64 y) :
    process_pair false (p, e) (l, buffer) = some (power_blocks p e.toNat l, buffer) := by
  obtain ⟨h1, h2⟩ := process_pair_append p e l he hl hsize hfit
  unfold process_pair
  simp only [h1, h2]
  rfl

theorem le_last_of_pairwise (l : List Int) (hs : l.Pairwise (· ≤ ·)) (last : Int)
    (hlast : l[l.length - 1]? = some last) (x : Int) (hx : x ∈ l) : x ≤ last := by
  obtain ⟨i, hi, rfl⟩ := List.getElem_of_mem hx
  have hlt : l.length - 1 < l.length := by omega
  rw [List.getElem?_eq_getElem hlt] at hlast
  have hlast' : l[l.length - 1] = last := by simpa using hlast
  rcases Nat.lt_or_ge i (l.length - 1) with h | h
  · have := (List.pairwise_iff_getElem.1 hs) i (l.length - 1) hi hlt h
    rw [hlast'] at this
    exact this
  · have hi' : i = l.length - 1 := by omega
    subst hi'
    rw [hlast']

theorem process_pair_sorted (p e : Int) (l buffer : List Int) (hp : 1 ≤ p) (he : 0 ≤ e)
    (hl : 1 ≤ l.length) (hs : l.Pairwise (· ≤ ·)) (hpos : ∀ x ∈ l, 1 ≤ x)
    (hsize : (e.toNat + 1) * l.length < 536870912)
    (hbuf : (e.toNat + 1) * l.length ≤ buffer.length)
    (hfit : ∀ y ∈ power_blocks p e.toNat l, FitsInt64 y) :
    ∃ factors buffer1, process_pair true (p, e) (l, buffer) = some (factors, buffer1) ∧
      factors.Pairwise (· ≤ ·) ∧ factors.Perm (power_blocks p e.toNat l) ∧
      buffer1.length = buffer.length := by
  obtain ⟨h1, h2⟩ := process_pair_append p e l he hl (by omega) hfit
  have hnn : (0 : Int) ≤ (l.length : Int) - 1 := by omega
  have hidx : ((l.length : Int) - 1).toNat = l.length - 1 := by omega
  obtain ⟨rest, hrest⟩ := power_blocks_extends p e.toNat l
  have hlt : l.length - 1 < l.length := by omega
  have hget : (power_blocks p e.toNat l)[l.length - 1]? = some l[l.length - 1] := by
    rw [hrest, List.getElem?_append_left hlt, List.getElem?_eq_getElem hlt]
  have hplen := power_blocks_length p e.toNat l
  unfold process_pair
  simp only [h1, h2, hidx, hget]
  rw [if_pos trivial, if_pos hnn]
  by_cases hgt : l[l.length - 1] > p
  · simp only [hgt, if_true]
    obtain ⟨f1, b1, hrun, hsorted, hperm, hblen⟩ :=
      merge_sections_spec ((power_blocks p e.toNat l).length + 1) l.length hl
        (power_blocks p e.toNat l) buffer (power_blocks_chunked p (by omega) e.toNat l hs)
        (by omega) (by omega) (by rw [hplen]; exact hsize) (by rw [hplen]; exact hbuf)
    exact ⟨f1, b1, hrun, hsorted, hperm, hblen⟩
  · simp only [hgt, if_false]
    refine ⟨_, _, rfl, ?_, List.Perm.refl _, rfl⟩
    have hle : ∀ x ∈ l, (1 : Int) ≤ x ∧ x ≤ 1 * p := by
      intro x hx
      have := le_last_of_pairwise l hs l[l.length - 1] (List.getElem?_eq_getElem hlt) x hx
      exact ⟨hpos x hx, by omega⟩
    exact (power_blocks_sorted p hp e.toNat l 1 (le_refl 1) hs hle).1

/-! ## All pairs -/

theorem power_blocks_length_pos (p : Int) (e : Nat) (l : List Int) (hl : 1 ≤ l.length) :
    1 ≤ (power_blocks p e l).length := by
  rw [power_blocks_length]
  nlinarith

theorem length_le_expand (pfs : List (Int × Int)) (l : List Int) :
    l.length ≤ (expand pfs l).length := by
  obtain ⟨rest, h⟩ := expand_extends pfs l
  rw [h, List.length_append]
  omega

theorem mem_expand_of_mem (pfs : List (Int × Int)) (l : List Int) (x : Int) (hx : x ∈ l) :
    x ∈ expand pfs l := by
  obtain ⟨rest, h⟩ := expand_extends pfs l
  rw [h]
  exact List.mem_append_left _ hx

theorem expand_pair_cons (p e : Int) (rest : List (Int × Int)) (l : List Int) :
    expand ((p, e) :: rest) l = expand rest (power_blocks p e.toNat l) := rfl

theorem process_pairs_unsorted (pfs : List (Int × Int)) (l buffer : List Int)
    (he : ∀ pf ∈ pfs, 0 ≤ pf.2) (hl : 1 ≤ l.length)
    (hsize : (expand pfs l).length ≤ 2147483647) (hfit : ∀ y ∈ expand pfs l, FitsInt64 y) :
    process_pairs false pfs (l, buffer) = some (expand pfs l, buffer) := by
  induction pfs generalizing l with
  | nil => rfl
  | cons pf pfs ih =>
    obtain ⟨p, e⟩ := pf
    rw [expand_pair_cons] at hsize hfit
    have he0 : 0 ≤ e := he (p, e) (List.mem_cons_self _ _)
    have hlen := length_le_expand pfs (power_blocks p e.toNat l)
    have hpl := power_blocks_length p e.toNat l
    have hstep := process_pair_unsorted p e l buffer he0 hl (by omega)
      (fun y hy => hfit y (mem_expand_of_mem pfs _ y hy))
    rw [process_pairs, hstep]
    exact ih (power_blocks p e.toNat l) (fun q hq => he q (List.mem_cons_of_mem _ hq))
      (power_blocks_length_pos p e.toNat l hl) hsize hfit

theorem process_pairs_sorted (pfs : List (Int × Int)) (l l0 buffer : List Int)
    (he : ∀ pf ∈ pfs, 1 ≤ pf.1 ∧ 0 ≤ pf.2) (hl : 1 ≤ l.length) (hs : l.Pairwise (· ≤ ·))
    (hpos : ∀ x ∈ l, 1 ≤ x) (hperm : l.Perm l0)
    (hsize : (expand pfs l0).length < 536870912)
    (hbuf : (expand pfs l0).length ≤ buffer.length)
    (hfit : ∀ y ∈ expand pfs l0, FitsInt64 y) :
    ∃ factors buffer1, process_pairs true pfs (l, buffer) = some (factors, buffer1) ∧
      factors.Pairwise (· ≤ ·) ∧ factors.Perm (expand pfs l0) ∧
      buffer1.length = buffer.length := by
  induction pfs generalizing l l0 buffer with
  | nil => exact ⟨l, buffer, rfl, hs, hperm, rfl⟩
  | cons pf pfs ih =>
    obtain ⟨p, e⟩ := pf
    rw [expand_pair_cons] at hsize hfit hbuf
    have hpe := he (p, e) (List.mem_cons_self _ _)
    have hpb : (power_blocks p e.toNat l).Perm (power_blocks p e.toNat l0) :=
      power_blocks_perm p e.toNat l l0 hperm
    have hlen := length_le_expand pfs (power_blocks p e.toNat l0)
    have hpl := power_blocks_length p e.toNat l
    have hpl0 := hpb.length_eq
    obtain ⟨f1, b1, hrun, hsorted, hperm1, hblen⟩ :=
      process_pair_sorted p e l buffer hpe.1 hpe.2 hl hs hpos (by omega) (by omega)
        (fun y hy => hfit y (mem_expand_of_mem pfs _ y (hpb.subset hy)))
    have hf1len : 1 ≤ f1.length := by
      rw [hperm1.length_eq]
      exact power_blocks_length_pos p e.toNat l hl
    have hf1pos : ∀ x ∈ f1, 1 ≤ x := by
      intro x hx
      obtain ⟨j, -, b, hb, rfl⟩ := (mem_power_blocks p e.toNat l x).1 (hperm1.subset hx)
      have h1 := hpos b hb
      have h2 : 1 ≤ p ^ j := one_le_pow₀ hpe.1
      nlinarith
    obtain ⟨f2, b2, hrun2, hsorted2, hperm2, hblen2⟩ :=
      ih f1 (power_blocks p e.toNat l0) b1 (fun q hq => he q (List.mem_cons_of_mem _ hq))
        hf1len hsorted hf1pos (hperm1.trans hpb) hsize (by omega) hfit
    refine ⟨f2, b2, ?_, hsorted2, ?_, by omega⟩
    · rw [process_pairs, hrun]
      exact hrun2
    · rw [expand_pair_cons]
      exact hperm2

/-! ## `generate_factors` -/

theorem expand_length_one (pfs : List (Int × Int)) (h : ∀ pf ∈ pfs, 0 ≤ pf.2) :
    ((expand pfs [1]).length : Int) = divisor_count pfs := by
  rw [expand_length pfs [1] h]
  simp

theorem resize_length (buffer : List Int) (n : Nat) : (resize buffer n).length = n := by
  unfold resize
  rw [List.length_append, List.length_take, List.length_replicate]
  omega

/-- The run of `generate_factors` without sorting, when no counter and no
product leaves its machine type. -/
theorem generate_factors_unsorted (buffer : List Int) (pfs : List (Int × Int))
    (he : ∀ pf ∈ pfs, 0 ≤ pf.2) (hcount : divisor_count pfs ≤ 2147483647)
    (hfit : ∀ y ∈ expand pfs [1], FitsInt64 y) :
    generate_factors buffer pfs false = some (expand pfs [1], buffer) := by
  have hlen := expand_length_one pfs he
  have hpos := divisor_count_pos pfs he
  have hprod := product_eq pfs he hcount
  have hrun := process_pairs_unsorted pfs [1] buffer he (by simp) (by omega) hfit
  have f1 : FitsInt32 (divisor_count pfs) := ⟨by omega, by omega⟩
  have hnot : ¬ (divisor_count pfs < 0) := by omega
  unfold generate_factors
  simp only [hprod, Bool.false_eq_true, if_false, hrun, hlen, wrap32_eq _ f1]
  rw [if_neg hnot, if_pos trivial]

/-- The run of `generate_factors` with sorting, when no counter and no product
leaves its machine type: an ascending rearrangement of the unsorted list. -/
theorem generate_factors_sorted (buffer : List Int) (pfs : List (Int × Int))
    (he : ∀ pf ∈ pfs, 1 ≤ pf.1 ∧ 0 ≤ pf.2) (hcount : divisor_count pfs < 536870912)
    (hfit : ∀ y ∈ expand pfs [1], FitsInt64 y) :
    ∃ factors buffer1, generate_factors buffer pfs true = some (factors, buffer1) ∧
      factors.Pairwise (· ≤ ·) ∧ factors.Perm (expand pfs [1]) := by
  have he0 : ∀ pf ∈ pfs, 0 ≤ pf.2 := fun pf h => (he pf h).2
  have hlen := expand_length_one pfs he0
  have hpos := divisor_count_pos pfs he0
  have hprod := product_eq pfs he0 (by omega)
  have hrl := resize_length buffer (divisor_count pfs).toNat
  obtain ⟨f, b, hrun, hsorted, hperm, -⟩ :=
    process_pairs_sorted pfs [1] [1] (resize buffer (divisor_count pfs).toNat) he (by simp)
      (by simp) (by simp) (List.Perm.refl _) (by omega) (by omega) hfit
  have hfl := hperm.length_eq
  have f1 : FitsInt32 (divisor_count pfs) := ⟨by omega, by omega⟩
  have hnot : ¬ (divisor_count pfs < 0) := by omega
  have heq : (f.length : Int) = divisor_count pfs := by omega
  refine ⟨f, b, ?_, hsorted, hperm⟩
  unfold generate_factors
  simp only [hprod, if_true, hrun, heq, wrap32_eq _ f1]
  rw [if_neg hnot]

/-! ## The reference construction -/

theorem power_blocks_eq_flatten (p : Int) (e : Nat) (l : List Int) :
    power_blocks p e l =
      ((List.range (e + 1)).map (fun j => l.map (fun d => d * p ^ j))).flatten := by
  induction e generalizing l with
  | zero =>
    have h1 : List.range (0 + 1) = [0] := rfl
    rw [h1]
    simp [power_blocks]
  | succ e ih =>
    rw [power_blocks, ih, List.range_succ_eq_map (e + 1), List.map_cons, List.flatten_cons,
      List.map_map]
    congr 1
    · simp
    · congr 1
      apply List.map_congr_left
      intro j _
      simp only [Function.comp, List.map_map, Nat.succ_eq_add_one]
      apply List.map_congr_left
      intro d _
      simp only [Function.comp]
      ring

theorem reference_step_eq (l : List Int) (pf : Int × Int) :
    reference_step l pf = power_blocks pf.1 pf.2.toNat l := by
  rw [power_blocks_eq_flatten]
  rfl

theorem reference_factors_eq (pfs : List (Int × Int)) : reference_factors pfs = expand pfs [1] := by
  unfold reference_factors expand
  congr 1
  funext l pf
  exact reference_step_eq l pf

/-! ## Bounds on the elements and on the divisor count -/

theorem factorization_value_cons (pf : Int × Int) (rest : List (Int × Int)) :
    factorization_value (pf :: rest) = pf.1 ^ pf.2.toNat * factorization_value rest := by
  simp [factorization_value]

theorem factorization_value_pos (pfs : List (Int × Int)) (h : ∀ pf ∈ pfs, 1 ≤ pf.1) :
    1 ≤ factorization_value pfs := by
  induction pfs with
  | nil => simp [factorization_value]
  | cons pf pfs ih =>
    rw [factorization_value_cons]
    have h1 : 1 ≤ pf.1 ^ pf.2.toNat := one_le_pow₀ (h pf (List.mem_cons_self _ _))
    have h2 := ih (fun q hq => h q (List.mem_cons_of_mem _ hq))
    nlinarith

theorem expand_bounds (pfs : List (Int × Int)) (h : ∀ pf ∈ pfs, 1 ≤ pf.1) (l : List Int)
    (m : Int) (hl : ∀ b ∈ l, 1 ≤ b ∧ b ≤ m) :
    ∀ x ∈ expand pfs l, 1 ≤ x ∧ x ≤ m * factorization_value pfs := by
  induction pfs generalizing l m with
  | nil =>
    intro x hx
    simpa [expand, factorization_value] using hl x hx
  | cons pf pfs ih =>
    intro x hx
    rw [expand_cons] at hx
    have hp := h pf (List.mem_cons_self _ _)
    have hstep : ∀ b ∈ power_blocks pf.1 pf.2.toNat l, 1 ≤ b ∧ b ≤ m * pf.1 ^ pf.2.toNat := by
      intro b hb
      obtain ⟨j, hj, c, hc, rfl⟩ := (mem_power_blocks _ _ _ _).1 hb
      have h1 := hl c hc
      have h2 : 1 ≤ pf.1 ^ j := one_le_pow₀ hp
      have h3 : pf.1 ^ j ≤ pf.1 ^ pf.2.toNat := pow_le_pow_right₀ hp hj
      constructor
      · nlinarith
      · calc c * pf.1 ^ j ≤ m * pf.1 ^ j := mul_le_mul_of_nonneg_right h1.2 (by omega)
          _ ≤ m * pf.1 ^ pf.2.toNat := mul_le_mul_of_nonneg_left h3 (by omega)
    have := ih (fun q hq => h q (List.mem_cons_of_mem _ hq)) _ _ hstep x hx
    rw [factorization_value_cons, ← mul_assoc]
    exact this

theorem expand_fits (pfs : List (Int × Int)) (h : ∀ pf ∈ pfs, 1 ≤ pf.1)
    (hv : factorization_value pfs ≤ 9223372036854775807) :
    ∀ y ∈ expand pfs [1], FitsInt64 y := by
  intro y hy
  have := expand_bounds pfs h [1] 1 (by simp) y hy
  rw [one_mul] at this
  exact ⟨by omega, by omega⟩

theorem cube_le_eight_pow (e : Nat) : (e + 1) ^ 3 ≤ 8 ^ e := by
  induction e with
  | zero => norm_num
  | succ e ih =>
    have : (e + 1 + 1) ^ 3 ≤ 8 * (e + 1) ^ 3 := by
      calc (e + 1 + 1) ^ 3 ≤ (2 * (e + 1)) ^ 3 := Nat.pow_le_pow_left (by omega) 3
        _ = 8 * (e + 1) ^ 3 := by ring
    calc (e + 1 + 1) ^ 3 ≤ 8 * (e + 1) ^ 3 := this
      _ ≤ 8 * 8 ^ e := Nat.mul_le_mul_left 8 ih
      _ = 8 ^ (e + 1) := by ring

theorem cube_le_eight_mul_two_pow (e : Nat) : (e + 1) ^ 3 ≤ 8 * 2 ^ e := by
  induction e with
  | zero => norm_num
  | succ e ih =>
    rcases Nat.lt_or_ge e 3 with h | h
    · interval_cases e <;> norm_num
    · have : (e + 1 + 1) ^ 3 ≤ 2 * (e + 1) ^ 3 := by
        obtain ⟨k, rfl⟩ : ∃ k, e = k + 3 := ⟨e - 3, by omega⟩
        have hk : (k + 3 + 1 + 1) ^ 3 + (k ^ 3 + 9 * k ^ 2 + 21 * k + 3) =
            2 * (k + 3 + 1) ^ 3 := by ring
        exact Nat.le.intro hk
      calc (e + 1 + 1) ^ 3 ≤ 2 * (e + 1) ^ 3 := this
        _ ≤ 2 * (8 * 2 ^ e) := Nat.mul_le_mul_left 2 ih
        _ = 8 * 2 ^ (e + 1) := by ring

theorem cube_le_head (p e : Nat) (hp : 2 ≤ p) :
    (e + 1) ^ 3 ≤ (if p < 8 then 8 else 1) * p ^ e := by
  split
  · calc (e + 1) ^ 3 ≤ 8 * 2 ^ e := cube_le_eight_mul_two_pow e
      _ ≤ 8 * p ^ e := Nat.mul_le_mul_left 8 (Nat.pow_le_pow_left hp e)
  · rw [one_mul]
    calc (e + 1) ^ 3 ≤ 8 ^ e := cube_le_eight_pow e
      _ ≤ p ^ e := Nat.pow_le_pow_left (by omega) e

theorem count_cube_le (l : List (Nat × Nat)) (lo : Nat) (hlo : 2 ≤ lo)
    (hge : ∀ pf ∈ l, lo ≤ pf.1) (hinc : (l.map Prod.fst).Pairwise (· < ·)) :
    ((l.map (fun pf => pf.2 + 1)).prod) ^ 3 ≤
      8 ^ (8 - lo) * (l.map (fun pf => pf.1 ^ pf.2)).prod := by
  induction l generalizing lo with
  | nil => simpa using Nat.one_le_pow _ _ (by norm_num)
  | cons pf l ih =>
    obtain ⟨p, e⟩ := pf
    simp only [List.map_cons, List.pairwise_cons, List.prod_cons] at hinc ⊢
    have hp : lo ≤ p := hge (p, e) (List.mem_cons_self _ _)
    have hrest := ih (p + 1) (by omega)
      (fun q hq => hinc.1 q.1 (List.mem_map_of_mem _ hq)) hinc.2
    have hhead := cube_le_head p e (by omega)
    have hk : (if p < 8 then 8 else 1) * 8 ^ (8 - (p + 1)) ≤ 8 ^ (8 - lo) := by
      split
      · rename_i hlt
        have : 8 * 8 ^ (8 - (p + 1)) = 8 ^ (8 - p) := by
          rw [← pow_succ']
          congr 1
          omega
        rw [this]
        exact Nat.pow_le_pow_right (by norm_num) (by omega)
      · rename_i hge8
        have : 8 - (p + 1) = 0 := by omega
        rw [this, pow_zero, one_mul]
        exact Nat.one_le_pow _ _ (by norm_num)
    calc ((e + 1) * (l.map (fun pf => pf.2 + 1)).prod) ^ 3
        = (e + 1) ^ 3 * ((l.map (fun pf => pf.2 + 1)).prod) ^ 3 := by ring
      _ ≤ ((if p < 8 then 8 else 1) * p ^ e) *
          (8 ^ (8 - (p + 1)) * (l.map (fun pf => pf.1 ^ pf.2)).prod) :=
          Nat.mul_le_mul hhead hrest
      _ = ((if p < 8 then 8 else 1) * 8 ^ (8 - (p + 1))) *
          (p ^ e * (l.map (fun pf => pf.1 ^ pf.2)).prod) := by ring
      _ ≤ 8 ^ (8 - lo) * (p ^ e * (l.map (fun pf => pf.1 ^ pf.2)).prod) :=
          Nat.mul_le_mul_right _ hk

/-- A number below `2^63` with strictly increasing factors at least two has fewer
than `2^27` products of the exponents plus one. -/
theorem count_lt_of_value_lt (l : List (Nat × Nat)) (hge : ∀ pf ∈ l, 2 ≤ pf.1)
    (hinc : (l.map Prod.fst).Pairwise (· < ·))
    (hv : (l.map (fun pf => pf.1 ^ pf.2)).prod ≤ 9223372036854775807) :
    (l.map (fun pf => pf.2 + 1)).prod < 134217728 := by
  have h := count_cube_le l 2 (le_refl 2) hge hinc
  by_contra hnot
  have hge' : 134217728 ≤ (l.map (fun pf => pf.2 + 1)).prod := by omega
  have h3 : 134217728 ^ 3 ≤ ((l.map (fun pf => pf.2 + 1)).prod) ^ 3 :=
    Nat.pow_le_pow_left hge' 3
  have h4 : 8 ^ (8 - 2) * (l.map (fun pf => pf.1 ^ pf.2)).prod ≤
      8 ^ (8 - 2) * 9223372036854775807 := Nat.mul_le_mul_left _ hv
  have h5 : 8 ^ (8 - 2) * 9223372036854775807 < 134217728 ^ 3 := by norm_num
  omega

/-! ## Factorizations over the natural numbers -/

theorem divisor_count_to_pair (l : List (Nat × Nat)) :
    divisor_count (l.map to_pair) = (((l.map (fun pf => pf.2 + 1)).prod : Nat) : Int) := by
  induction l with
  | nil => simp [divisor_count]
  | cons pf l ih =>
    rw [List.map_cons, divisor_count_cons, ih]
    simp [to_pair]

theorem factorization_value_to_pair (l : List (Nat × Nat)) :
    factorization_value (l.map to_pair) = (((l.map (fun pf => pf.1 ^ pf.2)).prod : Nat) : Int) := by
  induction l with
  | nil => simp [factorization_value]
  | cons pf l ih =>
    rw [List.map_cons, factorization_value_cons, ih]
    simp [to_pair]

theorem wellFormed_exists_nat (pfs : List (Int × Int)) (h : WellFormed pfs) :
    ∃ l : List (Nat × Nat), pfs = l.map to_pair ∧ (∀ pf ∈ l, 2 ≤ pf.1 ∧ 1 ≤ pf.2) ∧
      (l.map Prod.fst).Pairwise (· < ·) := by
  refine ⟨pfs.map (fun pf => (pf.1.toNat, pf.2.toNat)), ?_, ?_, ?_⟩
  · rw [List.map_map]
    symm
    have : ∀ pf ∈ pfs, (to_pair ∘ fun pf : Int × Int => (pf.1.toNat, pf.2.toNat)) pf = id pf := by
      intro pf hpf
      have := h.1 pf hpf
      simp only [Function.comp, to_pair, id]
      ext
      · simp only
        omega
      · simp only
        omega
    rw [List.map_congr_left this, List.map_id]
  · intro pf hpf
    obtain ⟨q, hq, rfl⟩ := List.mem_map.1 hpf
    have := h.1 q hq
    simp only
    omega
  · rw [List.map_map]
    have h2 := h.2
    rw [List.pairwise_map] at h2 ⊢
    refine List.Pairwise.imp_of_mem ?_ h2
    intro a b ha hb hab
    have h1 := h.1 a ha
    have h3 := h.1 b hb
    simp only [Function.comp]
    omega

theorem wellFormed_to_pair (n : Nat) (l : List (Nat × Nat)) (h : IsFactorization n l) :
    WellFormed (l.map to_pair) := by
  constructor
  · intro pf hpf
    obtain ⟨q, hq, rfl⟩ := List.mem_map.1 hpf
    have := h.prime q hq
    have h2 := this.1.two_le
    simp only [to_pair]
    omega
  · rw [List.map_map]
    have h2 := h.increasing
    rw [List.pairwise_map] at h2 ⊢
    refine List.Pairwise.imp ?_ h2
    intro a b hab
    simp only [Function.comp, to_pair]
    omega

/-- A well-formed factorization whose value fits an `int64_t` meets every
machine bound of `generate_factors`. -/
theorem wellFormed_bounds (pfs : List (Int × Int)) (h : WellFormed pfs)
    (hv : factorization_value pfs ≤ 9223372036854775807) :
    (∀ pf ∈ pfs, 1 ≤ pf.1 ∧ 0 ≤ pf.2) ∧ divisor_count pfs < 134217728 ∧
      ∀ y ∈ expand pfs [1], FitsInt64 y := by
  have h1 : ∀ pf ∈ pfs, 1 ≤ pf.1 ∧ 0 ≤ pf.2 := by
    intro pf hpf
    have := h.1 pf hpf
    omega
  refine ⟨h1, ?_, expand_fits pfs (fun pf hpf => (h1 pf hpf).1) hv⟩
  obtain ⟨l, rfl, hl, hinc⟩ := wellFormed_exists_nat pfs h
  rw [factorization_value_to_pair] at hv
  rw [divisor_count_to_pair]
  have := count_lt_of_value_lt l (fun pf hpf => (hl pf hpf).1) hinc (by exact_mod_cast hv)
  exact_mod_cast this

/-! ## The list holds the divisors -/

theorem power_blocks_nodup (p : Int) (e : Nat) (l : List Int) (hnd : l.Nodup)
    (hind : ∀ b ∈ l, ∀ c ∈ l, ∀ j k : Nat, b * p ^ j = c * p ^ k → j = k ∧ b = c) :
    (power_blocks p e l).Nodup := by
  induction e generalizing l with
  | zero => simpa [power_blocks] using hnd
  | succ e ih =>
    rw [power_blocks, List.nodup_append]
    refine ⟨hnd, ?_, ?_⟩
    · apply ih
      · rw [List.nodup_map_iff_inj_on hnd]
        intro b hb c hc hbc
        have := hind b hb c hc 1 1 (by simpa using hbc)
        exact this.2
      · intro b hb c hc j k hjk
        obtain ⟨b', hb', rfl⟩ := List.mem_map.1 hb
        obtain ⟨c', hc', rfl⟩ := List.mem_map.1 hc
        have := hind b' hb' c' hc' (j + 1) (k + 1) (by
          rw [pow_succ', pow_succ', ← mul_assoc, ← mul_assoc]
          exact hjk)
        exact ⟨by omega, by rw [this.2]⟩
    · intro x hx hx2
      obtain ⟨j, -, b, hb, rfl⟩ := (mem_power_blocks _ _ _ _).1 hx2
      obtain ⟨b', hb', rfl⟩ := List.mem_map.1 hb
      have := hind (b' * p * p ^ j) hx b' hb' 0 (j + 1) (by
        rw [pow_zero, mul_one, pow_succ', mul_assoc])
      omega

theorem prime_pow_independent (p : Nat) (hp : p.Prime) (b c j k : Nat) (hb : ¬ p ∣ b)
    (hc : ¬ p ∣ c) (h : b * p ^ j = c * p ^ k) : j = k ∧ b = c := by
  have hpos : 0 < p := hp.pos
  have key : ∀ (b c j k : Nat), ¬ p ∣ b → b * p ^ j = c * p ^ k → ¬ j < k := by
    intro b c j k hb h hlt
    obtain ⟨d, rfl⟩ : ∃ d, k = j + (d + 1) := ⟨k - j - 1, by omega⟩
    have h2 : b * p ^ j = (c * p ^ d * p) * p ^ j := by
      rw [h]
      ring
    have h3 : b = c * p ^ d * p := Nat.eq_of_mul_eq_mul_right (Nat.pow_pos hpos) h2
    exact hb ⟨c * p ^ d, by rw [h3]; ring⟩
  have h1 := key b c j k hb h
  have h2 := key c b k j hc h.symm
  have hjk : j = k := by omega
  subst hjk
  exact ⟨rfl, Nat.eq_of_mul_eq_mul_right (Nat.pow_pos hpos) h⟩

theorem expand_divisors (l : List (Nat × Nat)) (a : Nat) (ds : List Int)
    (hprime : ∀ pf ∈ l, pf.1.Prime ∧ ¬ pf.1 ∣ a) (hinc : (l.map Prod.fst).Pairwise (· < ·))
    (hmem : ∀ x : Int, x ∈ ds ↔ ∃ d : Nat, d ∣ a ∧ x = d) (hnd : ds.Nodup) :
    (∀ x : Int, x ∈ expand (l.map to_pair) ds ↔
        ∃ d : Nat, d ∣ a * (l.map (fun pf => pf.1 ^ pf.2)).prod ∧ x = d) ∧
      (expand (l.map to_pair) ds).Nodup := by
  induction l generalizing a ds with
  | nil => simpa [expand] using ⟨hmem, hnd⟩
  | cons pf l ih =>
    obtain ⟨p, e⟩ := pf
    have hp := hprime (p, e) (List.mem_cons_self _ _)
    simp only [List.map_cons, List.pairwise_cons, List.prod_cons] at hinc ⊢
    have hmem' : ∀ x : Int, x ∈ power_blocks (p : Int) e ds ↔
        ∃ d : Nat, d ∣ a * p ^ e ∧ x = d := by
      intro x
      rw [mem_power_blocks]
      constructor
      · rintro ⟨j, hj, b, hb, rfl⟩
        obtain ⟨d, hd, rfl⟩ := (hmem b).1 hb
        exact ⟨d * p ^ j, Nat.mul_dvd_mul hd (Nat.pow_dvd_pow p hj), by push_cast; ring⟩
      · rintro ⟨d, hd, rfl⟩
        obtain ⟨y, z, hy, hz, rfl⟩ := (Nat.dvd_mul).1 hd
        obtain ⟨j, hj, rfl⟩ := (Nat.dvd_prime_pow hp.1).1 hz
        exact ⟨j, hj, y, (hmem y).2 ⟨y, hy, rfl⟩, by push_cast; ring⟩
    have hnd' : (power_blocks (p : Int) e ds).Nodup := by
      apply power_blocks_nodup _ _ _ hnd
      intro b hb c hc j k hjk
      obtain ⟨d1, hd1, rfl⟩ := (hmem b).1 hb
      obtain ⟨d2, hd2, rfl⟩ := (hmem c).1 hc
      have hjk' : d1 * p ^ j = d2 * p ^ k := by exact_mod_cast hjk
      have := prime_pow_independent p hp.1 d1 d2 j k (fun h => hp.2 (dvd_trans h hd1))
        (fun h => hp.2 (dvd_trans h hd2)) hjk'
      exact ⟨this.1, by rw [this.2]⟩
    have hprime' : ∀ pf ∈ l, pf.1.Prime ∧ ¬ pf.1 ∣ a * p ^ e := by
      intro q hq
      have hq' := hprime q (List.mem_cons_of_mem _ hq)
      refine ⟨hq'.1, fun hd => ?_⟩
      rcases (Nat.Prime.dvd_mul hq'.1).1 hd with h | h
      · exact hq'.2 h
      · have h2 := hq'.1.dvd_of_dvd_pow h
        have h3 := (Nat.prime_dvd_prime_iff_eq hq'.1 hp.1).1 h2
        have h4 := hinc.1 q.1 (List.mem_map_of_mem _ hq)
        omega
    have := ih (a * p ^ e) (power_blocks (p : Int) e ds) hprime' hinc.2 hmem' hnd'
    have hexp : expand (to_pair (p, e) :: List.map to_pair l) ds =
        expand (List.map to_pair l) (power_blocks (p : Int) e ds) := by
      rw [expand_cons]
      simp [to_pair]
    rw [hexp, ← mul_assoc]
    exact this

/-- The list built for a prime factorization of `n` holds every positive
divisor of `n` exactly once and nothing else. -/
theorem expand_factorization (n : Nat) (hn : 1 ≤ n) (l : List (Nat × Nat))
    (h : IsFactorization n l) :
    (∀ x : Int, x ∈ expand (l.map to_pair) [1] ↔ 1 ≤ x ∧ x ∣ (n : Int)) ∧
      (expand (l.map to_pair) [1]).Nodup := by
  have := expand_divisors l 1 [1]
    (fun pf hpf => ⟨(h.prime pf hpf).1, fun hd => by
      have := (h.prime pf hpf).1.two_le
      have := Nat.le_of_dvd (by norm_num) hd
      omega⟩) h.increasing (by
      intro x
      simp only [List.mem_singleton, Nat.dvd_one]
      constructor
      · rintro rfl
        exact ⟨1, rfl, rfl⟩
      · rintro ⟨d, rfl, rfl⟩
        rfl) (by simp)
  rw [one_mul, h.prod_eq] at this
  refine ⟨fun x => ?_, this.2⟩
  rw [this.1 x]
  constructor
  · rintro ⟨d, hd, rfl⟩
    have hpos : 0 < d := Nat.pos_of_dvd_of_pos hd (by omega)
    exact ⟨by omega, Int.natCast_dvd_natCast.2 hd⟩
  · rintro ⟨h1, hd⟩
    obtain ⟨d, rfl⟩ := Int.eq_ofNat_of_zero_le (by omega : 0 ≤ x)
    exact ⟨d, Int.natCast_dvd_natCast.1 hd, rfl⟩

/-! ## Helper lemmas for the contract of the queries -/

theorem to_pair_prime (n : Nat) (l : List (Nat × Nat)) (h : IsFactorization n l) :
    (∀ pf ∈ l.map to_pair, IsPrimeNumber pf.1 ∧ 1 ≤ pf.2) ∧
      ((l.map to_pair).map Prod.fst).Pairwise (· < ·) := by
  constructor
  · intro pf hpf
    obtain ⟨q, hq, rfl⟩ := List.mem_map.1 hpf
    have := h.prime q hq
    exact ⟨(isPrimeNumber_natCast q.1).2 this.1, by simp only [to_pair]; omega⟩
  · exact (wellFormed_to_pair n l h).2

theorem factorization_value_of_isFactorization (n : Nat) (l : List (Nat × Nat))
    (h : IsFactorization n l) : factorization_value (l.map to_pair) = (n : Int) := by
  rw [factorization_value_to_pair, h.prod_eq]

theorem prime_factorize_trial_eq (m : Nat) (t : Tables) (h : Sieved m t) (n : Nat)
    (h1 : 1 ≤ n) (hgt : m < n) (hn : n ≤ m * m) :
    prime_factorize t (n : Int) =
      (factorize_trial t.primes n []).map
        (fun r => if r.1 > 1 then r.2 ++ [((r.1 : Int), (1 : Int))] else r.2) := by
  unfold prime_factorize
  simp only [h.len_smallest_factor, Nat.cast_add, Nat.cast_one, add_sub_cancel_right,
    Int.toNat_ofNat]
  have hin : (1 : Int) ≤ n ∧ (n : Int) ≤ (m : Int) * m :=
    ⟨by exact_mod_cast h1, by exact_mod_cast hn⟩
  have hnm : ¬ ((n : Int) ≤ m) := by omega
  rw [if_pos hin, if_neg hnm]
  cases factorize_trial t.primes n [] with
  | none => rfl
  | some r => rfl

theorem isFactorization_prime_iff (n : Nat) (l : List (Nat × Nat)) (h : IsFactorization n l) :
    n.Prime ↔ ∃ p, l = [(p, 1)] := by
  constructor
  · intro hp
    have hall : ∀ pf ∈ l, pf.1 = n := by
      intro pf hpf
      have hd := prime_dvd_of_mem_factorization n l h pf hpf
      exact (Nat.prime_dvd_prime_iff_eq (h.prime pf hpf).1 hp).1 hd
    cases l with
    | nil =>
      have := h.prod_eq
      simp at this
      exact absurd this.symm hp.ne_one
    | cons pf l =>
      cases l with
      | nil =>
        obtain ⟨p, e⟩ := pf
        have hpn : p = n := hall (p, e) (List.mem_cons_self _ _)
        have hprod := h.prod_eq
        simp only [List.map_cons, List.map_nil, List.prod_cons, List.prod_nil, mul_one] at hprod
        subst hpn
        have he1 : 1 ≤ e := (h.prime (p, e) (List.mem_cons_self _ _)).2
        have he : e = 1 := by
          by_contra hne
          have h2 : 2 ≤ e := by omega
          have hlt : p ^ 1 < p ^ e := Nat.pow_lt_pow_right hp.one_lt (by omega)
          rw [pow_one, hprod] at hlt
          omega
        exact ⟨p, by rw [he]⟩
      | cons pf2 l =>
        exfalso
        have h1 := hall pf (List.mem_cons_self _ _)
        have h2 := hall pf2 (List.mem_cons_of_mem _ (List.mem_cons_self _ _))
        have hinc := h.increasing
        simp only [List.map_cons, List.pairwise_cons, List.mem_cons, forall_eq_or_imp] at hinc
        omega
  · rintro ⟨p, rfl⟩
    have hprod := h.prod_eq
    simp at hprod
    rw [← hprod]
    exact (h.prime (p, 1) (List.mem_cons_self _ _)).1

theorem nat_of_query (n : Int) (h1 : 1 ≤ n) : ∃ k : Nat, n = (k : Int) ∧ 1 ≤ k := by
  obtain ⟨k, rfl⟩ := Int.eq_ofNat_of_zero_le (by omega : 0 ≤ n)
  exact ⟨k, rfl, by exact_mod_cast h1⟩

theorem is_prime_correct_aux (m : Nat) (tb : Tables) (hs : Sieved m tb) (n : Int) (h1 : 1 ≤ n)
    (hn : n ≤ (m : Int) * (m : Int)) :
    ∃ b, is_prime tb n = some b ∧ (b = true ↔ IsPrimeNumber n) := by
  obtain ⟨k, rfl, hk⟩ := nat_of_query n h1
  refine ⟨decide k.Prime, ?_, ?_⟩
  · have := is_prime_sieved m tb hs (k : Int) h1 hn
    simpa using this
  · rw [decide_eq_true_eq, isPrimeNumber_natCast]

theorem prime_factorize_some (m : Nat) (tb : Tables) (hs : Sieved m tb) (n : Int) (h1 : 1 ≤ n)
    (hn : n ≤ (m : Int) * (m : Int)) :
    ∃ l, prime_factorize tb n = some (l.map to_pair) ∧ IsFactorization n.toNat l := by
  obtain ⟨k, rfl, hk⟩ := nat_of_query n h1
  obtain ⟨l, hl, hfac⟩ := prime_factorize_sieved m tb hs k hk (by exact_mod_cast hn)
  exact ⟨l, hl, by simpa using hfac⟩

theorem query_none_iff (m : Nat) (tb : Tables) (hs : Sieved m tb) (n : Int) :
    (is_prime tb n = none ↔ (n < 1 ∨ (m : Int) * (m : Int) < n)) ∧
    (prime_factorize tb n = none ↔ (n < 1 ∨ (m : Int) * (m : Int) < n)) := by
  by_cases hin : 1 ≤ n ∧ n ≤ (m : Int) * (m : Int)
  · obtain ⟨b, hb, -⟩ := is_prime_correct_aux m tb hs n hin.1 hin.2
    obtain ⟨l, hl, -⟩ := prime_factorize_some m tb hs n hin.1 hin.2
    rw [hb, hl]
    constructor <;> constructor
    · intro h; cases h
    · intro h; omega
    · intro h; cases h
    · intro h; omega
  · have hout : n < 1 ∨ (m : Int) * (m : Int) < n := by omega
    have hlen := hs.len_smallest_factor
    have h1 : is_prime tb n = none := by
      unfold is_prime
      simp only [hlen, Nat.cast_add, Nat.cast_one, add_sub_cancel_right]
      rw [if_neg hin]
    have h2 : prime_factorize tb n = none := by
      unfold prime_factorize
      simp only [hlen, Nat.cast_add, Nat.cast_one, add_sub_cancel_right]
      rw [if_neg hin]
    rw [h1, h2]
    exact ⟨⟨fun _ => hout, fun _ => rfl⟩, ⟨fun _ => hout, fun _ => rfl⟩⟩

/-! ## Contract of `prime_factorize` and `is_prime` -/

/-- C1: `sieve(bound)` builds its tables for every `int` bound below `2^31 - 1`,
and then, for every `n` with `1 <= n <= B * B` (`B = max(bound, 1)`),
`prime_factorize(n)` returns a list and the product of `p ^ exponent` over its
pairs is `n`, on the table path and on the trial-division path alike. -/
theorem prime_factorize_product (t : Tables) (bound n : Int) (hb : bound < 2147483647)
    (h1 : 1 ≤ n) (hn : n ≤ (table_bound bound : Int) * (table_bound bound : Int)) :
    ∃ tb l, sieve t bound = some tb ∧ prime_factorize tb n = some l ∧
      factorization_value l = n := by
  obtain ⟨tb, htb, hs⟩ := sieve_sieved t bound hb
  obtain ⟨k, rfl, hk⟩ := nat_of_query n h1
  obtain ⟨l, hl, hfac⟩ := prime_factorize_sieved (table_bound bound) tb hs k hk
    (by exact_mod_cast hn)
  exact ⟨tb, l.map to_pair, htb, hl, factorization_value_of_isFactorization k l hfac⟩

theorem prime_factorize_product_witness :
    (10 : Int) < 2147483647 ∧ (1 : Int) ≤ 77 ∧
      (77 : Int) ≤ (table_bound 10 : Int) * (table_bound 10 : Int) ∧
      ∃ tb l, sieve initial_tables 10 = some tb ∧ prime_factorize tb 77 = some l ∧
        factorization_value l = 77 :=
  ⟨by decide, by decide, by decide,
    prime_factorize_product initial_tables 10 77 (by decide) (by decide) (by decide)⟩

/-- C2: after `sieve(bound)`, for every `n` with `1 <= n <= B * B` the list
returned by `prime_factorize(n)` has prime first components, exponents at least
one and strictly increasing first components; on the trial-division path
(`n > B`) the value left after the loop, when above one, is a prime larger than
every prime found before it, and it is appended last with exponent one. -/
theorem prime_factorize_well_formed (t : Tables) (bound n : Int) (hb : bound < 2147483647)
    (h1 : 1 ≤ n) (hn : n ≤ (table_bound bound : Int) * (table_bound bound : Int)) :
    ∃ tb l, sieve t bound = some tb ∧ prime_factorize tb n = some l ∧
      (∀ pf ∈ l, IsPrimeNumber pf.1 ∧ 1 ≤ pf.2) ∧ (l.map Prod.fst).Pairwise (· < ·) ∧
      ((table_bound bound : Int) < n →
        ∃ m result, factorize_trial tb.primes n.toNat [] = some (m, result) ∧
          l = (if m > 1 then result ++ [((m : Int), (1 : Int))] else result) ∧
          (m > 1 → IsPrimeNumber (m : Int) ∧ ∀ pf ∈ result, pf.1 < (m : Int))) := by
  obtain ⟨tb, htb, hs⟩ := sieve_sieved t bound hb
  obtain ⟨k, rfl, hk⟩ := nat_of_query n h1
  have hkm : k ≤ table_bound bound * table_bound bound := by exact_mod_cast hn
  obtain ⟨l, hl, hfac⟩ := prime_factorize_sieved (table_bound bound) tb hs k hk hkm
  obtain ⟨hp, hinc⟩ := to_pair_prime k l hfac
  refine ⟨tb, l.map to_pair, htb, hl, hp, hinc, ?_⟩
  intro hgt
  have hgt' : table_bound bound < k := by exact_mod_cast hgt
  obtain ⟨l1, n1, hrec, hn1, hfac1, hdvd, hlast⟩ :=
    factorize_trial_sieved (table_bound bound) tb hs k hk hkm
  have heq := prime_factorize_trial_eq (table_bound bound) tb hs k hk hgt' hkm
  rw [hl, hrec] at heq
  simp only [Option.map_some', Option.some.injEq] at heq
  refine ⟨n1, l1.map to_pair, by simpa using hrec, heq, ?_⟩
  intro hm
  rcases hlast with h | ⟨hpr, hlt⟩
  · omega
  · refine ⟨(isPrimeNumber_natCast n1).2 hpr, ?_⟩
    intro pf hpf
    obtain ⟨q, hq, rfl⟩ := List.mem_map.1 hpf
    have := hlt q hq
    simp only [to_pair]
    omega

theorem prime_factorize_well_formed_witness :
    (10 : Int) < 2147483647 ∧ (1 : Int) ≤ 77 ∧
    (77 : Int) ≤ (table_bound 10 : Int) * (table_bound 10 : Int) ∧
    ∃ tb l, sieve initial_tables 10 = some tb ∧ prime_factorize tb 77 = some l ∧
      (∀ pf ∈ l, IsPrimeNumber pf.1 ∧ 1 ≤ pf.2) ∧ (l.map Prod.fst).Pairwise (· < ·) ∧
      ((table_bound 10 : Int) < 77 →
        ∃ m result, factorize_trial tb.primes (77 : Int).toNat [] = some (m, result) ∧
          l = (if m > 1 then result ++ [((m : Int), (1 : Int))] else result) ∧
          (m > 1 → IsPrimeNumber (m : Int) ∧ ∀ pf ∈ result, pf.1 < (m : Int))) :=
  ⟨by decide, by decide, by decide,
    prime_factorize_well_formed initial_tables 10 77 (by decide) (by decide) (by decide)⟩

/-- C3: after `sieve(bound)`, for every `n` with `1 <= n <= B * B`, `is_prime(n)`
returns `true` exactly when `n` is a prime number (`n >= 2` without a divisor
`d`, `1 < d < n`), by table lookup for `n <= B` and by trial division above. -/
theorem is_prime_correct (t : Tables) (bound n : Int) (hb : bound < 2147483647)
    (h1 : 1 ≤ n) (hn : n ≤ (table_bound bound : Int) * (table_bound bound : Int)) :
    ∃ tb b, sieve t bound = some tb ∧ is_prime tb n = some b ∧
      (b = true ↔ IsPrimeNumber n) := by
  obtain ⟨tb, htb, hs⟩ := sieve_sieved t bound hb
  obtain ⟨b, hrun, hiff⟩ := is_prime_correct_aux (table_bound bound) tb hs n h1 hn
  exact ⟨tb, b, htb, hrun, hiff⟩

theorem is_prime_correct_witness :
    (10 : Int) < 2147483647 ∧ (1 : Int) ≤ 97 ∧
      (97 : Int) ≤ (table_bound 10 : Int) * (table_bound 10 : Int) ∧
      ∃ tb b, sieve initial_tables 10 = some tb ∧ is_prime tb 97 = some b ∧
        (b = true ↔ IsPrimeNumber 97) :=
  ⟨by decide, by decide, by decide,
    is_prime_correct initial_tables 10 97 (by decide) (by decide) (by decide)⟩

/-- C9: after `sieve(bound)`, for every `n` with `1 <= n <= B * B`, `is_prime(n)`
is `true` exactly when `prime_factorize(n)` consists of one pair whose exponent
is one. -/
theorem is_prime_iff_single_factor (t : Tables) (bound n : Int) (hb : bound < 2147483647)
    (h1 : 1 ≤ n) (hn : n ≤ (table_bound bound : Int) * (table_bound bound : Int)) :
    ∃ tb b l, sieve t bound = some tb ∧ is_prime tb n = some b ∧
      prime_factorize tb n = some l ∧ (b = true ↔ ∃ p, l = [(p, 1)]) := by
  obtain ⟨tb, htb, hs⟩ := sieve_sieved t bound hb
  obtain ⟨k, rfl, hk⟩ := nat_of_query n h1
  obtain ⟨l, hl, hfac⟩ := prime_factorize_sieved (table_bound bound) tb hs k hk
    (by exact_mod_cast hn)
  refine ⟨tb, decide k.Prime, l.map to_pair, htb, ?_, hl, ?_⟩
  · have := is_prime_sieved (table_bound bound) tb hs (k : Int) h1 hn
    simpa using this
  · rw [decide_eq_true_eq, isFactorization_prime_iff k l hfac]
    constructor
    · rintro ⟨p, rfl⟩
      exact ⟨(p : Int), rfl⟩
    · rintro ⟨p, hp⟩
      cases l with
      | nil => simp at hp
      | cons pf l =>
        cases l with
        | nil =>
          obtain ⟨q, e⟩ := pf
          simp only [List.map_cons, List.map_nil, to_pair, List.cons.injEq, Prod.mk.injEq,
            and_true] at hp
          exact ⟨q, by
            have : e = 1 := by exact_mod_cast hp.2
            rw [this]⟩
        | cons pf2 l => simp at hp

theorem is_prime_iff_single_factor_witness :
    (10 : Int) < 2147483647 ∧ (1 : Int) ≤ 97 ∧
      (97 : Int) ≤ (table_bound 10 : Int) * (table_bound 10 : Int) ∧
      ∃ tb b l, sieve initial_tables 10 = some tb ∧ is_prime tb 97 = some b ∧
        prime_factorize tb 97 = some l ∧ (b = true ↔ ∃ p, l = [(p, 1)]) :=
  ⟨by decide, by decide, by decide,
    is_prime_iff_single_factor initial_tables 10 97 (by decide) (by decide) (by decide)⟩

/-- C10: after `sieve(bound)`, `is_prime(n)` and `prime_factorize(n)` fail (the
assertion is violated) exactly when `n < 1` or `n > B * B`; for every other `n`
they return a value. -/
theorem query_fails_iff_out_of_range (t : Tables) (bound : Int) (hb : bound < 2147483647) :
    ∃ tb, sieve t bound = some tb ∧ ∀ n : Int,
      (is_prime tb n = none ↔
        (n < 1 ∨ (table_bound bound : Int) * (table_bound bound : Int) < n)) ∧
      (prime_factorize tb n = none ↔
        (n < 1 ∨ (table_bound bound : Int) * (table_bound bound : Int) < n)) ∧
      ((1 ≤ n ∧ n ≤ (table_bound bound : Int) * (table_bound bound : Int)) →
        ∃ b l, is_prime tb n = some b ∧ prime_factorize tb n = some l) := by
  obtain ⟨tb, htb, hs⟩ := sieve_sieved t bound hb
  refine ⟨tb, htb, fun n => ?_⟩
  obtain ⟨hp, hf⟩ := query_none_iff (table_bound bound) tb hs n
  refine ⟨hp, hf, ?_⟩
  rintro ⟨h1, hn⟩
  obtain ⟨b, hrun, -⟩ := is_prime_correct_aux (table_bound bound) tb hs n h1 hn
  obtain ⟨l, hl, -⟩ := prime_factorize_some (table_bound bound) tb hs n h1 hn
  exact ⟨b, _, hrun, hl⟩

theorem query_fails_iff_out_of_range_witness :
    (10 : Int) < 2147483647 ∧
    ∃ tb, sieve initial_tables 10 = some tb ∧ is_prime tb 0 = none ∧
      prime_factorize tb 101 = none ∧
      ∃ b l, is_prime tb 100 = some b ∧ prime_factorize tb 100 = some l :=
  ⟨by decide, (query_fails_iff_out_of_range initial_tables 10 (by decide)).imp
    (fun _ h => ⟨h.1, (h.2 0).1.2 (Or.inl (by decide)), (h.2 101).2.1.2 (Or.inr (by decide)),
      (h.2 100).2.2 ⟨by decide, by decide⟩⟩)⟩

/-! ## Contract of `sieve` -/

/-- C12: after `sieve(bound)` the primality table has `B + 1` entries
(`B = max(bound, 1)`), the entry at an index `i` is `true` exactly when `i <= B`
is a prime number, and the entries at `0` and `1` are `false`. -/
theorem sieve_prime_table (t : Tables) (bound : Int) (hb : bound < 2147483647) :
    ∃ tb, sieve t bound = some tb ∧ tb.prime.length = table_bound bound + 1 ∧
      (∀ i : Nat, tb.prime.getD i false = true ↔
        (i ≤ table_bound bound ∧ IsPrimeNumber (i : Int))) ∧
      tb.prime.getD 0 false = false ∧ tb.prime.getD 1 false = false := by
  obtain ⟨tb, htb, hs⟩ := sieve_sieved t bound hb
  have hB := table_bound_pos bound
  have key : ∀ i : Nat, tb.prime.getD i false = true ↔
      (i ≤ table_bound bound ∧ IsPrimeNumber (i : Int)) := by
    intro i
    rw [getD_false_eq_true_iff, isPrimeNumber_natCast]
    by_cases hi : i ≤ table_bound bound
    · rw [hs.prime_eq i hi]
      simp [hi]
    · rw [List.getElem?_eq_none (by rw [hs.len_prime]; omega)]
      simp [hi]
  refine ⟨tb, htb, hs.len_prime, key, ?_, ?_⟩
  · have h0 := key 0
    have : ¬ IsPrimeNumber ((0 : Nat) : Int) := fun h => by
      have := h.1
      omega
    cases h : tb.prime.getD 0 false
    · rfl
    · exact absurd (h0.1 h).2 this
  · have h1 := key 1
    have : ¬ IsPrimeNumber ((1 : Nat) : Int) := fun h => by
      have := h.1
      omega
    cases h : tb.prime.getD 1 false
    · rfl
    · exact absurd (h1.1 h).2 this

theorem sieve_prime_table_witness :
    (10 : Int) < 2147483647 ∧
    ∃ tb, sieve initial_tables 10 = some tb ∧ tb.prime.length = table_bound 10 + 1 ∧
      (∀ i : Nat, tb.prime.getD i false = true ↔
        (i ≤ table_bound 10 ∧ IsPrimeNumber (i : Int))) ∧
      tb.prime.getD 0 false = false ∧ tb.prime.getD 1 false = false :=
  ⟨by decide, sieve_prime_table initial_tables 10 (by decide)⟩

/-- C13: after `sieve(bound)`, for every `i` with `2 <= i <= B` the entry
`smallest_factor[i]` is the least prime dividing `i`: it equals `i` when `i` is
prime and is a prime `p` with `p * p <= i` when `i` is composite; the entries at
`0` and `1` are `0`. -/
theorem sieve_smallest_factor_table (t : Tables) (bound : Int) (hb : bound < 2147483647) :
    ∃ tb, sieve t bound = some tb ∧
      (∀ i : Nat, 2 ≤ i → i ≤ table_bound bound →
        ∃ p : Nat, tb.smallest_factor[i]? = some p ∧ IsPrimeNumber (p : Int) ∧
          p ∣ i ∧ (∀ q : Nat, IsPrimeNumber (q : Int) → q ∣ i → p ≤ q) ∧
          (IsPrimeNumber (i : Int) → p = i) ∧ (¬ IsPrimeNumber (i : Int) → p * p ≤ i)) ∧
      tb.smallest_factor[0]? = some 0 ∧ tb.smallest_factor[1]? = some 0 := by
  obtain ⟨tb, htb, hs⟩ := sieve_sieved t bound hb
  have hB := table_bound_pos bound
  refine ⟨tb, htb, ?_, ?_, ?_⟩
  · intro i h2 hi
    refine ⟨i.minFac, ?_, ?_, Nat.minFac_dvd i, ?_, ?_, ?_⟩
    · rw [hs.smallest_factor_eq i hi, if_pos h2]
    · exact (isPrimeNumber_natCast _).2 (Nat.minFac_prime (by omega))
    · intro q hq hd
      exact Nat.minFac_le_of_dvd ((isPrimeNumber_natCast q).1 hq).two_le hd
    · intro hp
      exact (Nat.prime_def_minFac.1 ((isPrimeNumber_natCast i).1 hp)).2
    · intro hnp
      have := Nat.minFac_sq_le_self (n := i) (by omega)
        (fun h => hnp ((isPrimeNumber_natCast i).2 h))
      nlinarith
  · rw [hs.smallest_factor_eq 0 (by omega)]
    simp
  · rw [hs.smallest_factor_eq 1 (by omega)]
    simp

theorem sieve_smallest_factor_table_witness :
    (10 : Int) < 2147483647 ∧ 2 ≤ 9 ∧ 9 ≤ table_bound 10 ∧
    ∃ tb, sieve initial_tables 10 = some tb ∧
      ∃ p : Nat, tb.smallest_factor[9]? = some p ∧
        IsPrimeNumber (p : Int) ∧ p ∣ 9 ∧ (∀ q : Nat, IsPrimeNumber (q : Int) → q ∣ 9 → p ≤ q) ∧
        (IsPrimeNumber ((9 : Nat) : Int) → p = 9) ∧
        (¬ IsPrimeNumber ((9 : Nat) : Int) → p * p ≤ 9) :=
  ⟨by decide, by decide, by decide,
    (sieve_smallest_factor_table initial_tables 10 (by decide)).imp
      (fun _ h => ⟨h.1, h.2.1 9 (by decide) (by decide)⟩)⟩

/-- C14: after `sieve(bound)` the list `primes` is strictly increasing, without
duplicates, and holds exactly the prime numbers up to `B`, which are exactly
the indices whose entry of the primality table is `true`. -/
theorem sieve_prime_list (t : Tables) (bound : Int) (hb : bound < 2147483647) :
    ∃ tb, sieve t bound = some tb ∧
      tb.primes.Pairwise (· < ·) ∧ tb.primes.Nodup ∧
      (∀ q : Nat, q ∈ tb.primes ↔ (IsPrimeNumber (q : Int) ∧ q ≤ table_bound bound)) ∧
      (∀ q : Nat, q ∈ tb.primes ↔ tb.prime.getD q false = true) := by
  obtain ⟨tb, htb, hs⟩ := sieve_sieved t bound hb
  have hmem : ∀ q : Nat, q ∈ tb.primes ↔
      (IsPrimeNumber (q : Int) ∧ q ≤ table_bound bound) := by
    intro q
    rw [hs.primes_eq, mem_primes, isPrimeNumber_natCast]
  have hpw : tb.primes.Pairwise (· < ·) := by
    rw [hs.primes_eq]
    exact primes_pairwise _
  refine ⟨tb, htb, hpw, hpw.imp (fun h => Nat.ne_of_lt h), hmem, ?_⟩
  intro q
  rw [hmem, getD_false_eq_true_iff, isPrimeNumber_natCast]
  by_cases hq : q ≤ table_bound bound
  · rw [hs.prime_eq q hq]
    simp [hq]
  · rw [List.getElem?_eq_none (by rw [hs.len_prime]; omega)]
    simp [hq]

theorem sieve_prime_list_witness :
    (10 : Int) < 2147483647 ∧
    ∃ tb, sieve initial_tables 10 = some tb ∧
      tb.primes.Pairwise (· < ·) ∧ tb.primes.Nodup ∧
      (∀ q : Nat, q ∈ tb.primes ↔ (IsPrimeNumber (q : Int) ∧ q ≤ table_bound 10)) ∧
      (∀ q : Nat, q ∈ tb.primes ↔ tb.prime.getD q false = true) :=
  ⟨by decide, sieve_prime_list initial_tables 10 (by decide)⟩

/-- C15: the outcome of `sieve(bound)` does not depend on the tables before the
call; so after a rebuild, also to a smaller bound, both tables have
`max(bound, 1) + 1` entries, no listed prime exceeds the new bound, and the
queries reject every `n` above the square of the new bound. -/
theorem sieve_replaces_tables (t : Tables) (bound : Int) :
    sieve t bound = sieve initial_tables bound ∧
    (bound < 2147483647 →
      ∃ tb, sieve t bound = some tb ∧
        tb.smallest_factor.length = table_bound bound + 1 ∧
        tb.prime.length = table_bound bound + 1 ∧
        (∀ q ∈ tb.primes, q ≤ table_bound bound) ∧
        (∀ n : Int, (table_bound bound : Int) * (table_bound bound : Int) < n →
          is_prime tb n = none ∧ prime_factorize tb n = none)) := by
  refine ⟨rfl, fun hb => ?_⟩
  obtain ⟨tb, htb, hs⟩ := sieve_sieved t bound hb
  refine ⟨tb, htb, hs.len_smallest_factor, hs.len_prime, ?_, ?_⟩
  · intro q hq
    rw [hs.primes_eq] at hq
    exact ((mem_primes _ q).1 hq).2
  · intro n hn
    obtain ⟨hp, hf⟩ := query_none_iff (table_bound bound) tb hs n
    exact ⟨hp.2 (Or.inr hn), hf.2 (Or.inr hn)⟩

theorem sieve_replaces_tables_witness :
    (3 : Int) < 2147483647 ∧ (table_bound 3 : Int) * (table_bound 3 : Int) < 10 ∧
    ∃ tb, sieve (Tables.mk [0, 0, 2, 3, 2, 5] [false, false, true, true, false, true]
        [2, 3, 5]) 3 = some tb ∧
      sieve initial_tables 3 = some tb ∧ tb.smallest_factor.length = table_bound 3 + 1 ∧
      is_prime tb 10 = none ∧ prime_factorize tb 10 = none :=
  ⟨by decide, by decide,
    ((sieve_replaces_tables (Tables.mk [0, 0, 2, 3, 2, 5]
        [false, false, true, true, false, true] [2, 3, 5]) 3).2 (by decide)).imp
      (fun _ h => ⟨h.1, (sieve_replaces_tables (Tables.mk [0, 0, 2, 3, 2, 5]
        [false, false, true, true, false, true] [2, 3, 5]) 3).1 ▸ h.1,
        h.2.1, h.2.2.2.2 10 (by decide)⟩)⟩

/-- C17: on the table path of `prime_factorize` after `sieve(bound)`, every
value `m` of the loop with `2 <= m <= B` finds `smallest_factor[m]` in range
with a value `p >= 2` dividing `m`, the inner loop ends with a value `m1`,
`1 <= m1 < m`, and for every `n` with `1 <= n <= B` the whole loop ends and
returns a list. -/
theorem factorize_table_safe (t : Tables) (bound : Int) (hb : bound < 2147483647) :
    ∃ tb, sieve t bound = some tb ∧
      (∀ m : Nat, 2 ≤ m → m ≤ table_bound bound →
        ∃ p m1 exponent, tb.smallest_factor[m]? = some p ∧ 2 ≤ p ∧ p ∣ m ∧
          divide_out p m m 0 = some (m1, exponent) ∧ 1 ≤ m1 ∧ m1 < m ∧
          m = p ^ exponent * m1) ∧
      (∀ n : Nat, 1 ≤ n → n ≤ table_bound bound →
        ∃ l, factorize_table tb.smallest_factor n n [] = some l ∧
          prime_factorize tb (n : Int) = some l) := by
  obtain ⟨tb, htb, hs⟩ := sieve_sieved t bound hb
  refine ⟨tb, htb, ?_, ?_⟩
  · intro m h2 hm
    have hpr : m.minFac.Prime := Nat.minFac_prime (by omega)
    obtain ⟨k, m1, hk, hm1, he, -, hres⟩ :=
      divide_out_spec m.minFac hpr.two_le m m 0 (by omega) (le_refl m) (Nat.minFac_dvd m)
    refine ⟨m.minFac, m1, k, ?_, hpr.two_le, Nat.minFac_dvd m, by simpa using hres, hm1, ?_, he⟩
    · rw [hs.smallest_factor_eq m hm, if_pos h2]
    · have hpk : 2 ≤ m.minFac ^ k := by
        calc 2 ≤ m.minFac := hpr.two_le
          _ = m.minFac ^ 1 := (pow_one _).symm
          _ ≤ m.minFac ^ k := Nat.pow_le_pow_right hpr.pos hk
      have hlt : m1 < m.minFac ^ k * m1 := by nlinarith
      omega
  · intro n h1 hn
    obtain ⟨l, -, hres⟩ := factorize_table_spec (table_bound bound) _ hs.smallest_factor_eq n n []
      h1 hn (le_refl n)
    refine ⟨_, hres, ?_⟩
    have hB : (n : Int) ≤ (table_bound bound : Int) := by exact_mod_cast hn
    have hn1 : (1 : Int) ≤ (n : Int) := by exact_mod_cast h1
    have hsq : (n : Int) ≤ (table_bound bound : Int) * (table_bound bound : Int) := by nlinarith
    unfold prime_factorize
    simp only [hs.len_smallest_factor, Nat.cast_add, Nat.cast_one, add_sub_cancel_right]
    rw [if_pos ⟨hn1, hsq⟩, if_pos hB, Int.toNat_ofNat, hres]

theorem factorize_table_safe_witness :
    (10 : Int) < 2147483647 ∧ 2 ≤ 8 ∧ 8 ≤ table_bound 10 ∧
    ∃ tb, sieve initial_tables 10 = some tb ∧
      ∃ p m1 exponent, tb.smallest_factor[8]? = some p ∧ 2 ≤ p ∧ p ∣ 8 ∧
        divide_out p 8 8 0 = some (m1, exponent) ∧ 1 ≤ m1 ∧ m1 < 8 ∧ 8 = p ^ exponent * m1 :=
  ⟨by decide, by decide, by decide,
    (factorize_table_safe initial_tables 10 (by decide)).imp
      (fun _ h => ⟨h.1, h.2.1 8 (by decide) (by decide)⟩)⟩

/-- C20: before any call of `sieve` the three tables are empty, `sieve_max` is
`-1` and `sieve_max * sieve_max` is `1`: the queries accept `n = 1` and reject
every other `n`; `is_prime(1)` takes the trial-division path over the empty
prime list and returns `true`, `prime_factorize(1)` returns the empty list.
After any `sieve(bound)`, `is_prime(1)` returns `false`. -/
theorem queries_before_sieve :
    (∀ n : Int, is_prime initial_tables n = none ↔ n ≠ 1) ∧
    (∀ n : Int, prime_factorize initial_tables n = none ↔ n ≠ 1) ∧
    is_prime initial_tables 1 = some true ∧ prime_factorize initial_tables 1 = some [] ∧
    is_prime_loop initial_tables.primes 1 = true ∧
    (∀ (t : Tables) (bound : Int), bound < 2147483647 →
      ∃ tb, sieve t bound = some tb ∧ is_prime tb 1 = some false) := by
  have hrange : ∀ n : Int, (1 ≤ n ∧ n ≤ ((0 : Nat) : Int) - 1 * (((0 : Nat) : Int) - 1)) ↔ n = 1 := by
    intro n
    omega
  refine ⟨?_, ?_, by decide, by decide, by decide, ?_⟩
  · intro n
    by_cases h : n = 1
    · subst h
      simp only [ne_eq, not_true_eq_false, iff_false]
      decide
    · have hout : ¬ (1 ≤ n ∧ n ≤ (((0 : Nat) : Int) - 1) * (((0 : Nat) : Int) - 1)) := by omega
      simp only [ne_eq, h, not_false_eq_true, iff_true]
      unfold is_prime
      simp only [initial_tables, List.length_nil]
      rw [if_neg hout]
  · intro n
    by_cases h : n = 1
    · subst h
      simp only [ne_eq, not_true_eq_false, iff_false]
      decide
    · have hout : ¬ (1 ≤ n ∧ n ≤ (((0 : Nat) : Int) - 1) * (((0 : Nat) : Int) - 1)) := by omega
      simp only [ne_eq, h, not_false_eq_true, iff_true]
      unfold prime_factorize
      simp only [initial_tables, List.length_nil]
      rw [if_neg hout]
  · intro t bound hb
    obtain ⟨tb, htb, hs⟩ := sieve_sieved t bound hb
    have hB := table_bound_pos bound
    have := is_prime_sieved (table_bound bound) tb hs 1
      (le_refl 1) (by
        have : (1 : Int) ≤ (table_bound bound : Int) := by exact_mod_cast hB
        nlinarith)
    refine ⟨tb, htb, ?_⟩
    rw [this]
    simp [Nat.not_prime_one]

theorem queries_before_sieve_witness :
    (10 : Int) < 2147483647 ∧ ∃ tb, sieve initial_tables 10 = some tb ∧
      is_prime tb 1 = some false :=
  ⟨by decide, queries_before_sieve.2.2.2.2.2 initial_tables 10 (by decide)⟩

/-! ## Contract of `generate_factors` -/

/-- Within the domain of a sieve whose bound is an `int`, the factorization
returned is well-formed and its value fits an `int64_t`. -/
theorem prime_factorize_in_range (t : Tables) (bound n : Int) (hb : bound < 2147483647)
    (h1 : 1 ≤ n) (hn : n ≤ (table_bound bound : Int) * (table_bound bound : Int)) :
    ∃ tb l, sieve t bound = some tb ∧ prime_factorize tb n = some (l.map to_pair) ∧
      IsFactorization n.toNat l ∧ WellFormed (l.map to_pair) ∧
      factorization_value (l.map to_pair) = n ∧ n ≤ 9223372036854775807 := by
  obtain ⟨tb, htb, hs⟩ := sieve_sieved t bound hb
  obtain ⟨l, hl, hfac⟩ := prime_factorize_some (table_bound bound) tb hs n h1 hn
  have hB : (table_bound bound : Int) ≤ 2147483647 := by
    unfold table_bound
    omega
  have hB0 : (0 : Int) ≤ (table_bound bound : Int) := by omega
  have hnn : n ≤ 9223372036854775807 := by nlinarith
  refine ⟨tb, l, htb, hl, hfac, wellFormed_to_pair _ l hfac, ?_, hnn⟩
  rw [factorization_value_of_isFactorization _ l hfac]
  omega

/-- C4: after `sieve(bound)`, for every `n` with `1 <= n <= B * B` and either
value of `sorted`, the list `generate_factors(prime_factorize(n), sorted)` holds
every positive divisor of `n` exactly once and nothing else. -/
theorem generate_factors_divisors (t : Tables) (buffer : List Int) (bound n : Int)
    (sorted : Bool) (hb : bound < 2147483647) (h1 : 1 ≤ n)
    (hn : n ≤ (table_bound bound : Int) * (table_bound bound : Int)) :
    ∃ tb pfs factors buffer1, sieve t bound = some tb ∧ prime_factorize tb n = some pfs ∧
      generate_factors buffer pfs sorted = some (factors, buffer1) ∧
      (∀ d : Int, d ∈ factors ↔ 1 ≤ d ∧ d ∣ n) ∧ factors.Nodup := by
  obtain ⟨tb, l, htb, hl, hfac, hwf, hval, hnn⟩ := prime_factorize_in_range t bound n hb h1 hn
  obtain ⟨hpe, hcount, hfit⟩ := wellFormed_bounds _ hwf (by rw [hval]; exact hnn)
  have hdiv := expand_factorization n.toNat (by omega) l hfac
  rw [Int.toNat_of_nonneg (by omega : 0 ≤ n)] at hdiv
  cases sorted with
  | false =>
    refine ⟨tb, _, _, _, htb, hl, generate_factors_unsorted buffer _ (fun pf h => (hpe pf h).2)
      (by omega) hfit, hdiv.1, hdiv.2⟩
  | true =>
    obtain ⟨f, b, hrun, -, hperm⟩ := generate_factors_sorted buffer _ hpe (by omega) hfit
    refine ⟨tb, _, f, b, htb, hl, hrun, fun d => ?_, hperm.nodup_iff.2 hdiv.2⟩
    rw [hperm.mem_iff]
    exact hdiv.1 d

theorem generate_factors_divisors_witness :
    (10 : Int) < 2147483647 ∧ (1 : Int) ≤ 60 ∧
    (60 : Int) ≤ (table_bound 10 : Int) * (table_bound 10 : Int) ∧
    ∃ tb pfs factors buffer1, sieve initial_tables 10 = some tb ∧
      prime_factorize tb 60 = some pfs ∧
      generate_factors [] pfs true = some (factors, buffer1) ∧
      (∀ d : Int, d ∈ factors ↔ 1 ≤ d ∧ d ∣ 60) ∧ factors.Nodup :=
  ⟨by decide, by decide, by decide,
    generate_factors_divisors initial_tables [] 10 60 true (by decide) (by decide) (by decide)⟩

/-- C5, amended: for every well-formed factorization (first components at least
two and strictly increasing, exponents at least one) whose value, the product of
the prime powers, fits an `int64_t` (the divisor count is then within the range
of the counter), `generate_factors(factorization, sorted = true)` returns a list
in ascending order, whether the doubling merge runs for a pair or is skipped. -/
theorem generate_factors_ascending (buffer : List Int) (pfs : List (Int × Int))
    (hwf : WellFormed pfs) (hv : factorization_value pfs ≤ 9223372036854775807) :
    ∃ factors buffer1, generate_factors buffer pfs true = some (factors, buffer1) ∧
      factors.Pairwise (· ≤ ·) := by
  obtain ⟨hpe, hcount, hfit⟩ := wellFormed_bounds pfs hwf hv
  obtain ⟨f, b, hrun, hsorted, -⟩ := generate_factors_sorted buffer pfs hpe (by omega) hfit
  exact ⟨f, b, hrun, hsorted⟩

theorem generate_factors_ascending_witness :
    WellFormed [(2, 2), (3, 1), (5, 1)] ∧
    factorization_value [(2, 2), (3, 1), (5, 1)] ≤ 9223372036854775807 ∧
    ∃ factors buffer1,
      generate_factors [] [(2, 2), (3, 1), (5, 1)] true = some (factors, buffer1) ∧
      factors.Pairwise (· ≤ ·) :=
  ⟨by unfold WellFormed; decide, by decide,
    generate_factors_ascending [] [(2, 2), (3, 1), (5, 1)] (by unfold WellFormed; decide)
      (by decide)⟩

/-- C6: after `sieve(bound)`, for every `n` with `1 <= n <= B * B` the sorted
result of `generate_factors(prime_factorize(n))` is a permutation of the
unsorted one, whatever the static buffer held before either call. -/
theorem generate_factors_sorted_perm (t : Tables) (buffer buffer' : List Int) (bound n : Int)
    (hb : bound < 2147483647) (h1 : 1 ≤ n)
    (hn : n ≤ (table_bound bound : Int) * (table_bound bound : Int)) :
    ∃ tb pfs sorted_factors buffer1 factors buffer2,
      sieve t bound = some tb ∧ prime_factorize tb n = some pfs ∧
      generate_factors buffer pfs true = some (sorted_factors, buffer1) ∧
      generate_factors buffer' pfs false = some (factors, buffer2) ∧
      sorted_factors.Perm factors := by
  obtain ⟨tb, l, htb, hl, hfac, hwf, hval, hnn⟩ := prime_factorize_in_range t bound n hb h1 hn
  obtain ⟨hpe, hcount, hfit⟩ := wellFormed_bounds _ hwf (by rw [hval]; exact hnn)
  obtain ⟨f, b, hrun, -, hperm⟩ := generate_factors_sorted buffer _ hpe (by omega) hfit
  exact ⟨tb, _, f, b, _, _, htb, hl, hrun, generate_factors_unsorted buffer' _
    (fun pf h => (hpe pf h).2) (by omega) hfit, hperm⟩

theorem generate_factors_sorted_perm_witness :
    (10 : Int) < 2147483647 ∧ (1 : Int) ≤ 60 ∧
    (60 : Int) ≤ (table_bound 10 : Int) * (table_bound 10 : Int) ∧
    ∃ tb pfs sorted_factors buffer1 factors buffer2,
      sieve initial_tables 10 = some tb ∧ prime_factorize tb 60 = some pfs ∧
      generate_factors [] pfs true = some (sorted_factors, buffer1) ∧
      generate_factors [7] pfs false = some (factors, buffer2) ∧
      sorted_factors.Perm factors :=
  ⟨by decide, by decide, by decide,
    generate_factors_sorted_perm initial_tables [] [7] 10 60 (by decide) (by decide)
      (by decide)⟩

/-- C8, amended: for every factorization with exponents at least zero whose
divisor count fits the `int` counter and whose reference list holds only values
that fit an `int64_t`, `generate_factors(factorization, sorted = false)` equals
the reference construction: start with `[1]` and replace `L`, for each pair
`(p, e)` in order, by `L ++ L * p ++ L * p^2 ++ ... ++ L * p^e`. For `60` this
is `[1,2,4,3,6,12,5,10,20,15,30,60]` and for `36` it is
`[1,2,4,3,6,12,9,18,36]`. -/
theorem generate_factors_reference (buffer : List Int) :
    (∀ pfs : List (Int × Int), (∀ pf ∈ pfs, 0 ≤ pf.2) → divisor_count pfs ≤ 2147483647 →
      (∀ y ∈ reference_factors pfs, FitsInt64 y) →
      generate_factors buffer pfs false = some (reference_factors pfs, buffer)) ∧
    reference_factors [(2, 2), (3, 1), (5, 1)] = [1, 2, 4, 3, 6, 12, 5, 10, 20, 15, 30, 60] ∧
    reference_factors [(2, 2), (3, 2)] = [1, 2, 4, 3, 6, 12, 9, 18, 36] := by
  refine ⟨?_, by decide, by decide⟩
  intro pfs he hcount hfit
  rw [reference_factors_eq] at hfit ⊢
  exact generate_factors_unsorted buffer pfs he hcount hfit

theorem generate_factors_reference_witness :
    (∀ pf ∈ [((2 : Int), (2 : Int)), (3, 1), (5, 1)], 0 ≤ pf.2) ∧
    divisor_count [(2, 2), (3, 1), (5, 1)] ≤ 2147483647 ∧
    (∀ y ∈ reference_factors [(2, 2), (3, 1), (5, 1)], FitsInt64 y) ∧
    generate_factors [] [(2, 2), (3, 1), (5, 1)] false =
      some (reference_factors [(2, 2), (3, 1), (5, 1)], []) :=
  ⟨by decide, by decide, by unfold FitsInt64; decide,
    (generate_factors_reference []).1 [(2, 2), (3, 1), (5, 1)] (by decide) (by decide)
      (by unfold FitsInt64; decide)⟩

/-- C11, amended: `generate_factors` does not inspect its input. It returns a
list, for either value of `sorted`, whenever the first components are at least
one, the exponents at least zero, the divisor count below `2^29` and all
products within `int64_t`, also when the first components are not strictly
increasing or an exponent is zero. -/
theorem generate_factors_unchecked (buffer : List Int) (pfs : List (Int × Int))
    (sorted : Bool) (hpe : ∀ pf ∈ pfs, 1 ≤ pf.1 ∧ 0 ≤ pf.2)
    (hcount : divisor_count pfs < 536870912) (hfit : ∀ y ∈ expand pfs [1], FitsInt64 y) :
    ∃ factors buffer1, generate_factors buffer pfs sorted = some (factors, buffer1) := by
  cases sorted with
  | false =>
    exact ⟨_, _, generate_factors_unsorted buffer pfs (fun pf h => (hpe pf h).2) (by omega) hfit⟩
  | true =>
    obtain ⟨f, b, hrun, -, -⟩ := generate_factors_sorted buffer pfs hpe hcount hfit
    exact ⟨f, b, hrun⟩

theorem generate_factors_unchecked_witness :
    ¬ WellFormed [(3, 1), (2, 0), (2, 1)] ∧
    (∀ pf ∈ [((3 : Int), (1 : Int)), (2, 0), (2, 1)], 1 ≤ pf.1 ∧ 0 ≤ pf.2) ∧
    divisor_count [(3, 1), (2, 0), (2, 1)] < 536870912 ∧
    (∀ y ∈ expand [(3, 1), (2, 0), (2, 1)] [1], FitsInt64 y) ∧
    ∃ factors buffer1,
      generate_factors [] [(3, 1), (2, 0), (2, 1)] true = some (factors, buffer1) :=
  ⟨by unfold WellFormed; decide, by decide, by decide, by unfold FitsInt64; decide,
    generate_factors_unchecked [] [(3, 1), (2, 0), (2, 1)] true (by decide) (by decide)
      (by unfold FitsInt64; decide)⟩

theorem sameFactors_cases (x y : Option (List Int × List Int)) (h : SameFactors x y) :
    (x = none ∧ y = none) ∨
      ∃ f b b', x = some (f, b) ∧ y = some (f, b') ∧ b.length = b'.length := by
  obtain ⟨h1, h2⟩ := h
  cases x with
  | none =>
    cases y with
    | none => exact Or.inl ⟨rfl, rfl⟩
    | some r => simp at h1
  | some r =>
    cases y with
    | none => simp at h1
    | some r' =>
      obtain ⟨f, b⟩ := r
      obtain ⟨f', b'⟩ := r'
      simp only [Option.map_some', Option.some.injEq] at h1 h2
      subst h1
      exact Or.inr ⟨f, b, b', rfl, rfl, h2⟩

theorem sameFactors_none : SameFactors none none := ⟨rfl, rfl⟩

theorem sameFactors_some (f b b' : List Int) (h : b.length = b'.length) :
    SameFactors (some (f, b)) (some (f, b')) := by
  constructor
  · rfl
  · simp [h]

theorem merged_length (factors : List Int) (i sect length : Int)
    (h : 0 ≤ i ∧ 0 ≤ sect ∧ sect ≤ length ∧ i + length ≤ factors.length) :
    (merge ((factors.drop i.toNat).take sect.toNat)
      ((factors.drop (i + sect).toNat).take (length - sect).toNat)).length = length.toNat := by
  rw [merge_length, List.length_take, List.length_take, List.length_drop, List.length_drop]
  omega

theorem merge_pass_same (sect : Int) (fuel : Nat) (i : Int) (factors b b' : List Int)
    (hlen : b.length = b'.length) :
    SameFactors (merge_pass sect fuel i (factors, b)) (merge_pass sect fuel i (factors, b')) := by
  induction fuel generalizing i factors b b' with
  | zero => exact sameFactors_none
  | succ fuel ih =>
    rw [merge_pass, merge_pass]
    by_cases h1 : wrap32 (i + sect) < wrap32 (factors.length : Int)
    · simp only [h1, if_true, hlen]
      generalize min (wrap32 (2 * sect)) (wrap32 (wrap32 (factors.length : Int) - i)) = length
      by_cases hchk : 0 ≤ i ∧ 0 ≤ sect ∧ sect ≤ length ∧ i + length ≤ (factors.length : Int) ∧
          length ≤ (b'.length : Int)
      · have hm := merged_length factors i sect length
          ⟨hchk.1, hchk.2.1, hchk.2.2.1, hchk.2.2.2.1⟩
        rw [if_pos hchk, if_pos hchk, List.take_left' hm, List.take_left' hm]
        apply ih
        rw [List.length_append, List.length_append, List.length_drop, List.length_drop, hlen]
      · rw [if_neg hchk, if_neg hchk]
        exact sameFactors_none
    · simp only [h1, if_false]
      exact sameFactors_some _ _ _ hlen

theorem merge_sections_same (fuel : Nat) (sect : Int) (factors b b' : List Int)
    (hlen : b.length = b'.length) :
    SameFactors (merge_sections fuel sect (factors, b))
      (merge_sections fuel sect (factors, b')) := by
  induction fuel generalizing sect factors b b' with
  | zero => exact sameFactors_none
  | succ fuel ih =>
    rw [merge_sections, merge_sections]
    by_cases h1 : sect < wrap32 (factors.length : Int)
    · simp only [h1, if_true]
      rcases sameFactors_cases _ _
        (merge_pass_same sect (factors.length + 1) 0 factors b b' hlen) with
        ⟨h2, h3⟩ | ⟨f, c, c', h2, h3, hc⟩
      · rw [h2, h3]
        exact sameFactors_none
      · rw [h2, h3, Option.some_bind, Option.some_bind]
        exact ih _ f c c' hc
    · simp only [h1, if_false]
      exact sameFactors_some _ _ _ hlen

theorem process_pair_same (sorted : Bool) (pf : Int × Int) (factors b b' : List Int)
    (hlen : b.length = b'.length) :
    SameFactors (process_pair sorted pf (factors, b)) (process_pair sorted pf (factors, b')) := by
  unfold process_pair
  simp only
  cases append_multiples pf.1 (wrap32 (factors.length : Int))
      (wrap32 (pf.2 * wrap32 (factors.length : Int))).toNat factors with
  | none => exact sameFactors_none
  | some f =>
    simp only
    split
    · split
      · cases f[(wrap32 (factors.length : Int) - 1).toNat]? with
        | none => exact sameFactors_none
        | some last =>
          simp only
          split
          · exact merge_sections_same _ _ f b b' hlen
          · exact sameFactors_some _ _ _ hlen
      · exact sameFactors_none
    · exact sameFactors_some _ _ _ hlen

theorem process_pairs_same (sorted : Bool) (pfs : List (Int × Int)) (factors b b' : List Int)
    (hlen : b.length = b'.length) :
    SameFactors (process_pairs sorted pfs (factors, b))
      (process_pairs sorted pfs (factors, b')) := by
  induction pfs generalizing factors b b' with
  | nil => exact sameFactors_some _ _ _ hlen
  | cons pf pfs ih =>
    rw [process_pairs, process_pairs]
    rcases sameFactors_cases _ _ (process_pair_same sorted pf factors b b' hlen) with
      ⟨h1, h2⟩ | ⟨f, c, c', h1, h2, hc⟩
    · rw [h1, h2]
      exact sameFactors_none
    · rw [h1, h2]
      exact ih f c c' hc

theorem process_pair_unsorted_fst (pf : Int × Int) (factors b b' : List Int) :
    ∃ r : Option (List Int), process_pair false pf (factors, b) = r.map (fun f => (f, b)) ∧
      process_pair false pf (factors, b') = r.map (fun f => (f, b')) := by
  refine ⟨append_multiples pf.1 (wrap32 (factors.length : Int))
      (wrap32 (pf.2 * wrap32 (factors.length : Int))).toNat factors, ?_, ?_⟩
  · unfold process_pair
    simp only
    cases append_multiples pf.1 (wrap32 (factors.length : Int))
        (wrap32 (pf.2 * wrap32 (factors.length : Int))).toNat factors <;> rfl
  · unfold process_pair
    simp only
    cases append_multiples pf.1 (wrap32 (factors.length : Int))
        (wrap32 (pf.2 * wrap32 (factors.length : Int))).toNat factors <;> rfl

theorem process_pairs_unsorted_fst (pfs : List (Int × Int)) (factors b b' : List Int) :
    ∃ r : Option (List Int), process_pairs false pfs (factors, b) = r.map (fun f => (f, b)) ∧
      process_pairs false pfs (factors, b') = r.map (fun f => (f, b')) := by
  induction pfs generalizing factors with
  | nil => exact ⟨some factors, rfl, rfl⟩
  | cons pf pfs ih =>
    obtain ⟨r, h1, h2⟩ := process_pair_unsorted_fst pf factors b b'
    rw [process_pairs, process_pairs, h1, h2]
    cases r with
    | none => exact ⟨none, rfl, rfl⟩
    | some f => exact ih f

theorem is_prime_loop_call_eq (ps : List Nat) (n : Nat) (t : Tables) :
    is_prime_loop_call ps n t = (is_prime_loop ps n, t) := by
  induction ps with
  | nil => rfl
  | cons p ps ih =>
    simp only [is_prime_loop_call, is_prime_loop]
    split
    · rfl
    · split
      · rfl
      · exact ih

theorem is_prime_call_eq (t : Tables) (n : Int) :
    is_prime_call t n = (is_prime t n).map (fun b => (b, t)) := by
  unfold is_prime_call is_prime
  simp only
  split
  · split
    · cases t.prime[n.toNat]? <;> rfl
    · rw [is_prime_loop_call_eq]
      rfl
  · rfl

theorem factorize_table_call_eq (fuel n : Nat) (result : List (Int × Int)) (t : Tables) :
    factorize_table_call fuel n result t =
      (factorize_table t.smallest_factor fuel n result).map (fun l => (l, t)) := by
  induction fuel generalizing n result with
  | zero =>
    simp only [factorize_table_call, factorize_table]
    split <;> rfl
  | succ fuel ih =>
    simp only [factorize_table_call, factorize_table]
    split
    · rfl
    · cases t.smallest_factor[n]? with
      | none => rfl
      | some p =>
        simp only
        split
        · rfl
        · cases divide_out p n n 0 with
          | none => rfl
          | some r => exact ih _ _

theorem factorize_trial_call_eq (ps : List Nat) (n : Nat) (result : List (Int × Int))
    (t : Tables) :
    factorize_trial_call ps n result t = (factorize_trial ps n result).map (fun r => (r, t)) := by
  induction ps generalizing n result with
  | nil => rfl
  | cons p ps ih =>
    simp only [factorize_trial_call, factorize_trial]
    split
    · rfl
    · split
      · rfl
      · split
        · cases divide_out p n n 0 with
          | none => rfl
          | some r => exact ih _ _
        · exact ih _ _

theorem prime_factorize_call_eq (t : Tables) (n : Int) :
    prime_factorize_call t n = (prime_factorize t n).map (fun l => (l, t)) := by
  unfold prime_factorize_call prime_factorize
  simp only
  split
  · split
    · exact factorize_table_call_eq _ _ _ t
    · rw [factorize_trial_call_eq]
      cases factorize_trial t.primes n.toNat [] with
      | none => rfl
      | some r => rfl
  · rfl

theorem generate_factors_fst_eq (buffer buffer' : List Int)
    (prime_factors : List (Int × Int)) (sorted : Bool) :
    (generate_factors buffer prime_factors sorted).map Prod.fst =
      (generate_factors buffer' prime_factors sorted).map Prod.fst := by
  unfold generate_factors
  simp only
  split
  · rfl
  · cases sorted with
    | false =>
      obtain ⟨r, h1, h2⟩ := process_pairs_unsorted_fst prime_factors [1] buffer buffer'
      simp only [Bool.false_eq_true, if_false, h1, h2]
      cases r with
      | none => rfl
      | some f =>
        simp only [Option.map_some']
        split <;> rfl
    | true =>
      simp only [if_true]
      rcases sameFactors_cases _ _
        (process_pairs_same true prime_factors [1]
          (resize buffer (product prime_factors).toNat)
          (resize buffer' (product prime_factors).toNat)
          (by rw [resize_length, resize_length])) with ⟨h1, h2⟩ | ⟨f, c, c', h1, h2, hc⟩
      · rw [h1, h2]
      · rw [h1, h2]
        simp only
        split <;> rfl

/-- C16: repeated calls give identical output. The calls `is_prime(n)` and
`prime_factorize(n)`, taken as steps on the global vectors, end with the tables
they started with and return what the functions `is_prime` and
`prime_factorize` of the tables return, so the same call made again returns
the same value. The list returned by `generate_factors(prime_factors, sorted)`
is the same for any two contents and sizes of the static merge buffer left by
earlier calls, both runs fail or succeed together, and the same call made
again, on the buffer its first run left, returns the same list. -/
theorem repeated_calls_identical :
    (∀ (t : Tables) (n : Int) (b : Bool) (t1 : Tables),
      is_prime_call t n = some (b, t1) →
        t1 = t ∧ is_prime t n = some b ∧ is_prime_call t1 n = some (b, t1)) ∧
    (∀ (t : Tables) (n : Int) (l : List (Int × Int)) (t1 : Tables),
      prime_factorize_call t n = some (l, t1) →
        t1 = t ∧ prime_factorize t n = some l ∧ prime_factorize_call t1 n = some (l, t1)) ∧
    (∀ (t : Tables) (n : Int),
      (is_prime_call t n).map Prod.fst = is_prime t n ∧
      (prime_factorize_call t n).map Prod.fst = prime_factorize t n) ∧
    (∀ (buffer buffer' : List Int) (prime_factors : List (Int × Int)) (sorted : Bool),
      (generate_factors buffer prime_factors sorted).map Prod.fst =
        (generate_factors buffer' prime_factors sorted).map Prod.fst) ∧
    (∀ (buffer : List Int) (prime_factors : List (Int × Int)) (sorted : Bool)
      (factors buffer1 : List Int),
      generate_factors buffer prime_factors sorted = some (factors, buffer1) →
        ∃ buffer2, generate_factors buffer1 prime_factors sorted = some (factors, buffer2)) := by
  refine ⟨?_, ?_, ?_, generate_factors_fst_eq, ?_⟩
  · intro t n b t1 h
    rw [is_prime_call_eq] at h
    cases hq : is_prime t n with
    | none => rw [hq] at h; cases h
    | some b0 =>
      rw [hq] at h
      cases h
      exact ⟨rfl, rfl, by rw [is_prime_call_eq, hq]; rfl⟩
  · intro t n l t1 h
    rw [prime_factorize_call_eq] at h
    cases hq : prime_factorize t n with
    | none => rw [hq] at h; cases h
    | some l0 =>
      rw [hq] at h
      cases h
      exact ⟨rfl, rfl, by rw [prime_factorize_call_eq, hq]; rfl⟩
  · intro t n
    rw [is_prime_call_eq, prime_factorize_call_eq]
    constructor
    · cases is_prime t n <;> rfl
    · cases prime_factorize t n <;> rfl
  · intro buffer prime_factors sorted factors buffer1 h
    have heq := generate_factors_fst_eq buffer1 buffer prime_factors sorted
    rw [h] at heq
    cases h2 : generate_factors buffer1 prime_factors sorted with
    | none => rw [h2] at heq; cases heq
    | some r =>
      obtain ⟨f, b2⟩ := r
      rw [h2] at heq
      simp only [Option.map_some', Option.some.injEq] at heq
      exact ⟨b2, by rw [heq]⟩

theorem repeated_calls_identical_witness :
    is_prime_call (Tables.mk [0, 0, 2, 3, 2, 5] [false, false, true, true, false, true]
      [2, 3, 5]) 7 = some (true, Tables.mk [0, 0, 2, 3, 2, 5]
      [false, false, true, true, false, true] [2, 3, 5]) ∧
    is_prime (Tables.mk [0, 0, 2, 3, 2, 5] [false, false, true, true, false, true]
      [2, 3, 5]) 7 = some true ∧
    prime_factorize_call (Tables.mk [0, 0, 2, 3, 2, 5] [false, false, true, true, false, true]
      [2, 3, 5]) 12 = some ([(2, 2), (3, 1)], Tables.mk [0, 0, 2, 3, 2, 5]
      [false, false, true, true, false, true] [2, 3, 5]) ∧
    prime_factorize (Tables.mk [0, 0, 2, 3, 2, 5] [false, false, true, true, false, true]
      [2, 3, 5]) 12 = some [(2, 2), (3, 1)] ∧
    (generate_factors [] [(2, 2), (3, 1)] true).map Prod.fst =
      (generate_factors [9, 9] [(2, 2), (3, 1)] true).map Prod.fst :=
  ⟨by decide,
    (repeated_calls_identical.1 (Tables.mk [0, 0, 2, 3, 2, 5]
      [false, false, true, true, false, true] [2, 3, 5]) 7 true (Tables.mk [0, 0, 2, 3, 2, 5]
      [false, false, true, true, false, true] [2, 3, 5]) (by decide)).2.1,
    by decide,
    (repeated_calls_identical.2.1 (Tables.mk [0, 0, 2, 3, 2, 5]
      [false, false, true, true, false, true] [2, 3, 5]) 12 [(2, 2), (3, 1)]
      (Tables.mk [0, 0, 2, 3, 2, 5]
      [false, false, true, true, false, true] [2, 3, 5]) (by decide)).2.1,
    repeated_calls_identical.2.2.2.1 [] [9, 9] [(2, 2), (3, 1)] true⟩

/-! ## Index safety: every access stays in range when the sizes fit -/

theorem append_multiples_length (p : Int) (s count : Nat) (factors : List Int) (hs : 1 ≤ s)
    (hle : s ≤ factors.length) :
    ∃ factors1, append_multiples p (s : Int) count factors = some factors1 ∧
      factors1.length = factors.length + count := by
  induction count generalizing factors with
  | zero => exact ⟨factors, rfl, rfl⟩
  | succ count ih =>
    have hnn : (0 : Int) ≤ (factors.length : Int) - (s : Int) := by omega
    have hidx : ((factors.length : Int) - (s : Int)).toNat < factors.length := by omega
    rw [append_multiples]
    simp only [hnn, if_true, List.getElem?_eq_getElem hidx]
    obtain ⟨f1, h1, h2⟩ := ih (factors ++ [wrap64 (factors[((factors.length : Int) - (s : Int)).toNat] * p)])
      (by rw [List.length_append]; omega)
    refine ⟨f1, h1, ?_⟩
    rw [h2, List.length_append, List.length_singleton]
    omega

/-- One iteration of the inner merge loop keeps the sizes of the list and of the
buffer. -/
theorem merge_pass_iter (sect : Int) (fuel : Nat) (i : Int) (factors buffer : List Int)
    (length : Int)
    (hlength : min (wrap32 (2 * sect)) (wrap32 (wrap32 (factors.length : Int) - i)) = length)
    (h1 : wrap32 (i + sect) < wrap32 (factors.length : Int))
    (hchk : 0 ≤ i ∧ 0 ≤ sect ∧ sect ≤ length ∧ i + length ≤ (factors.length : Int) ∧
      length ≤ (buffer.length : Int)) :
    ∃ factors1 buffer1, merge_pass sect (fuel + 1) i (factors, buffer) =
        merge_pass sect fuel (wrap32 (i + wrap32 (2 * sect))) (factors1, buffer1) ∧
      factors1.length = factors.length ∧ buffer1.length = buffer.length := by
  have hm := merged_length factors i sect length ⟨hchk.1, hchk.2.1, hchk.2.2.1, hchk.2.2.2.1⟩
  rw [merge_pass]
  simp only [h1, if_true, hlength]
  rw [if_pos hchk, List.take_left' hm]
  refine ⟨_, _, rfl, ?_, ?_⟩
  · rw [List.length_append, List.length_append, List.length_take, List.length_drop, hm]
    omega
  · rw [List.length_append, List.length_drop, hm]
    omega

theorem merge_pass_length (s : Nat) (hs : 1 ≤ s) (fuel i : Nat) (factors buffer : List Int)
    (hfit : factors.length + 2 * s ≤ 2147483647) (hi : i ≤ factors.length + s)
    (hbuf : factors.length ≤ buffer.length) (hfuel : factors.length + s < 2 * fuel + i) :
    ∃ factors1 buffer1, merge_pass (s : Int) fuel (i : Int) (factors, buffer) =
        some (factors1, buffer1) ∧
      factors1.length = factors.length ∧ buffer1.length = buffer.length := by
  induction fuel generalizing i factors buffer with
  | zero => omega
  | succ fuel ih =>
    have f1 : FitsInt32 ((i : Int) + (s : Int)) := ⟨by omega, by omega⟩
    have f2 : FitsInt32 (factors.length : Int) := ⟨by omega, by omega⟩
    by_cases hlt : i + s < factors.length
    · have f3 : FitsInt32 (2 * (s : Int)) := ⟨by omega, by omega⟩
      have f4 : FitsInt32 ((factors.length : Int) - (i : Int)) := ⟨by omega, by omega⟩
      have f5 : FitsInt32 ((i : Int) + 2 * (s : Int)) := ⟨by omega, by omega⟩
      have e5 : (i : Int) + 2 * (s : Int) = ((i + 2 * s : Nat) : Int) := by omega
      have hcond : (i : Int) + (s : Int) < (factors.length : Int) := by omega
      have hchk : (0 : Int) ≤ (i : Int) ∧ (0 : Int) ≤ (s : Int) ∧
          (s : Int) ≤ min (2 * (s : Int)) ((factors.length : Int) - (i : Int)) ∧
          (i : Int) + min (2 * (s : Int)) ((factors.length : Int) - (i : Int)) ≤
            (factors.length : Int) ∧
          min (2 * (s : Int)) ((factors.length : Int) - (i : Int)) ≤ (buffer.length : Int) := by
        omega
      obtain ⟨g, c, hstep, hg, hc⟩ := merge_pass_iter (s : Int) fuel (i : Int) factors buffer
        (min (2 * (s : Int)) ((factors.length : Int) - (i : Int)))
        (by rw [wrap32_eq _ f3, wrap32_eq _ f2, wrap32_eq _ f4])
        (by rw [wrap32_eq _ f1, wrap32_eq _ f2]; exact hcond) hchk
      rw [wrap32_eq _ f3, wrap32_eq _ f5, e5] at hstep
      obtain ⟨g2, c2, hrun, hg2, hc2⟩ := ih (i + 2 * s) g c (by omega) (by omega) (by omega)
        (by omega)
      exact ⟨g2, c2, by rw [hstep, hrun], by omega, by omega⟩
    · have hnot : ¬ ((i : Int) + (s : Int) < (factors.length : Int)) := by omega
      refine ⟨factors, buffer, ?_, rfl, rfl⟩
      apply merge_pass_exit
      rw [wrap32_eq _ f1, wrap32_eq _ f2]
      exact hnot

theorem merge_sections_length (fuel s : Nat) (hs : 1 ≤ s) (factors buffer : List Int)
    (hfit : 3 * factors.length ≤ 2147483647) (hbuf : factors.length ≤ buffer.length)
    (hf1 : 1 ≤ fuel) (hfuel : factors.length + 2 ≤ fuel + s) :
    ∃ factors1 buffer1, merge_sections fuel (s : Int) (factors, buffer) =
        some (factors1, buffer1) ∧
      factors1.length = factors.length ∧ buffer1.length = buffer.length := by
  induction fuel generalizing s factors buffer with
  | zero => omega
  | succ fuel ih =>
    have fN : FitsInt32 (factors.length : Int) := ⟨by omega, by omega⟩
    rw [merge_sections]
    simp only [wrap32_eq _ fN]
    by_cases hlt : (s : Int) < (factors.length : Int)
    · rw [if_pos hlt]
      have f2 : FitsInt32 ((s : Int) * 2) := ⟨by omega, by omega⟩
      have e2 : (s : Int) * 2 = ((2 * s : Nat) : Int) := by omega
      obtain ⟨g, c, hrun, hg, hc⟩ := merge_pass_length s hs (factors.length + 1) 0 factors
        buffer (by omega) (by omega) hbuf (by omega)
      rw [Nat.cast_zero] at hrun
      rw [hrun, Option.some_bind, wrap32_eq _ f2, e2]
      obtain ⟨g2, c2, hrun2, hg2, hc2⟩ := ih (2 * s) (by omega) g c (by omega) (by omega)
        (by omega) (by omega)
      exact ⟨g2, c2, hrun2, by omega, by omega⟩
    · rw [if_neg hlt]
      exact ⟨factors, buffer, rfl, rfl, rfl⟩

theorem process_pair_length (sorted : Bool) (p e : Int) (factors buffer : List Int)
    (he : 0 ≤ e) (hl : 1 ≤ factors.length)
    (hsize : (e.toNat + 1) * factors.length ≤ 2147483647)
    (hsorted : sorted = true → 3 * ((e.toNat + 1) * factors.length) ≤ 2147483647 ∧
      (e.toNat + 1) * factors.length ≤ buffer.length) :
    ∃ factors1 buffer1, process_pair sorted (p, e) (factors, buffer) = some (factors1, buffer1) ∧
      factors1.length = (e.toNat + 1) * factors.length ∧ buffer1.length = buffer.length := by
  have hmul : e.toNat * factors.length ≤ 2147483647 := by nlinarith
  have hlen : factors.length ≤ 2147483647 := by nlinarith
  have f1 : FitsInt32 (factors.length : Int) := ⟨by omega, by omega⟩
  have e1 : e * (factors.length : Int) = ((e.toNat * factors.length : Nat) : Int) := by
    push_cast
    rw [Int.toNat_of_nonneg he]
  have f2 : FitsInt32 (((e.toNat * factors.length : Nat) : Int)) := ⟨by omega, by omega⟩
  obtain ⟨g, hg, hglen⟩ := append_multiples_length p factors.length (e.toNat * factors.length)
    factors hl (le_refl _)
  have hglen' : g.length = (e.toNat + 1) * factors.length := by
    rw [hglen]
    ring
  have hnn : (0 : Int) ≤ (factors.length : Int) - 1 := by omega
  have hidx : ((factors.length : Int) - 1).toNat < g.length := by
    rw [hglen]
    omega
  unfold process_pair
  simp only [wrap32_eq _ f1, e1, wrap32_eq _ f2, Int.toNat_ofNat, hg]
  cases sorted with
  | false => exact ⟨g, buffer, rfl, hglen', rfl⟩
  | true =>
    simp only [if_true, hnn, List.getElem?_eq_getElem hidx]
    split
    · have hs3 := hsorted rfl
      exact merge_sections_length (g.length + 1) factors.length hl g buffer (by omega) (by omega)
        (by omega) (by omega) |>.imp fun g2 h => h.imp fun c2 h2 =>
          ⟨h2.1, by rw [h2.2.1, hglen'], h2.2.2⟩
    · exact ⟨g, buffer, rfl, hglen', rfl⟩

theorem process_pairs_length (sorted : Bool) (pfs : List (Int × Int)) (factors buffer : List Int)
    (he : ∀ pf ∈ pfs, 0 ≤ pf.2) (hl : 1 ≤ factors.length)
    (hsize : (factors.length : Int) * divisor_count pfs ≤ 2147483647)
    (hsorted : sorted = true → 3 * ((factors.length : Int) * divisor_count pfs) ≤ 2147483647 ∧
      (factors.length : Int) * divisor_count pfs ≤ (buffer.length : Int)) :
    ∃ factors1 buffer1, process_pairs sorted pfs (factors, buffer) = some (factors1, buffer1) ∧
      (factors1.length : Int) = (factors.length : Int) * divisor_count pfs ∧
      buffer1.length = buffer.length := by
  induction pfs generalizing factors buffer with
  | nil => exact ⟨factors, buffer, rfl, by simp [divisor_count], rfl⟩
  | cons pf pfs ih =>
    obtain ⟨p, e⟩ := pf
    have he0 : 0 ≤ e := he (p, e) (List.mem_cons_self _ _)
    have hrest := divisor_count_pos pfs (fun q hq => he q (List.mem_cons_of_mem _ hq))
    rw [divisor_count_cons] at hsize hsorted
    simp only at hsize hsorted
    have hcast : (((e.toNat + 1) * factors.length : Nat) : Int) = (factors.length : Int) * (e + 1) := by
      push_cast
      rw [Int.toNat_of_nonneg he0]
      ring
    have hfl : (0 : Int) ≤ (factors.length : Int) * (e + 1) := by positivity
    have hmono : (factors.length : Int) * (e + 1) ≤
        (factors.length : Int) * ((e + 1) * divisor_count pfs) := by
      rw [← mul_assoc]
      nlinarith
    have hstep_size : (e.toNat + 1) * factors.length ≤ 2147483647 := by
      have : (((e.toNat + 1) * factors.length : Nat) : Int) ≤ 2147483647 := by
        rw [hcast]
        omega
      exact_mod_cast this
    obtain ⟨g, c, hrun, hg, hc⟩ := process_pair_length sorted p e factors buffer he0 hl
      hstep_size (fun hs => by
        have h3 := hsorted hs
        constructor
        · have : ((3 * ((e.toNat + 1) * factors.length) : Nat) : Int) ≤ 2147483647 := by
            push_cast at hcast ⊢
            rw [hcast]
            omega
          exact_mod_cast this
        · have : (((e.toNat + 1) * factors.length : Nat) : Int) ≤ (buffer.length : Int) := by
            rw [hcast]
            omega
          exact_mod_cast this)
    have hgI : (g.length : Int) = (factors.length : Int) * (e + 1) := by
      rw [hg, hcast]
    have hg1 : 1 ≤ g.length := by
      rw [hg]
      nlinarith
    have heq : (g.length : Int) * divisor_count pfs =
        (factors.length : Int) * ((e + 1) * divisor_count pfs) := by
      rw [hgI, mul_assoc]
    obtain ⟨g2, c2, hrun2, hg2, hc2⟩ := ih g c (fun q hq => he q (List.mem_cons_of_mem _ hq)) hg1
      (by rw [heq]; exact hsize) (fun hs => by
        rw [heq, hc]
        exact hsorted hs)
    refine ⟨g2, c2, ?_, ?_, by omega⟩
    · rw [process_pairs, hrun]
      exact hrun2
    · rw [hg2, heq, divisor_count_cons]

/-- The run of `generate_factors` when the divisor count fits the counter, with
the head room that the index arithmetic of the merge needs when sorting: a list
is returned and its length is the divisor count. -/
theorem generate_factors_in_range (buffer : List Int) (pfs : List (Int × Int)) (sorted : Bool)
    (he : ∀ pf ∈ pfs, 0 ≤ pf.2) (hcount : divisor_count pfs ≤ 2147483647)
    (hsorted : sorted = true → 3 * divisor_count pfs ≤ 2147483647) :
    ∃ factors buffer1, generate_factors buffer pfs sorted = some (factors, buffer1) ∧
      (factors.length : Int) = divisor_count pfs ∧ product pfs = divisor_count pfs := by
  have hpos := divisor_count_pos pfs he
  have hprod := product_eq pfs he hcount
  have hnot : ¬ (divisor_count pfs < 0) := by omega
  have f1 : FitsInt32 (divisor_count pfs) := ⟨by omega, by omega⟩
  obtain ⟨g, c, hrun, hg, -⟩ := process_pairs_length sorted pfs [1]
    (if sorted = true then resize buffer (divisor_count pfs).toNat else buffer) he (by simp)
    (by simpa using hcount) (fun hs => by
      rw [if_pos hs, resize_length]
      simp only [List.length_singleton, Nat.cast_one, one_mul]
      exact ⟨hsorted hs, by omega⟩)
  simp only [List.length_singleton, Nat.cast_one, one_mul] at hg
  refine ⟨g, c, ?_, hg, hprod⟩
  unfold generate_factors
  simp only [hprod, hrun, hg, wrap32_eq _ f1]
  rw [if_neg hnot, if_pos trivial]

/-! ## The index arithmetic of the merge leaves `int` for very long lists -/

theorem wrap32_overflow (x : Int) (h1 : 2147483648 ≤ x) (h2 : x < 4294967296) :
    wrap32 x = x - 4294967296 := by
  unfold wrap32
  omega

/-- With three runs of length `s`, `2^29 <= s`, the second pass of the doubling
merge computes `2 * section = 4 * s` beyond `int` and the range of the merge
leaves the list. -/
theorem merge_sections_overflow (fuel s : Nat) (factors buffer : List Int)
    (hN : factors.length = 3 * s) (hb : buffer.length = 3 * s) (hs1 : 536870912 ≤ s)
    (hs2 : 3 * s ≤ 2147483647) (hfuel : 2 ≤ fuel) :
    merge_sections fuel (s : Int) (factors, buffer) = none := by
  obtain ⟨fuel2, rfl⟩ : ∃ k, fuel = k + 1 + 1 := ⟨fuel - 2, by omega⟩
  have fN : FitsInt32 (factors.length : Int) := ⟨by omega, by omega⟩
  have fs : FitsInt32 ((0 : Int) + (s : Int)) := ⟨by omega, by omega⟩
  have f2s : FitsInt32 (2 * (s : Int)) := ⟨by omega, by omega⟩
  have fNi : FitsInt32 ((factors.length : Int) - 0) := ⟨by omega, by omega⟩
  have f02s : FitsInt32 ((0 : Int) + 2 * (s : Int)) := ⟨by omega, by omega⟩
  have fs2 : FitsInt32 ((s : Int) * 2) := ⟨by omega, by omega⟩
  have f3s : FitsInt32 ((0 : Int) + 2 * (s : Int) + (s : Int)) := ⟨by omega, by omega⟩
  have f4 : FitsInt32 ((0 : Int) + (s : Int) * 2) := ⟨by omega, by omega⟩
  have hlt1 : (s : Int) < (factors.length : Int) := by omega
  have hlt2 : (s : Int) * 2 < (factors.length : Int) := by omega
  have hmin : min (2 * (s : Int)) ((factors.length : Int) - 0) = 2 * (s : Int) := by omega
  have hchk : (0 : Int) ≤ 0 ∧ (0 : Int) ≤ (s : Int) ∧ (s : Int) ≤ 2 * (s : Int) ∧
      (0 : Int) + 2 * (s : Int) ≤ (factors.length : Int) ∧
      2 * (s : Int) ≤ (buffer.length : Int) := by omega
  have hcond1 : (0 : Int) + (s : Int) < (factors.length : Int) := by omega
  have hexit : ¬ ((0 : Int) + 2 * (s : Int) + (s : Int) < (factors.length : Int)) := by omega
  have hcond2 : (0 : Int) + (s : Int) * 2 < (factors.length : Int) := by omega
  have hover : wrap32 (2 * ((s : Int) * 2)) = 2 * ((s : Int) * 2) - 4294967296 :=
    wrap32_overflow _ (by omega) (by omega)
  have hbad : ¬ ((0 : Int) ≤ 0 ∧ (0 : Int) ≤ (s : Int) * 2 ∧
      (s : Int) * 2 ≤ min (2 * ((s : Int) * 2) - 4294967296) ((factors.length : Int) - 0) ∧
      (0 : Int) + min (2 * ((s : Int) * 2) - 4294967296) ((factors.length : Int) - 0) ≤
        (factors.length : Int) ∧
      min (2 * ((s : Int) * 2) - 4294967296) ((factors.length : Int) - 0) ≤
        (buffer.length : Int)) := by omega
  obtain ⟨g, c, hstep, hg, hc⟩ := merge_pass_iter (s : Int) factors.length 0 factors buffer
    (2 * (s : Int)) (by rw [wrap32_eq _ f2s, wrap32_eq _ fN, wrap32_eq _ fNi]; exact hmin)
    (by rw [wrap32_eq _ fs, wrap32_eq _ fN]; exact hcond1) hchk
  obtain ⟨k, hk⟩ : ∃ k, factors.length = k + 1 := ⟨factors.length - 1, by omega⟩
  have hpass1 : merge_pass (s : Int) (factors.length + 1) 0 (factors, buffer) = some (g, c) := by
    rw [hstep, wrap32_eq _ f2s, wrap32_eq _ f02s, hk]
    apply merge_pass_exit
    rw [wrap32_eq _ f3s, hg, wrap32_eq _ fN]
    exact hexit
  have hpass2 : merge_pass ((s : Int) * 2) (g.length + 1) 0 (g, c) = none := by
    rw [merge_pass]
    simp only [hg, hc, wrap32_eq _ f4, wrap32_eq _ fN, hover, wrap32_eq _ fNi]
    rw [if_pos hcond2, if_neg hbad]
  rw [merge_sections]
  simp only [wrap32_eq _ fN]
  rw [if_pos hlt1, hpass1, Option.some_bind, wrap32_eq _ fs2, merge_sections]
  simp only [hg, wrap32_eq _ fN]
  rw [if_pos hlt2]
  rw [← hg, hpass2]
  rfl

theorem power_blocks_one_mem (e : Nat) (x : Int) (hx : x ∈ power_blocks 1 e [1]) : x = 1 := by
  obtain ⟨j, -, b, hb, rfl⟩ := (mem_power_blocks 1 e [1] x).1 hx
  simp only [List.mem_singleton] at hb
  subst hb
  simp

theorem power_blocks_zero_mem (e : Nat) (l : List Int) (hl : ∀ b ∈ l, b = 1) (x : Int)
    (hx : x ∈ power_blocks 0 e l) : x = 0 ∨ x = 1 := by
  obtain ⟨j, -, b, hb, rfl⟩ := (mem_power_blocks 0 e l x).1 hx
  rw [hl b hb]
  rcases Nat.eq_zero_or_pos j with h | h
  · right
    subst h
    simp
  · left
    rw [zero_pow (by omega)]
    simp

theorem process_pair_merge_overflow (p e2 : Int) (hp : p = 0) (he2 : e2 = 2)
    (factors buffer : List Int) (s : Nat)
    (hlen : factors.length = s) (hone : ∀ x ∈ factors, x = 1) (hb : buffer.length = 3 * s)
    (hs1 : 536870912 ≤ s) (hs2 : 3 * s ≤ 2147483647) :
    process_pair true (p, e2) (factors, buffer) = none := by
  have h2nat : e2.toNat = 2 := by rw [he2]; rfl
  have hfit : ∀ y ∈ power_blocks p e2.toNat factors, FitsInt64 y := by
    intro y hy
    rw [hp] at hy
    rcases power_blocks_zero_mem _ _ hone y hy with h | h
    · rw [h]
      exact ⟨by norm_num, by norm_num⟩
    · rw [h]
      exact ⟨by norm_num, by norm_num⟩
  have hsize : (e2.toNat + 1) * factors.length ≤ 2147483647 := by
    rw [h2nat, hlen]
    omega
  obtain ⟨hw, happ⟩ := process_pair_append p e2 factors (by omega) (by omega) hsize hfit
  rw [h2nat] at happ
  have hlen2 : (power_blocks p 2 factors).length = 3 * s := by
    rw [power_blocks_length, hlen]
  obtain ⟨rest, hrest⟩ := power_blocks_extends p 2 factors
  have hidx : s - 1 < factors.length := by omega
  have hget : (power_blocks p 2 factors)[s - 1]? = some 1 := by
    rw [hrest, List.getElem?_append_left hidx, List.getElem?_eq_getElem hidx]
    congr 1
    exact hone _ (List.getElem_mem _)
  have hnn : (0 : Int) ≤ (factors.length : Int) - 1 := by omega
  have htn : ((factors.length : Int) - 1).toNat = s - 1 := by omega
  have hover := merge_sections_overflow ((power_blocks p 2 factors).length + 1) s
    (power_blocks p 2 factors) buffer hlen2 hb hs1 hs2 (by omega)
  rw [← hlen] at hover
  have hgt : (1 : Int) > p := by omega
  unfold process_pair
  simp only [hw, happ, htn, hget]
  rw [if_pos trivial, if_pos hnn, if_pos hgt]
  exact hover

theorem process_pair_ones (e : Int) (buffer : List Int) (he0 : 0 ≤ e)
    (he : e + 1 ≤ 2147483647) :
    process_pair true (1, e) ([1], buffer) = some (power_blocks 1 e.toNat [1], buffer) := by
  have hfit : ∀ y ∈ power_blocks 1 e.toNat [1], FitsInt64 y := by
    intro y hy
    rw [power_blocks_one_mem _ y hy]
    exact ⟨by norm_num, by norm_num⟩
  obtain ⟨hw, happ⟩ := process_pair_append 1 e [1] he0 (by simp) (by
    simp only [List.length_singleton, mul_one]
    omega) hfit
  obtain ⟨rest, hrest⟩ := power_blocks_extends 1 e.toNat [1]
  have hget : (power_blocks 1 e.toNat [1])[0]? = some 1 := by
    rw [hrest]
    exact List.getElem?_append_left (by simp)
  have hidx : (((1 : Nat) : Int) - 1).toNat = 0 := rfl
  have hnn : (0 : Int) ≤ ((1 : Nat) : Int) - 1 := by norm_num
  have hngt : ¬ ((1 : Int) > 1) := by norm_num
  simp only [List.length_singleton] at hw happ
  unfold process_pair
  simp only [List.length_singleton, hw, happ, hidx, hget]
  rw [if_pos trivial, if_pos hnn, if_neg hngt]

/-- The sorted run for `[(1, e), (0, 2)]` with `2^29 - 1 <= e`: the exponents are
at least zero and the divisor count `3 * (e + 1)` fits the counter, but the
merge for the second pair leaves the list. -/
theorem generate_factors_merge_overflow (buffer : List Int) (e : Int) (he1 : 536870911 ≤ e)
    (he2 : 3 * (e + 1) ≤ 2147483647) :
    generate_factors buffer [(1, e), (0, 2)] true = none := by
  have he0 : 0 ≤ e := by omega
  have hpfs : ∀ pf ∈ [((1 : Int), e), (0, 2)], 0 ≤ pf.2 := by
    intro pf hpf
    simp only [List.mem_cons, List.mem_singleton, List.not_mem_nil, or_false] at hpf
    rcases hpf with rfl | rfl
    · exact he0
    · norm_num
  have hcount : divisor_count [((1 : Int), e), (0, 2)] = 3 * (e + 1) := by
    simp only [divisor_count, List.map_cons, List.map_nil, List.prod_cons, List.prod_nil]
    ring
  have hprod := product_eq _ hpfs (by rw [hcount]; exact he2)
  rw [hcount] at hprod
  have hS1 : 536870912 ≤ e.toNat + 1 := by omega
  have hS2 : 3 * (e.toNat + 1) ≤ 2147483647 := by omega
  have hlen1 : (power_blocks 1 e.toNat [1]).length = e.toNat + 1 := by
    rw [power_blocks_length]
    simp
  have hnot : ¬ (3 * (e + 1) < 0) := by omega
  have hrl : (resize buffer (3 * (e + 1)).toNat).length = 3 * (e.toNat + 1) := by
    rw [resize_length]
    omega
  have hpair1 := process_pair_ones e (resize buffer (3 * (e + 1)).toNat) he0 (by omega)
  have hpair2 := process_pair_merge_overflow 0 2 rfl rfl (power_blocks 1 e.toNat [1])
    (resize buffer (3 * (e + 1)).toNat) (e.toNat + 1) hlen1 (power_blocks_one_mem e.toNat) hrl
    hS1 hS2
  have hrun : process_pairs true [((1 : Int), e), (0, 2)]
      ([1], resize buffer (3 * (e + 1)).toNat) = none := by
    rw [process_pairs]
    simp only [hpair1]
    rw [process_pairs]
    simp only [hpair2]
  unfold generate_factors
  simp only [hprod, if_true]
  rw [if_neg hnot, hrun]

/-! ## Length of the result and index safety -/

/-- C7, amended: for every factorization with exponents at least zero (so for
every well-formed one) whose divisor count, the product of `exponent + 1` over
all pairs, fits the `int` counter, and is at most a third of its range when
`sorted` is set, `generate_factors` returns a list whose length is the divisor
count, which is also the value of the counter `product`, so the final
assertion holds. For the empty factorization the result is `[1]`. -/
theorem generate_factors_length (buffer : List Int) (sorted : Bool) :
    (∀ pfs : List (Int × Int), (∀ pf ∈ pfs, 0 ≤ pf.2) → divisor_count pfs ≤ 2147483647 →
      (sorted = true → 3 * divisor_count pfs ≤ 2147483647) →
      ∃ factors buffer1, generate_factors buffer pfs sorted = some (factors, buffer1) ∧
        (factors.length : Int) = divisor_count pfs ∧ product pfs = divisor_count pfs) ∧
    ∃ buffer1, generate_factors buffer [] sorted = some ([1], buffer1) := by
  refine ⟨fun pfs he hcount hsorted => generate_factors_in_range buffer pfs sorted he hcount
    hsorted, ?_⟩
  have hprod : product [] = 1 := rfl
  have f1 : FitsInt32 (1 : Int) := ⟨by norm_num, by norm_num⟩
  have hnot : ¬ ((1 : Int) < 0) := by norm_num
  have hone : ((([1] : List Int).length : Nat) : Int) = 1 := rfl
  refine ⟨if sorted = true then resize buffer (1 : Int).toNat else buffer, ?_⟩
  unfold generate_factors
  simp only [hprod, process_pairs, hone, wrap32_eq _ f1]
  rw [if_neg hnot, if_pos trivial]

theorem generate_factors_length_witness :
    (∀ pf ∈ [((2 : Int), (2 : Int)), (3, 2)], 0 ≤ pf.2) ∧
    divisor_count [(2, 2), (3, 2)] ≤ 2147483647 ∧
    (true = true → 3 * divisor_count [(2, 2), (3, 2)] ≤ 2147483647) ∧
    ∃ factors buffer1, generate_factors [] [(2, 2), (3, 2)] true = some (factors, buffer1) ∧
      (factors.length : Int) = divisor_count [(2, 2), (3, 2)] ∧
      product [(2, 2), (3, 2)] = divisor_count [(2, 2), (3, 2)] :=
  ⟨by decide, by decide, fun _ => by decide,
    (generate_factors_length [] true).1 [(2, 2), (3, 2)] (by decide) (by decide)
      (fun _ => by decide)⟩

/-- C18, counterexample: `[(1, 536870911), (0, 2)]` has exponents at least zero
and the divisor count `3 * 2^29 = 1610612736`, which fits the counter: `product`
holds it, and the unsorted run returns a list of that length. In the sorted run
the list holds `2^29` ones and `2^30` zeros when the merge for the second pair
starts; its second pass has `section = 2^30`, the `int` product `2 * section`
is `-2^31`, `length` is negative and the second range of `std::merge` ends
before the list begins. -/
theorem generate_factors_index_out_of_range :
    (∀ pf ∈ [((1 : Int), (536870911 : Int)), (0, 2)], 0 ≤ pf.2) ∧
    divisor_count [(1, 536870911), (0, 2)] ≤ 2147483647 ∧
    product [(1, 536870911), (0, 2)] = 1610612736 ∧
    (∃ factors buffer1,
      generate_factors [] [(1, 536870911), (0, 2)] false = some (factors, buffer1) ∧
      (factors.length : Int) = 1610612736) ∧
    wrap32 (2 * 1073741824) = -2147483648 ∧
    generate_factors [] [(1, 536870911), (0, 2)] true = none := by
  have hcount : divisor_count [(1, 536870911), (0, 2)] = 1610612736 := by decide
  have he : ∀ pf ∈ [((1 : Int), (536870911 : Int)), (0, 2)], 0 ≤ pf.2 := by decide
  obtain ⟨f, b, hrun, hlen, hprod⟩ := generate_factors_in_range []
    [(1, 536870911), (0, 2)] false he (by decide) (fun h => by cases h)
  refine ⟨he, by decide, ?_, ⟨f, b, hrun, ?_⟩, ?_,
    generate_factors_merge_overflow [] 536870911 (by decide) (by decide)⟩
  · rw [hprod, hcount]
  · rw [hlen, hcount]
  · rw [wrap32_overflow _ (by norm_num) (by norm_num)]
    norm_num

/-- C18, amended: for every factorization with exponents at least zero whose
divisor count fits the counter, and is at most a third of its range when
`sorted` is set, every access of `generate_factors` is in range. For each pair,
started on a non-empty list (`before_size >= 1`) and, when sorting, a buffer
that holds the new list, the appending loop reads existing elements, the merge
stays inside the list and the buffer, and the pair ends with a list of
`(exponent + 1) * before_size` elements and a buffer of unchanged size; the
whole run returns a list. -/
theorem generate_factors_indices_in_range (buffer : List Int) (sorted : Bool) :
    (∀ (p e : Int) (factors buffer0 : List Int), 0 ≤ e → 1 ≤ factors.length →
      (e.toNat + 1) * factors.length ≤ 2147483647 →
      (sorted = true → 3 * ((e.toNat + 1) * factors.length) ≤ 2147483647 ∧
        (e.toNat + 1) * factors.length ≤ buffer0.length) →
      ∃ factors1 buffer1,
        process_pair sorted (p, e) (factors, buffer0) = some (factors1, buffer1) ∧
        factors1.length = (e.toNat + 1) * factors.length ∧
        buffer1.length = buffer0.length) ∧
    (∀ pfs : List (Int × Int), (∀ pf ∈ pfs, 0 ≤ pf.2) → divisor_count pfs ≤ 2147483647 →
      (sorted = true → 3 * divisor_count pfs ≤ 2147483647) →
      ∃ factors buffer1, generate_factors buffer pfs sorted = some (factors, buffer1) ∧
        1 ≤ factors.length) := by
  constructor
  · intro p e factors buffer0 he hl hsize hs
    exact process_pair_length sorted p e factors buffer0 he hl hsize hs
  · intro pfs he hcount hs
    obtain ⟨f, b, hrun, hlen, -⟩ := generate_factors_in_range buffer pfs sorted he hcount hs
    have := divisor_count_pos pfs he
    exact ⟨f, b, hrun, by omega⟩

theorem generate_factors_indices_in_range_witness :
    (∀ pf ∈ [((3 : Int), (1 : Int)), (2, 2)], 0 ≤ pf.2) ∧
    divisor_count [(3, 1), (2, 2)] ≤ 2147483647 ∧
    (true = true → 3 * divisor_count [(3, 1), (2, 2)] ≤ 2147483647) ∧
    ∃ factors buffer1, generate_factors [] [(3, 1), (2, 2)] true = some (factors, buffer1) ∧
      1 ≤ factors.length :=
  ⟨by decide, by decide, fun _ => by decide,
    (generate_factors_indices_in_range [] true).2 [(3, 1), (2, 2)] (by decide) (by decide)
      (fun _ => by decide)⟩

end SieveFactor
